import Mathlib

/-!
# Canorus MIDI import

A shallow embedding of `src/import/midiimport.cpp` (class `CAMidiImport`) and a
verification of the statements made about it in the specification.

Conventions of the embedding.

* The byte buffer `peek` (a `QByteArray`) is a `List Nat`; every read masks the
  element with `& 0x0ff`, here `% 256`, so each element stands for one byte.
* `int` values are `Int`.  Arithmetic on `unsigned int` (in `getWord32` and
  `getVariableLength`) is taken modulo `2^32`, and the conversion of the
  `unsigned int` result to the `int` return type is `toInt32`.  The sums and
  differences of `int` values that the decoder and the passes over the event
  lists compute (lines 163, 167, 425, 466-476, 505 and 924) are reduced into the
  range of a 32-bit `int` by `wrapInt32`; the cursor steps of the readers stay
  within the buffer, and the local `time` of `writeMidiChannelEventsToVoice`
  is kept as an `Int`.
* The member variables of the importer that the decoder reads and writes are
  the fields of the structure `CAMidiImport`; a member function becomes a
  function from the state before the call to the result and the state after.
* A `for`/`while` loop whose iteration `i` only touches entries at positions
  `>= i` becomes a recursion over the entries still to be visited; a loop that
  need not terminate takes a fuel argument.
* Classes that live outside `midiimport.cpp` (the score model, `CAMidiDevice`,
  `CAPlayableLength`) are represented by the data the importer hands to them.
-/

namespace Canorus

/-! ## Events -/

/-- The class `CAMidiImportEvent` (lines 22-34). -/
structure CAMidiImportEvent where
  _on : Bool
  _channel : Int
  _pitch : Int
  _velocity : Int
  _time : Int
  _length : Int
  _timeCorrection : Int
  _lengthCorrection : Int
deriving DecidableEq, Repr

/-- The constructor of `CAMidiImportEvent` (lines 36-43): `_length` starts at 0.  The two
correction members are not initialised by the constructor; they are written by
`quantizeMidiFileEvents` before anything reads them, and start at 0 here. -/
def CAMidiImportEvent.new (isOn : Bool) (channel pitch velocity time : Int) :
    CAMidiImportEvent :=
  { _on := isOn, _channel := channel, _pitch := pitch, _velocity := velocity, _time := time,
    _length := 0, _timeCorrection := 0, _lengthCorrection := 0 }

/-! ## The importer state and the byte buffer -/

/-- The members of `CAMidiImport` used by the MIDI decoder.  `_allChannelsEvents` is a
`QList<QList<QList<CAMidiImportEvent*>*>*>`: per channel a list of voices, each a list of
events. -/
structure CAMidiImport where
  _dataIndex : Int
  _nextTrackIndex : Int
  _parseError : Bool
  _microSecondsPerMidiQuarternote : Int
  _allChannelsEvents : List (List (List CAMidiImportEvent))
deriving DecidableEq, Repr

/-- The value of `x->size()`. -/
def size (x : List Nat) : Int := (x.length : Int)

/-- The value of `x->at(i) & 0x0ff`.  An index outside the buffer is outside the defined
behaviour of `QByteArray::at`; it reads as 0 here. -/
def byteAt (x : List Nat) (i : Int) : Nat :=
  if 0 ≤ i then x.getD i.toNat 0 % 256 else 0

/-- The Qt function `QByteArray::mid(pos, len)`, with its clamping of `pos` and `len`. -/
def mid (x : List Nat) (pos len : Int) : List Nat :=
  if pos ≥ size x then []
  else
    let len1 := if len < 0 then size x - pos else len
    let pos2 := if pos < 0 then 0 else pos
    let len2 := if pos < 0 then len1 + pos else len1
    let len3 := if len2 + pos2 > size x then size x - pos2 else len2
    ((x.drop pos2.toNat).take len3.toNat).map (fun b => b % 256)

/-- The conversion of an `unsigned int` to the `int` that the reader functions return. -/
def toInt32 (y : Nat) : Int :=
  if y % 4294967296 < 2147483648 then ((y % 4294967296 : Nat) : Int)
  else ((y % 4294967296 : Nat) : Int) - 4294967296

/-- The value that an arithmetic operation on `int` leaves when its mathematical result is
`v`: the result is reduced modulo `2^32` into the range `-2^31 .. 2^31 - 1` of a 32-bit
`int`. -/
def wrapInt32 (v : Int) : Int :=
  (v + 2147483648) % 4294967296 - 2147483648

/-! ## Stream reader (lines 855-931) -/

/-- The function `getHead` (lines 855-864). -/
def getHead (x : List Nat) (s : CAMidiImport) : List Nat × CAMidiImport :=
  if s._dataIndex < size x - 3 then
    (mid x s._dataIndex 4, { s with _dataIndex := s._dataIndex + 4 })
  else
    ([], { s with _parseError := true })

/-- The function `getWord16` (lines 880-890). -/
def getWord16 (x : List Nat) (s : CAMidiImport) : Nat × CAMidiImport :=
  if s._dataIndex < size x - 1 then
    (((byteAt x s._dataIndex) <<< 8) ||| byteAt x (s._dataIndex + 1),
      { s with _dataIndex := s._dataIndex + 2 })
  else
    (0, { s with _parseError := true })

/-- The function `getByte` (lines 892-902). -/
def getByte (x : List Nat) (s : CAMidiImport) : Nat × CAMidiImport :=
  if s._dataIndex < size x then
    (byteAt x s._dataIndex, { s with _dataIndex := s._dataIndex + 1 })
  else
    (0, { s with _parseError := true })

/-- The function `getWord32` (lines 866-871): two 16-bit reads combined in an
`unsigned int`, returned as `int`. -/
def getWord32 (x : List Nat) (s : CAMidiImport) : Int × CAMidiImport :=
  let r1 := getWord16 x s
  let y := (r1.1 <<< 16) % 4294967296
  let r2 := getWord16 x r1.2
  (toInt32 (y ||| r2.1), r2.2)

/-- The function `getWord24` (lines 873-878). -/
def getWord24 (x : List Nat) (s : CAMidiImport) : Nat × CAMidiImport :=
  let r1 := getWord16 x s
  let y := r1.1 <<< 8
  let r2 := getByte x r1.2
  (y ||| r2.1, r2.2)

/-- The assignment `y = (y << 7) | (byte & 0x7f)` of `getVariableLength` (line 915), on
an `unsigned int`: the shift wraps modulo `2^32`. -/
def vlqStep (y byte : Nat) : Nat := ((y <<< 7) % 4294967296) ||| (byte &&& 0x7f)

/-- The `while` loop of `getVariableLength` (lines 913-918).  The arguments are the
cursor, the accumulator `y` and the flag `next`; the fuel bounds the number of
iterations, each of which moves the cursor forward by one. -/
def getVariableLengthLoop (x : List Nat) : Nat → Int → Nat → Bool → Int × Nat
  | 0, idx, y, _ => (idx, y)
  | fuel + 1, idx, y, next =>
    if idx < size x ∧ next = true then
      let byte := byteAt x idx
      getVariableLengthLoop x fuel (idx + 1) (vlqStep y byte) (decide (byte &&& 0x80 ≠ 0))
    else (idx, y)

/-- The function `getVariableLength` (lines 904-920).  The loop runs at most
`size - _dataIndex` times, which is the fuel given to it. -/
def getVariableLength (x : List Nat) (s : CAMidiImport) : Int × CAMidiImport :=
  let next := decide (s._dataIndex < size x)
  let s1 := { s with _parseError := s._parseError || !next }
  let r := getVariableLengthLoop x (size x - s._dataIndex).toNat s._dataIndex 0 next
  (toInt32 r.2, { s1 with _dataIndex := r.1 })

/-- The function `getString` (lines 922-931).  The sum `_dataIndex + len` is one of two
`int` values. -/
def getString (x : List Nat) (len : Int) (s : CAMidiImport) : List Nat × CAMidiImport :=
  if wrapInt32 (s._dataIndex + len) < size x then
    (mid x s._dataIndex len, { s with _dataIndex := wrapInt32 (s._dataIndex + len) })
  else
    ([], { s with _parseError := true })

/-! ## The standard encoding of a variable-length quantity -/

/-- The groups of seven bits of `v` above the lowest one, most significant first, each
with the high bit set; `fuel` bounds the number of groups. -/
def vlqHighGroups : Nat → Nat → List Nat
  | 0, _ => []
  | fuel + 1, v => if v = 0 then [] else vlqHighGroups fuel (v / 128) ++ [v % 128 + 128]

/-- The standard MIDI variable-length encoding of `v`, as the specification words it:
seven bits per byte, most significant group first, the high bit set on every byte except
the last. -/
def encodeVariableLength (v : Nat) : List Nat :=
  vlqHighGroups v (v / 128) ++ [v % 128]

/-! ## Event combiner (lines 412-442) -/

/-- The test of line 418: the event is a note start. -/
def isNoteStart (e : CAMidiImportEvent) : Bool :=
  e._on && decide (e._velocity > 0) && decide (e._pitch > 0)

/-- The test of lines 423-424: event `ej` ends a note of the given pitch. -/
def isNoteEnd (pitch : Int) (ej : CAMidiImportEvent) : Bool :=
  decide (ej._pitch = pitch) && (!ej._on || decide (ej._velocity = 0))

/-- The assignments of lines 426-427 and 437-438 (also 478-479 and 518-519): the event is
invalidated. -/
def invalidate (e : CAMidiImportEvent) : CAMidiImportEvent :=
  { e with _pitch := -1, _on := false }

/-- The `while` loop of lines 421-431 over the events behind position `i`: it stops at
the first event that ends a note of the given pitch, invalidates it and yields its time;
`none` when the loop runs off the end of the list. -/
def findNoteEnd (pitch : Int) : List CAMidiImportEvent → Option (Int × List CAMidiImportEvent)
  | [] => none
  | ej :: rest =>
    if isNoteEnd pitch ej then some (ej._time, invalidate ej :: rest)
    else
      match findNoteEnd pitch rest with
      | some r => some (r.1, ej :: r.2)
      | none => none

/-- The body of the first `for` loop (lines 418-432) at the event `e = events[i]`, with
the events behind it.  The length is the difference of two `int` values (line 425). -/
def combineAt (e : CAMidiImportEvent) (rest : List CAMidiImportEvent) :
    CAMidiImportEvent × List CAMidiImportEvent :=
  if isNoteStart e then
    match findNoteEnd e._pitch rest with
    | some r => ({ e with _length := wrapInt32 (r.1 - e._time) }, r.2)
    | none => (e, rest)
  else (e, rest)

/-- The first `n` iterations of the first `for` loop (lines 417-433): the events at the
positions below `n` have been visited, the others are in the state in which the loop
finds them at iteration `n`. -/
def combineUpTo : Nat → List CAMidiImportEvent → List CAMidiImportEvent
  | 0, events => events
  | _ + 1, [] => []
  | n + 1, e :: rest => (combineAt e rest).1 :: combineUpTo n (combineAt e rest).2

/-- The second `for` loop (lines 435-440): the unpaired note-ons are invalidated. -/
def cleanupUnpaired (events : List CAMidiImportEvent) : List CAMidiImportEvent :=
  events.map (fun e => if e._on && decide (e._length = 0) then invalidate e else e)

/-- The body of `combineMidiFileEvents` for the event list of one channel. -/
def combineChannelEvents (events : List CAMidiImportEvent) : List CAMidiImportEvent :=
  cleanupUnpaired (combineUpTo events.length events)

/-- The access `_allChannelsEvents[ch]->first()` followed by in-place changes of that list:
the first voice of the channel is replaced.  A channel without a voice list does not occur
(the constructor gives each channel one) and is left as it is. -/
def onFirstVoice (f : List CAMidiImportEvent → List CAMidiImportEvent) :
    List (List CAMidiImportEvent) → List (List CAMidiImportEvent)
  | [] => []
  | events :: others => f events :: others

/-- The function `combineMidiFileEvents` (lines 412-442). -/
def combineMidiFileEvents (s : CAMidiImport) : CAMidiImport :=
  { s with _allChannelsEvents := s._allChannelsEvents.map (onFirstVoice combineChannelEvents) }

/-! ## Quantizer (lines 447-488) -/

/-- The constant `roundQuant` (line 449). -/
def roundQuant : Int := 32

/-- The body of the `for` loop of `quantizeMidiFileEvents` (lines 462-482) for one event.
The division is that of C++ on `int`, which truncates towards zero; sums, products and
differences are those of `int`. -/
def quantizeEvent (e : CAMidiImportEvent) : CAMidiImportEvent :=
  let e0 := { e with _timeCorrection := 0, _lengthCorrection := 0 }
  if e0._on && decide (e0._pitch > 0) then
    let time := e0._time
    let timeRounded := wrapInt32
      (Int.tdiv (wrapInt32 (time + Int.tdiv roundQuant 2)) roundQuant * roundQuant)
    let length := e0._length
    let lenRounded := wrapInt32
      (Int.tdiv (wrapInt32 (length + Int.tdiv roundQuant 2)) roundQuant * roundQuant)
    let e1 := { e0 with _time := timeRounded,
                        _timeCorrection := wrapInt32 (timeRounded - time),
                        _length := lenRounded,
                        _lengthCorrection := wrapInt32 (lenRounded - length) }
    if lenRounded = 0 then { e1 with _on := false, _pitch := -1 } else e1
  else e0

/-- The body of `quantizeMidiFileEvents` for the event list of one channel. -/
def quantizeChannelEvents (events : List CAMidiImportEvent) : List CAMidiImportEvent :=
  events.map quantizeEvent

/-- The function `quantizeMidiFileEvents` (lines 447-488). -/
def quantizeMidiFileEvents (s : CAMidiImport) : CAMidiImport :=
  { s with _allChannelsEvents := s._allChannelsEvents.map (onFirstVoice quantizeChannelEvents) }

/-! ## Overlap resolver (lines 497-528) -/

/-- The `while (true)` loop of lines 509-522 over the events behind position `i`: events
that are not on are skipped, the loop stops at the first on-event that starts at or after
`timeEnd`, and every on-event met before that is invalidated. -/
def eraseOverlapping (timeEnd : Int) : List CAMidiImportEvent → List CAMidiImportEvent
  | [] => []
  | ej :: rest =>
    if !ej._on then ej :: eraseOverlapping timeEnd rest
    else if ej._time ≥ timeEnd then ej :: rest
    else invalidate ej :: eraseOverlapping timeEnd rest

/-- The first `n` iterations of the `for` loop of lines 502-524; `timeEnd` is the `int`
sum of line 505. -/
def exportNonChordsUpTo : Nat → List CAMidiImportEvent → List CAMidiImportEvent
  | 0, events => events
  | _ + 1, [] => []
  | n + 1, e :: rest =>
    if e._on then
      e :: exportNonChordsUpTo n (eraseOverlapping (wrapInt32 (e._time + e._length)) rest)
    else e :: exportNonChordsUpTo n rest

/-- The body of `exportNonChordsToOtherVoices` for the event list of one channel: the loop
visits the positions `0 .. size - 2`. -/
def exportNonChordsChannelEvents (events : List CAMidiImportEvent) : List CAMidiImportEvent :=
  exportNonChordsUpTo (events.length - 1) events

/-- The function `exportNonChordsToOtherVoices` (lines 497-528). -/
def exportNonChordsToOtherVoices (s : CAMidiImport) : CAMidiImport :=
  { s with _allChannelsEvents :=
      s._allChannelsEvents.map (onFirstVoice exportNonChordsChannelEvents) }

/-- The first event of a list that is on, if there is one. -/
def firstOn : List CAMidiImportEvent → Option CAMidiImportEvent
  | [] => none
  | e :: rest => if e._on then some e else firstOn rest

/-- Event `b`, met in the list behind event `a`, does not start before the end of `a`
(stated for events that are both on). -/
def startsAfter (a b : CAMidiImportEvent) : Prop :=
  a._on = true → b._on = true → b._time ≥ a._time + a._length

/-! ## The score model, as far as the importer writes to it -/

/-- The class `CAPlayableLength` (core/playablelength.h): a music length, written as its
denominator (1 = whole, 2 = half, 4 = quarter, ...), and a number of dots; see
`setMusicLength` and `setDotted` in lines 714-721. -/
structure CAPlayableLength where
  musicLength : Nat
  dotted : Nat
deriving DecidableEq, Repr

/-- The class `CADiatonicPitch` (core/diatonicpitch.h): note name and accidentals, see line
691. -/
structure CADiatonicPitch where
  noteName : Int
  accs : Int
deriving DecidableEq, Repr

/-- What the score builder appends to a voice: a `CARest` of type `CARest::Normal` with a
playable length (line 378), or a `CANote` with a pitch and a playable length (line 388).  A
note records whether `setTieStart` and `setTieEnd` were called on it (lines 393-394). -/
inductive CAMusElement where
  | rest (length : CAPlayableLength)
  | note (pitch : CADiatonicPitch) (length : CAPlayableLength) (tieStart tieEnd : Bool)
deriving DecidableEq, Repr

/-- A `CAStaff`: its number of lines and its voices, each the list of the elements appended
to it. -/
structure CAStaff where
  numberOfLines : Nat
  voiceList : List (List CAMusElement)
deriving DecidableEq, Repr

/-- A `CASheet`: the list of its staffs. -/
structure CASheet where
  staffList : List CAStaff
deriving DecidableEq, Repr

/-- The functions of other classes that the score builder calls and that are not part of
`midiimport.cpp`: `CAPlayableLength::timeLengthToPlayableLengthList` (lines 376, 385),
`CAMidiDevice::midiPitchToDiatonicPitch` (line 388), and the tick value of a playable
length, `CAPlayableLength::playableLengthToTimeLength`, in which the durations of the
emitted elements are measured. -/
structure ScoreModel where
  timeLengthToPlayableLengthList : Int → List CAPlayableLength
  midiPitchToDiatonicPitch : Int → CADiatonicPitch
  playableLengthToTimeLength : CAPlayableLength → Int

/-! ## Score builder (lines 320-401) -/

/-- The call `previousNote->setTieStart( slur )` (line 393): `previousNote` is the element
appended last. -/
def setTieStartOfLast : List CAMusElement → List CAMusElement
  | [] => []
  | [CAMusElement.note pitch length _ tieEnd] => [CAMusElement.note pitch length true tieEnd]
  | [x] => [x]
  | x :: y :: rest => x :: setTieStartOfLast (y :: rest)

/-- The `for` loop of lines 387-397: one note per playable length, each but the first tied
to the one before it.  The flag tells whether `previousNote` is set. -/
def writeNotes (pitch : CADiatonicPitch) :
    List CAPlayableLength → Bool → List CAMusElement → List CAMusElement
  | [], _, voice => voice
  | len :: more, previousNote, voice =>
    if previousNote then
      writeNotes pitch more true
        (setTieStartOfLast voice ++ [CAMusElement.note pitch len false true])
    else
      writeNotes pitch more true (voice ++ [CAMusElement.note pitch len false false])

/-- The test of line 371: the event is a valid note. -/
def isValidNote (e : CAMidiImportEvent) : Bool :=
  e._on && decide (e._velocity > 0) && decide (e._pitch > 0) && decide (e._length > 0)

/-- The body of the `for` loop of lines 368-400 over the events still to be visited, with
the running `time` and the voice written so far. -/
def writeEventsLoop (m : ScoreModel) :
    List CAMidiImportEvent → Int → List CAMusElement → Int × List CAMusElement
  | [], time, voice => (time, voice)
  | e :: rest, time, voice =>
    if isValidNote e then
      let length := e._time - time
      let voice1 :=
        if length > 0 then
          voice ++ (m.timeLengthToPlayableLengthList length).map CAMusElement.rest
        else voice
      let time1 := if length > 0 then e._time else time
      let voice2 := writeNotes (m.midiPitchToDiatonicPitch e._pitch)
        (m.timeLengthToPlayableLengthList e._length) false voice1
      writeEventsLoop m rest (time1 + e._length) voice2
    else writeEventsLoop m rest time voice

/-- The loop of `writeMidiChannelEventsToVoice` for a given event list: positions
`i < events->size() && i < 1000` are visited, starting at `time = 0`. -/
def writeChannelEvents (m : ScoreModel) (events : List CAMidiImportEvent)
    (voice : List CAMusElement) : Int × List CAMusElement :=
  writeEventsLoop m (events.take 1000) 0 voice

/-- The function `writeMidiChannelEventsToVoice` (lines 357-401): the events are those of
`_allChannelsEvents[channel]->first()`; the result is the voice after the call. -/
def writeMidiChannelEventsToVoice (m : ScoreModel) (s : CAMidiImport) (channel : Nat)
    (voice : List CAMusElement) : List CAMusElement :=
  (writeChannelEvents m ((s._allChannelsEvents.getD channel []).headD []) voice).2

/-- The replacement of the entry at position `n` of a list. -/
def modifyAt {α : Type} (f : α → α) : Nat → List α → List α
  | _, [] => []
  | 0, x :: rest => f x :: rest
  | n + 1, x :: rest => x :: modifyAt f n rest

/-- The statements `voice = staff->voiceList().first()` (line 340) and
`writeMidiChannelEventsToVoice( ch, staff, voice )` for an existing staff: its first voice
receives the events.  A staff without a voice does not occur in a sheet and is left as it
is. -/
def writeToFirstVoice (m : ScoreModel) (s : CAMidiImport) (ch : Nat) (staff : CAStaff) :
    CAStaff :=
  match staff.voiceList with
  | [] => staff
  | voice :: others =>
    { staff with voiceList := writeMidiChannelEventsToVoice m s ch voice :: others }

/-- The statements of lines 343-347 and 351 for a new staff: five lines, one voice, which
receives the events. -/
def newStaffWithVoice (m : ScoreModel) (s : CAMidiImport) (ch : Nat) : CAStaff :=
  { numberOfLines := 5, voiceList := [writeMidiChannelEventsToVoice m s ch []] }

/-- The body of the `for` loop of `writeMidiFileEventsToScore` (lines 333-354) over the
channels still to be visited, with `staffIndex` and the sheet as written so far. -/
def writeChannelsLoop (m : ScoreModel) (s : CAMidiImport) (numberOfStaffs : Nat) :
    List Nat → Nat → CASheet → CASheet
  | [], _, sheet => sheet
  | ch :: more, staffIndex, sheet =>
    if (s._allChannelsEvents.getD ch []).length = 0 then
      writeChannelsLoop m s numberOfStaffs more staffIndex sheet
    else if staffIndex < numberOfStaffs then
      writeChannelsLoop m s numberOfStaffs more (staffIndex + 1)
        ⟨modifyAt (writeToFirstVoice m s ch) staffIndex sheet.staffList⟩
    else
      writeChannelsLoop m s numberOfStaffs more (staffIndex + 1)
        ⟨sheet.staffList ++ [newStaffWithVoice m s ch]⟩

/-- The function `writeMidiFileEventsToScore` (lines 320-355). -/
def writeMidiFileEventsToScore (m : ScoreModel) (s : CAMidiImport) (sheet : CASheet) :
    CASheet :=
  writeChannelsLoop m s sheet.staffList.length (List.range 16) 0 sheet

/-! ## Chunk and event decoder (lines 102-317) -/

/-- The constants of `CAMidiDevice` (interface/mididevice.h) with which the decoder
compares the bytes it reads.  The header is not part of the sources at hand, so the values
are parameters of the decoder. -/
structure CAMidiDevice where
  Midi_Ctl_Event : Nat
  Meta_Text : Nat
  Meta_Tempo : Nat
  Meta_InstrName : Nat
  Meta_SeqTrkName : Nat
  Meta_SMPTEOffs : Nat
  Meta_Keysig : Nat
  Meta_Timesig : Nat
  Meta_Track_End : Nat
  Midi_Note_On : Nat
  Midi_Note_Off : Nat
  Midi_Prog_Change : Nat
  Midi_Control_Chg : Nat
  Midi_Ctl_Sustain : Nat
deriving DecidableEq, Repr

/-- Modelled from the spec: the values of the `CAMidiDevice` constants, which are declared
outside the sources at hand.  They are the status and meta-event bytes of the Standard MIDI
File format that the specification names (note-on `0x90`, note-off `0x80`, program change,
control change, the meta prefix `0xFF` and the meta types text, track name, instrument name,
end of track, tempo, SMPTE offset, time signature, key signature); `Midi_Ctl_Sustain` is
the controller number 64. -/
def standardMidi : CAMidiDevice :=
  { Midi_Ctl_Event := 0xFF, Meta_Text := 0x01, Meta_Tempo := 0x51, Meta_InstrName := 0x04,
    Meta_SeqTrkName := 0x03, Meta_SMPTEOffs := 0x54, Meta_Keysig := 0x59,
    Meta_Timesig := 0x58, Meta_Track_End := 0x2F, Midi_Note_On := 0x90,
    Midi_Note_Off := 0x80, Midi_Prog_Change := 0xC0, Midi_Control_Chg := 0xB0,
    Midi_Ctl_Sustain := 0x40 }

/-- What the decoder uses and `midiimport.cpp` does not define: the `CAMidiDevice`
constants, and the variable `next` that bounds the loop of line 209 (it is not declared in
`importSheetImpl`). -/
structure DecoderEnv where
  dev : CAMidiDevice
  next : Int

/-- The constructor `CAMidiImport::CAMidiImport` (lines 74-83) with `initMidiImport`
(lines 88-93): sixteen channels with one empty event list each. -/
def CAMidiImport.new : CAMidiImport :=
  { _dataIndex := 0, _nextTrackIndex := 0, _parseError := false,
    _microSecondsPerMidiQuarternote := 0,
    _allChannelsEvents := List.replicate 16 [[]] }

/-- The function `noteOn` (lines 534-538): a new event is appended to the first event list
of the channel. -/
def noteOn (isOn : Bool) (channel : Nat) (pitch velocity time : Int) (s : CAMidiImport) :
    CAMidiImport :=
  let event := CAMidiImportEvent.new isOn (channel : Int) pitch velocity time
  let append := onFirstVoice (fun events => events ++ [event])
  { s with _allChannelsEvents := modifyAt append channel s._allChannelsEvents }

/-- The outcome of the decoding of one event: the loop goes on, or `importSheetImpl`
executes `return 0`. -/
inductive EventFlow where
  | goOn (s : CAMidiImport)
  | return0 (s : CAMidiImport)
deriving DecidableEq, Repr

/-- The loop `for (int i=0;i<next;i++) getByte` of lines 209-212. -/
def readBytes (x : List Nat) : Nat → CAMidiImport → CAMidiImport
  | 0, s => s
  | n + 1, s => readBytes x n (getByte x s).2

/-- The inner `switch (metaEvent)` of lines 174-234, entered after the status byte
`Midi_Ctl_Event` was read. -/
def decodeMetaEvent (env : DecoderEnv) (peek : List Nat) (s : CAMidiImport) : EventFlow :=
  let r := getByte peek s
  let metaEvent := r.1
  if metaEvent = env.dev.Meta_Text then
    let l := getVariableLength peek r.2
    EventFlow.goOn (getString peek l.1 l.2).2
  else if metaEvent = env.dev.Meta_Tempo then
    let l := getByte peek r.2
    let s1 := if l.1 ≠ 3 then { l.2 with _parseError := true } else l.2
    let w := getWord24 peek s1
    EventFlow.goOn { w.2 with _microSecondsPerMidiQuarternote := (w.1 : Int) }
  else if metaEvent = env.dev.Meta_InstrName ∨ metaEvent = env.dev.Meta_SeqTrkName then
    let l := getVariableLength peek r.2
    EventFlow.goOn (getString peek l.1 l.2).2
  else if metaEvent = env.dev.Meta_SMPTEOffs then
    let l := getVariableLength peek r.2
    if l.1 ≠ 5 then EventFlow.goOn { l.2 with _parseError := true }
    else EventFlow.goOn (readBytes peek env.next.toNat l.2)
  else if metaEvent = env.dev.Meta_Keysig then
    let l := getVariableLength peek r.2
    let sharps := getByte peek l.2
    let minor := getByte peek sharps.2
    EventFlow.goOn minor.2
  else if metaEvent = env.dev.Meta_Timesig then
    let l := getVariableLength peek r.2
    let l2 := getWord32 peek l.2
    EventFlow.goOn l2.2
  else if metaEvent = env.dev.Meta_Track_End then
    EventFlow.goOn (getByte peek r.2).2
  else
    EventFlow.return0 r.2

/-- The `default` branch of `switch (event)` (lines 235-285): a message with the command
and the channel in one byte. -/
def decodeChannelEvent (env : DecoderEnv) (peek : List Nat) (event : Nat) (time : Int)
    (s : CAMidiImport) : CAMidiImport :=
  let midiChannel := event &&& 0x0f
  let combinedEvent := event &&& 0x0f0
  if combinedEvent = env.dev.Midi_Note_On then
    let pitch := getByte peek s
    let velocity := getByte peek pitch.2
    noteOn true midiChannel (pitch.1 : Int) (velocity.1 : Int) time velocity.2
  else if combinedEvent = env.dev.Midi_Note_Off then
    let pitch := getByte peek s
    let velocity := getByte peek pitch.2
    noteOn false midiChannel (pitch.1 : Int) (velocity.1 : Int) time velocity.2
  else if combinedEvent = env.dev.Midi_Prog_Change then
    (getByte peek s).2
  else if combinedEvent = env.dev.Midi_Control_Chg then
    (getByte peek (getByte peek s).2).2
  else if combinedEvent = env.dev.Midi_Ctl_Sustain then
    { (getByte peek (getByte peek s).2).2 with _parseError := true }
  else
    { s with _parseError := true }

/-- The outcome of a loop of the decoder: the fuel ran out (the loop needs more
iterations than allowed), `return 0` was executed, or the loop was left through its test. -/
inductive LoopFlow where
  | outOfFuel
  | return0 (s : CAMidiImport)
  | endOfLoop (s : CAMidiImport)
deriving DecidableEq, Repr

/-- The body of the loop over the events of a track (lines 166-285): the delta time, the
status byte and the event behind it.  The result is the new value of the `int` variable
`time` (line 167) and the state after the event. -/
def decodeEvent (env : DecoderEnv) (peek : List Nat) (time : Int) (s : CAMidiImport) :
    Int × EventFlow :=
  let deltaTime := getVariableLength peek s
  let time1 := wrapInt32 (time + deltaTime.1)
  let event := getByte peek deltaTime.2
  if event.1 = env.dev.Midi_Ctl_Event then
    (time1, decodeMetaEvent env peek event.2)
  else
    (time1, EventFlow.goOn (decodeChannelEvent env peek event.1 time1 event.2))

/-- The loop over the events of a track (lines 165-286), with the running `time`. -/
def trackLoop (env : DecoderEnv) (peek : List Nat) : Nat → Int → CAMidiImport → LoopFlow
  | 0, _, s =>
    if s._dataIndex < s._nextTrackIndex ∧ s._parseError = false then LoopFlow.outOfFuel
    else LoopFlow.endOfLoop s
  | fuel + 1, time, s =>
    if s._dataIndex < s._nextTrackIndex ∧ s._parseError = false then
      match decodeEvent env peek time s with
      | (_, EventFlow.return0 s1) => LoopFlow.return0 s1
      | (time1, EventFlow.goOn s1) => trackLoop env peek fuel time1 s1
    else LoopFlow.endOfLoop s

/-- The bytes of the tag `"MThd"`. -/
def tagMThd : List Nat := [0x4D, 0x54, 0x68, 0x64]

/-- The bytes of the tag `"MTrk"`. -/
def tagMTrk : List Nat := [0x4D, 0x54, 0x72, 0x6B]

/-- The loop over the chunks of the file (lines 132-294). -/
def chunkLoop (env : DecoderEnv) (peek : List Nat) : Nat → CAMidiImport → LoopFlow
  | 0, s =>
    if s._dataIndex < size peek ∧ s._parseError = false then LoopFlow.outOfFuel
    else LoopFlow.endOfLoop s
  | fuel + 1, s =>
    if s._dataIndex < size peek ∧ s._parseError = false then
      let head := getHead peek s
      if head.1 = tagMThd then
        let length := getWord32 peek head.2
        let midiFormatVersion := getWord16 peek length.2
        let numberOfTracks := getWord16 peek midiFormatVersion.2
        let midiTimeDivision := getWord16 peek numberOfTracks.2
        chunkLoop env peek fuel midiTimeDivision.2
      else if head.1 = tagMTrk then
        let length := getWord32 peek head.2
        if length.1 < 0 then LoopFlow.return0 length.2
        else
          match trackLoop env peek fuel 0
              { length.2 with
                _nextTrackIndex := wrapInt32 (length.2._dataIndex + length.1) } with
          | LoopFlow.outOfFuel => LoopFlow.outOfFuel
          | LoopFlow.return0 s1 => LoopFlow.return0 s1
          | LoopFlow.endOfLoop s1 => chunkLoop env peek fuel s1
      else LoopFlow.return0 head.2
    else LoopFlow.endOfLoop s

/-- What a call of `importSheetImpl` leaves: the returned pointer (`none` for the null
pointer; otherwise the first sheet of the document as it is after the call) and the state
of the importer. -/
structure ImportResult where
  sheet : Option CASheet
  importer : CAMidiImport
deriving DecidableEq, Repr

/-- The statements of `importSheetImpl` behind the chunk loop (lines 296-316); `sheet` is
`_document->sheetList().first()`. -/
def finishImport (m : ScoreModel) (s : CAMidiImport) (sheet : CASheet) : ImportResult :=
  let s3 := exportNonChordsToOtherVoices (quantizeMidiFileEvents (combineMidiFileEvents s))
  { sheet := some (writeMidiFileEventsToScore m s3 sheet), importer := s3 }

/-- The function `importSheetImpl` (lines 102-317) on the buffer `peek`; `none` when the
fuel does not suffice for the loops of the decoder. -/
def importSheetImpl (env : DecoderEnv) (m : ScoreModel) (fuel : Nat) (peek : List Nat)
    (sheet : CASheet) (s : CAMidiImport) : Option ImportResult :=
  match chunkLoop env peek fuel
      { s with _dataIndex := 0, _nextTrackIndex := 0, _parseError := false } with
  | LoopFlow.outOfFuel => none
  | LoopFlow.return0 s1 => some { sheet := none, importer := s1 }
  | LoopFlow.endOfLoop s1 => some (finishImport m s1 sheet)

/-! ## Descriptions of what the score builder writes -/

/-- The playable length of a rest or a note. -/
def elementLength : CAMusElement → CAPlayableLength
  | CAMusElement.rest length => length
  | CAMusElement.note _ length _ _ => length

/-- A chain of tied notes of one pitch: one note per playable length, every note but the
last with a tie start, every note but the first with a tie end.  The flag says whether the
first note of the chain has a tie end. -/
def tiedNotes (pitch : CADiatonicPitch) : List CAPlayableLength → Bool → List CAMusElement
  | [], _ => []
  | [len], tieEnd => [CAMusElement.note pitch len false tieEnd]
  | len :: len2 :: more, tieEnd =>
    CAMusElement.note pitch len true tieEnd :: tiedNotes pitch (len2 :: more) true

/-! ## A minimal file -/

/-- The file `MThd` (length 6, format 0, one track, division 480) followed by one `MTrk`
of 13 bytes: note-on (pitch 60, velocity 100) at delta 0 on channel 0, note-off (pitch 60,
velocity 0) at delta 480 (`83 60`), end of track. -/
def minimalFile : List Nat :=
  [0x4D, 0x54, 0x68, 0x64, 0, 0, 0, 6, 0, 0, 0, 1, 0x01, 0xE0,
   0x4D, 0x54, 0x72, 0x6B, 0, 0, 0, 13,
   0x00, 0x90, 0x3C, 0x64, 0x83, 0x60, 0x80, 0x3C, 0x00, 0x00, 0xFF, 0x2F, 0x00]

/-- The state of the importer after the decoding of `minimalFile`: channel 0 holds the
note-on and the note-off, the other channels are empty. -/
def minimalFileDecoded : CAMidiImport :=
  { _dataIndex := 35, _nextTrackIndex := 35, _parseError := false,
    _microSecondsPerMidiQuarternote := 0,
    _allChannelsEvents :=
      [[CAMidiImportEvent.new true 0 60 100 0, CAMidiImportEvent.new false 0 60 0 480]]
        :: List.replicate 15 [[]] }

/-- The event list of channel 0 of `minimalFile` after combining, quantizing and overlap
resolution: one valid note (pitch 60, start 0, length 480) and the consumed note-off. -/
def minimalFileEvents : List CAMidiImportEvent :=
  [{ _on := true, _channel := 0, _pitch := 60, _velocity := 100, _time := 0, _length := 480,
     _timeCorrection := 0, _lengthCorrection := 0 },
   { _on := false, _channel := 0, _pitch := -1, _velocity := 0, _time := 480, _length := 0,
     _timeCorrection := 0, _lengthCorrection := 0 }]

/-! ## Chunk boundaries reached by the decoder -/

/-- The test of the chunk loop (line 132). -/
@[reducible] def chunkLoopRuns (peek : List Nat) (s : CAMidiImport) : Prop :=
  s._dataIndex < size peek ∧ s._parseError = false

/-- The state at the head of the track loop, after the tag `MTrk` and a length that is not
negative were read in state `s` (lines 149-163). -/
def trackStart (peek : List Nat) (s : CAMidiImport) : CAMidiImport :=
  { (getWord32 peek (getHead peek s).2).2 with
    _nextTrackIndex := wrapInt32 ((getWord32 peek (getHead peek s).2).2._dataIndex
      + (getWord32 peek (getHead peek s).2).1) }

/-- The relation `ChunkReach env peek s t`: the chunk loop, started at its test in state
`s`, is at its test again in state `t` after some number of complete iterations, each of
which decoded an `MThd` chunk or an `MTrk` chunk whose track loop came to its end. -/
inductive ChunkReach (env : DecoderEnv) (peek : List Nat) : CAMidiImport → CAMidiImport → Prop
  | here (s : CAMidiImport) : ChunkReach env peek s s
  | header (s t : CAMidiImport) : chunkLoopRuns peek s → (getHead peek s).1 = tagMThd →
      ChunkReach env peek
        (getWord16 peek (getWord16 peek (getWord16 peek
          (getWord32 peek (getHead peek s).2).2).2).2).2 t →
      ChunkReach env peek s t
  | track (s s1 t : CAMidiImport) (fuel : Nat) : chunkLoopRuns peek s →
      (getHead peek s).1 = tagMTrk → ¬ (getWord32 peek (getHead peek s).2).1 < 0 →
      trackLoop env peek fuel 0 (trackStart peek s) = LoopFlow.endOfLoop s1 →
      ChunkReach env peek s1 t →
      ChunkReach env peek s t

/-- Modelled from the spec: the tick value of a playable length, which
`CAPlayableLength::playableLengthToTimeLength` (core/playablelength.cpp, not among the
sources at hand) computes.  Section 4.6 obtains the base lengths from the whole note by
halving, so a base length with denominator `musicLength` lasts `wholeTicks / musicLength`
ticks, and every dot adds half of what was added before it.  The tick value of the whole
note is a parameter. -/
def playableTicks (wholeTicks : Nat) (p : CAPlayableLength) : Nat :=
  ((List.range (p.dotted + 1)).map (fun i => wholeTicks / (p.musicLength * 2 ^ i))).sum

/-- Modelled from the spec: for one candidate base length, the largest number of dots, up
to the given maximum, with which the tick value is at most the remaining duration `d`
(section 4.6: "with up to a configured maximum number of dots"); `none` when not even the
undotted length fits. -/
def fittingDots (wholeTicks musicLength d : Nat) : Nat → Option Nat
  | 0 => if playableTicks wholeTicks ⟨musicLength, 0⟩ ≤ d then some 0 else none
  | j + 1 =>
    if playableTicks wholeTicks ⟨musicLength, j + 1⟩ ≤ d then some (j + 1)
    else fittingDots wholeTicks musicLength d j

/-- Modelled from the spec: the search for the largest base length that fits (section 4.6:
"if no (base, dots) combination's tick value is <= remaining d, halve the candidate base
length and retry").  Halving the base length doubles its denominator; the fuel bounds the
number of candidates tried. -/
def findFitting (wholeTicks dotsLimit d : Nat) : Nat → Nat → Option CAPlayableLength
  | 0, _ => none
  | fuel + 1, musicLength =>
    match fittingDots wholeTicks musicLength d dotsLimit with
    | some j => some ⟨musicLength, j⟩
    | none => findFitting wholeTicks dotsLimit d fuel (2 * musicLength)

/-- Modelled from the spec: the loop of section 4.6, "once a fitting combination is found,
subtract its tick value from d, append it to the result, and repeat until d == 0", started
at every round with the whole note as candidate.  The fuel bounds the number of rounds. -/
def decomposeLoop (wholeTicks dotsLimit : Nat) : Nat → Nat → List CAPlayableLength
  | 0, _ => []
  | fuel + 1, d =>
    if d = 0 then []
    else
      match findFitting wholeTicks dotsLimit d (wholeTicks + 1) 1 with
      | some p => p :: decomposeLoop wholeTicks dotsLimit fuel (d - playableTicks wholeTicks p)
      | none => []

/-- Modelled from the spec: `CAPlayableLength::timeLengthToPlayableLengthList`
(core/playablelength.cpp, not among the sources at hand), the Rhythm Reconstructor of
section 4.6, for a whole note of `wholeTicks` ticks and at most `dotsLimit` dots.  Every
round takes at least one tick, so `d` rounds are allowed. -/
def timeLengthToPlayableLengthList (wholeTicks dotsLimit : Nat) (d : Int) :
    List CAPlayableLength :=
  decomposeLoop wholeTicks dotsLimit d.toNat d.toNat

/-- The greedy rule of section 4.6 for one element: `p` fits into the remaining duration
`d`; its base length is the largest one that fits (every base length obtained by fewer
halvings is too long, with any number of dots); and it carries the largest number of
dots, up to the maximum, that fits. -/
def IsGreedyChoice (wholeTicks dotsLimit d : Nat) (p : CAPlayableLength) : Prop :=
  playableTicks wholeTicks p ≤ d ∧ p.dotted ≤ dotsLimit ∧
  (∃ k, p.musicLength = 2 ^ k ∧
    ∀ k', k' < k → ∀ j, j ≤ dotsLimit → d < playableTicks wholeTicks ⟨2 ^ k', j⟩) ∧
  (∀ j, p.dotted < j → j ≤ dotsLimit → d < playableTicks wholeTicks ⟨p.musicLength, j⟩)

/-- The greedy rule for a whole sequence: every element is the greedy choice for what
remains after the elements before it, and nothing remains at the end. -/
def IsGreedyDecomposition (wholeTicks dotsLimit : Nat) : Nat → List CAPlayableLength → Prop
  | d, [] => d = 0
  | d, p :: rest =>
    IsGreedyChoice wholeTicks dotsLimit d p ∧
      IsGreedyDecomposition wholeTicks dotsLimit (d - playableTicks wholeTicks p) rest

/-- The test of the track loop (line 165). -/
@[reducible] def trackLoopRuns (s : CAMidiImport) : Prop :=
  s._dataIndex < s._nextTrackIndex ∧ s._parseError = false

/-- The state of the importer behind the decoding of one event, whichever way the decoder
goes on. -/
def EventFlow.state : EventFlow → CAMidiImport
  | EventFlow.goOn s => s
  | EventFlow.return0 s => s

/-- The relation `TrackReach env peek time s deltas time2 s2`: the track loop, at its test
with the running time `time` in state `s`, is at its test again with the running time
`time2` in state `s2` after complete iterations, none of which executed `return 0`;
`deltas` lists the delta times that `getVariableLength` returned in these iterations, in
order. -/
inductive TrackReach (env : DecoderEnv) (peek : List Nat) :
    Int → CAMidiImport → List Int → Int → CAMidiImport → Prop
  | here (time : Int) (s : CAMidiImport) : TrackReach env peek time s [] time s
  | step (time time1 time2 : Int) (s s1 s2 : CAMidiImport) (deltas : List Int) :
      trackLoopRuns s → decodeEvent env peek time s = (time1, EventFlow.goOn s1) →
      TrackReach env peek time1 s1 deltas time2 s2 →
      TrackReach env peek time s ((getVariableLength peek s).1 :: deltas) time2 s2

/-! ## Event lists across calls -/

/-- The event lists `after` hold, channel by channel, what the lists `before` hold, with
possibly more events behind them in the first list of a channel. -/
def extendsLists (before after : List (List (List CAMidiImportEvent))) : Prop :=
  after.length = before.length ∧
  ∀ (c : Nat) (voices : List (List CAMidiImportEvent)), before[c]? = some voices →
    ∃ new, after[c]? = some (onFirstVoice (fun events => events ++ new) voices)

/-! ## Lists sorted by start time -/

/-- The start times of the events of the list that are on do not decrease in list order. -/
def onTimesSorted (events : List CAMidiImportEvent) : Prop :=
  events.Pairwise (fun a b => a._on = true → b._on = true → a._time ≤ b._time)

/-! ## The loop of the score builder with its index -/

/-- The `for` loop of `writeMidiChannelEventsToVoice` (lines 368-400) with its index `i`, its
test `i < events->size() && i < 1000`, the running `time` and the voice written so far.  The
loop makes at most `events->size()` iterations; the fuel bounds their number. -/
def writeEventsFor (m : ScoreModel) (events : List CAMidiImportEvent) :
    Nat → Nat → Int → List CAMusElement → Int × List CAMusElement
  | 0, _, time, voice => (time, voice)
  | fuel + 1, i, time, voice =>
    if i < events.length ∧ i < 1000 then
      match events[i]? with
      | none => (time, voice)
      | some e =>
        if isValidNote e then
          let length := e._time - time
          let voice1 :=
            if length > 0 then
              voice ++ (m.timeLengthToPlayableLengthList length).map CAMusElement.rest
            else voice
          let time1 := if length > 0 then e._time else time
          let voice2 := writeNotes (m.midiPitchToDiatonicPitch e._pitch)
            (m.timeLengthToPlayableLengthList e._length) false voice1
          writeEventsFor m events fuel (i + 1) (time1 + e._length) voice2
        else writeEventsFor m events fuel (i + 1) time voice
    else (time, voice)

/-! ## Terminating events -/

/-- The event is a terminating event: a note-off, or an on-event with velocity 0 (the second
part of the test of lines 423-424). -/
def isTerminating (e : CAMidiImportEvent) : Bool :=
  !e._on || decide (e._velocity = 0)

/-- The event is a terminating event that a note can still consume: its pitch is above 0. -/
def isLiveTerminating (e : CAMidiImportEvent) : Bool :=
  isTerminating e && decide (e._pitch > 0)

/-! ## Files with a text event of negative length -/

/-- A file of one track of declared length 8 that holds one text meta event, `00 FF 01`,
whose length is written as the five bytes `8F FF FF FF 78`: `getVariableLength` returns it
as `-8`. -/
def rewindingFile : List Nat :=
  [0x4D, 0x54, 0x72, 0x6B, 0, 0, 0, 8, 0x00, 0xFF, 0x01, 0x8F, 0xFF, 0xFF, 0xFF, 0x78]

/-- The same file with the length bytes `8F FF FF FF 6F`, which `getVariableLength` returns
as `-17`. -/
def underrunFile : List Nat :=
  [0x4D, 0x54, 0x72, 0x6B, 0, 0, 0, 8, 0x00, 0xFF, 0x01, 0x8F, 0xFF, 0xFF, 0xFF, 0x6F]

/-! ## Arithmetic on `int` -/

/-- The expression `(v + roundQuant/2) / roundQuant * roundQuant` of lines 467-468 and
473-474, evaluated on `int`: `v` rounded to a multiple of 32. -/
def quantRound (v : Int) : Int :=
  wrapInt32 (Int.tdiv (wrapInt32 (v + Int.tdiv roundQuant 2)) roundQuant * roundQuant)

/-- The value lies in the range of a 32-bit `int`. -/
def inInt32 (v : Int) : Prop := -2147483648 ≤ v ∧ v ≤ 2147483647

/-- The running time of a track after the delta times `deltas` were added to `time` one
after the other (line 167, `time += deltaTime`), every sum being an `int`. -/
def runningTime (time : Int) (deltas : List Int) : Int :=
  deltas.foldl (fun t deltaTime => wrapInt32 (t + deltaTime)) time

/-- The track of the note-on (pitch 60, velocity 100) at delta time 2147483647
(`87 FF FF FF 7F`) and the note-off at delta time 1, without a header chunk. -/
def longDeltaFile : List Nat :=
  [0x4D, 0x54, 0x72, 0x6B, 0, 0, 0, 0x0C,
   0x87, 0xFF, 0xFF, 0xFF, 0x7F, 0x90, 0x3C, 0x64, 0x01, 0x80, 0x3C, 0x00]

/-- One track without a header chunk: note-on (pitch 60) at delta time -2147483648
(`88 80 80 80 00`), its note-off at delta time -96 (`8F FF FF FF 20`), note-on (pitch 62) at
delta time 0 and its note-off at delta time 32. -/
def negativeEndFile : List Nat :=
  [0x4D, 0x54, 0x72, 0x6B, 0, 0, 0, 0x18,
   0x88, 0x80, 0x80, 0x80, 0x00, 0x90, 0x3C, 0x64,
   0x8F, 0xFF, 0xFF, 0xFF, 0x20, 0x80, 0x3C, 0x00,
   0x00, 0x90, 0x3E, 0x64,
   0x20, 0x80, 0x3E, 0x00]

/-! # Theorems -/

/-! ## Lemmas on `int` arithmetic -/

theorem wrapInt32_eq (v : Int) (h1 : -2147483648 ≤ v) (h2 : v ≤ 2147483647) :
    wrapInt32 v = v := by
  unfold wrapInt32; omega

theorem wrapInt32_range (v : Int) : -2147483648 ≤ wrapInt32 v ∧ wrapInt32 v ≤ 2147483647 := by
  unfold wrapInt32; omega

/-- A sum that is not below the range is not raised by the reduction to 32 bits. -/
theorem wrapInt32_le (v : Int) (h : -2147483648 ≤ v) : wrapInt32 v ≤ v := by
  unfold wrapInt32; omega

/-- A sum that is not above the range is not lowered by the reduction to 32 bits. -/
theorem le_wrapInt32 (v : Int) (h : v ≤ 2147483647) : v ≤ wrapInt32 v := by
  unfold wrapInt32; omega

/-- The truncating division by 32 in terms of the flooring one. -/
theorem tdiv_32_eq (a : Int) :
    Int.tdiv a 32 = if 0 ≤ a then a / 32 else -((-a) / 32) := by
  split
  · next h => exact Int.tdiv_eq_ediv h (by decide)
  · next h =>
    have h1 : Int.tdiv (-a) 32 = (-a) / 32 := Int.tdiv_eq_ediv (by omega) (by decide)
    have h2 : Int.tdiv (-a) 32 = -(Int.tdiv a 32) := Int.neg_tdiv a 32
    omega

/-- The product in `quantRound` does not leave the range of `int`. -/
theorem quantRound_eq (v : Int) :
    quantRound v = Int.tdiv (wrapInt32 (v + 16)) 32 * 32 := by
  have h16 : Int.tdiv 32 2 = 16 := by decide
  have hr := wrapInt32_range (v + 16)
  unfold quantRound
  rw [roundQuant, h16]
  apply wrapInt32_eq
  · rw [tdiv_32_eq]; split <;> omega
  · rw [tdiv_32_eq]; split <;> omega

/-- As long as `v + 16` is in the range of `int`, nothing wraps in `quantRound`. -/
theorem quantRound_of_range (v : Int) (h1 : -2147483664 ≤ v) (h2 : v ≤ 2147483631) :
    quantRound v = Int.tdiv (v + 16) 32 * 32 := by
  rw [quantRound_eq, wrapInt32_eq (v + 16) (by omega) (by omega)]

/-- As long as `v` and `v + 16` are in the range of `int`, the correction does not wrap. -/
theorem quantRound_correction (v : Int) (h1 : -2147483648 ≤ v) (h2 : v ≤ 2147483631) :
    wrapInt32 (quantRound v - v) = Int.tdiv (v + 16) 32 * 32 - v := by
  rw [quantRound_of_range v (by omega) h2]
  apply wrapInt32_eq
  · rw [tdiv_32_eq]; split <;> omega
  · rw [tdiv_32_eq]; split <;> omega

/-! ## The quantizer at one event -/

/-- The quantizer at a valid on-event. -/
theorem quantizeEvent_valid (e : CAMidiImportEvent) (hon : e._on = true)
    (hpitch : e._pitch > 0) :
    quantizeEvent e
      = if quantRound e._length = 0 then
          { e with _time := quantRound e._time,
                   _timeCorrection := wrapInt32 (quantRound e._time - e._time),
                   _length := quantRound e._length,
                   _lengthCorrection := wrapInt32 (quantRound e._length - e._length),
                   _on := false, _pitch := -1 }
        else
          { e with _time := quantRound e._time,
                   _timeCorrection := wrapInt32 (quantRound e._time - e._time),
                   _length := quantRound e._length,
                   _lengthCorrection := wrapInt32 (quantRound e._length - e._length) } := by
  simp only [quantizeEvent, quantRound, hon, hpitch, decide_True, Bool.and_self, if_true]

/-- The quantizer at a valid on-event whose start time and length, also with 16 added, are
in the range of `int`: nothing wraps. -/
theorem quantizeEvent_valid_range (e : CAMidiImportEvent) (hon : e._on = true)
    (hpitch : e._pitch > 0) (ht1 : -2147483648 ≤ e._time) (ht2 : e._time ≤ 2147483631)
    (hl1 : -2147483648 ≤ e._length) (hl2 : e._length ≤ 2147483631) :
    quantizeEvent e
      = if Int.tdiv (e._length + 16) 32 * 32 = 0 then
          { e with _time := Int.tdiv (e._time + 16) 32 * 32,
                   _timeCorrection := Int.tdiv (e._time + 16) 32 * 32 - e._time,
                   _length := Int.tdiv (e._length + 16) 32 * 32,
                   _lengthCorrection := Int.tdiv (e._length + 16) 32 * 32 - e._length,
                   _on := false, _pitch := -1 }
        else
          { e with _time := Int.tdiv (e._time + 16) 32 * 32,
                   _timeCorrection := Int.tdiv (e._time + 16) 32 * 32 - e._time,
                   _length := Int.tdiv (e._length + 16) 32 * 32,
                   _lengthCorrection := Int.tdiv (e._length + 16) 32 * 32 - e._length } := by
  rw [quantizeEvent_valid e hon hpitch, quantRound_correction e._time ht1 ht2,
    quantRound_correction e._length hl1 hl2, quantRound_of_range e._time (by omega) ht2,
    quantRound_of_range e._length (by omega) hl2]

/-- The quantizer at an event that is off or has no positive pitch. -/
theorem quantizeEvent_other (e : CAMidiImportEvent) (h : ¬ (e._on = true ∧ e._pitch > 0)) :
    quantizeEvent e = { e with _timeCorrection := 0, _lengthCorrection := 0 } := by
  have : (e._on && decide (e._pitch > 0)) = false := by
    rcases Bool.eq_false_or_eq_true e._on with h1 | h1
    · have : ¬ e._pitch > 0 := fun hp => h ⟨h1, hp⟩
      simp [h1, this]
    · simp [h1]
  simp only [quantizeEvent, this, Bool.false_eq_true, if_false]


/-! ## Lemmas on the stream reader -/

theorem byteAt_append_length (pre : List Nat) (b : Nat) (rest : List Nat) :
    byteAt (pre ++ b :: rest) (pre.length : Int) = b % 256 := by
  have h : (pre ++ b :: rest)[pre.length]? = some b := by
    rw [List.getElem?_append_right (le_refl _)]; simp
  simp [byteAt, List.getD_eq_getElem?_getD, h]

theorem and_0x80_ne_zero_iff (b : Nat) (hb : b < 256) : (b &&& 0x80 ≠ 0) ↔ 128 ≤ b := by
  interval_cases b <;> decide

theorem and_0x7f_eq_mod (b : Nat) : b &&& 0x7f = b % 128 :=
  Nat.and_pow_two_sub_one_eq_mod b 7

theorem vlqStep_eq (y b : Nat) (hy : y < 33554432) : vlqStep y b = y * 128 + b % 128 := by
  unfold vlqStep
  rw [and_0x7f_eq_mod, Nat.shiftLeft_eq]
  have h1 : y * 2 ^ 7 % 4294967296 = 2 ^ 7 * y := by
    rw [Nat.mod_eq_of_lt (by omega)]; ring
  rw [h1, ← Nat.mul_add_lt_is_or (Nat.mod_lt _ (by norm_num)) y]
  ring

/-- The loop of `getVariableLength` run over a block of continuation bytes. -/
theorem getVariableLengthLoop_groups (gs : List Nat) :
    ∀ (pre rest : List Nat) (y fuel : Nat), (∀ g ∈ gs, 128 ≤ g ∧ g < 256) →
      getVariableLengthLoop (pre ++ gs ++ rest) (gs.length + fuel) (pre.length : Int) y true
        = getVariableLengthLoop (pre ++ gs ++ rest) fuel ((pre.length : Int) + gs.length)
            (gs.foldl vlqStep y) true := by
  induction gs with
  | nil => intro pre rest y fuel _; simp
  | cons g gs ih =>
    intro pre rest y fuel hg
    have hg1 := hg g (List.mem_cons_self _ _)
    have hlt : ((pre.length : Int) < size (pre ++ g :: gs ++ rest)) := by
      simp [size]; omega
    have hfuel : (g :: gs).length + fuel = (gs.length + fuel) + 1 := by simp; omega
    rw [hfuel, getVariableLengthLoop]
    have hb : byteAt (pre ++ g :: gs ++ rest) (pre.length : Int) = g := by
      have := byteAt_append_length pre g (gs ++ rest)
      simp only [List.append_assoc, List.cons_append] at this ⊢
      rw [this]; omega
    simp only [hlt, and_self, if_true, hb]
    have hnext : decide (g &&& 0x80 ≠ 0) = true := by
      simpa using (and_0x80_ne_zero_iff g hg1.2).2 hg1.1
    rw [hnext]
    have hx : pre ++ g :: gs ++ rest = (pre ++ [g]) ++ gs ++ rest := by simp
    have := ih (pre ++ [g]) rest (vlqStep y g) fuel
      (fun g' hg' => hg g' (List.mem_cons_of_mem _ hg'))
    rw [hx]
    simp only [List.length_append, List.length_singleton, Nat.cast_add, Nat.cast_one] at this
    rw [this]
    have hi : (pre.length : Int) + 1 + gs.length = (pre.length : Int) + ((g :: gs).length : Nat) := by
      simp; omega
    rw [hi]; rfl

theorem vlqHighGroups_bounds : ∀ (fuel w : Nat), ∀ g ∈ vlqHighGroups fuel w, 128 ≤ g ∧ g < 256 := by
  intro fuel
  induction fuel with
  | zero => intro w g hg; simp [vlqHighGroups] at hg
  | succ n ih =>
    intro w g hg
    unfold vlqHighGroups at hg
    split at hg
    · simp at hg
    · rcases List.mem_append.1 hg with h | h
      · exact ih _ g h
      · simp at h; omega

theorem vlqHighGroups_foldl : ∀ (fuel w : Nat), w ≤ fuel → w < 33554432 →
    (vlqHighGroups fuel w).foldl vlqStep 0 = w := by
  intro fuel
  induction fuel with
  | zero => intro w h _; have : w = 0 := by omega
            subst this; simp [vlqHighGroups]
  | succ n ih =>
    intro w h hw
    unfold vlqHighGroups
    split
    · next h0 => simp [h0]
    · next h0 =>
      rw [List.foldl_append, ih (w / 128) (by omega) (by omega)]
      simp only [List.foldl_cons, List.foldl_nil]
      rw [vlqStep_eq _ _ (by omega)]
      omega

theorem getVariableLengthLoop_stop (x : List Nat) (fuel : Nat) (idx : Int) (y : Nat) :
    getVariableLengthLoop x fuel idx y false = (idx, y) := by
  cases fuel <;> simp [getVariableLengthLoop]

theorem toInt32_of_lt (y : Nat) (h : y < 2147483648) : toInt32 y = (y : Int) := by
  unfold toInt32
  have h1 : y % 4294967296 = y := Nat.mod_eq_of_lt (by omega)
  rw [h1, if_pos h]

/-- C1: for every value `v` in `[0, 0x0FFFFFFF]`, when the standard variable-length
encoding of `v` starts at the cursor, `getVariableLength` returns `v`, advances the cursor by
the number of encoded bytes and leaves the parse-error flag as it was. -/
theorem getVariableLength_encodeVariableLength (v : Nat) (hv : v ≤ 0x0FFFFFFF)
    (pre post : List Nat) (s : CAMidiImport) (hs : s._dataIndex = (pre.length : Int)) :
    getVariableLength (pre ++ encodeVariableLength v ++ post) s
      = ((v : Int),
          { s with _dataIndex := s._dataIndex + ((encodeVariableLength v).length : Int) }) := by
  have hb := vlqHighGroups_bounds v (v / 128)
  have hf := vlqHighGroups_foldl v (v / 128) (Nat.div_le_self _ _) (by omega)
  have hx : pre ++ encodeVariableLength v ++ post
      = pre ++ vlqHighGroups v (v / 128) ++ (v % 128 :: post) := by
    simp [encodeVariableLength]
  have hlt : s._dataIndex < size (pre ++ encodeVariableLength v ++ post) := by
    rw [hs]; simp [size, encodeVariableLength]; omega
  have hfuel : (size (pre ++ encodeVariableLength v ++ post) - s._dataIndex).toNat
      = (vlqHighGroups v (v / 128)).length + (post.length + 1) := by
    rw [hs]; simp [size, encodeVariableLength]; omega
  unfold getVariableLength
  simp only [hlt, decide_True, Bool.not_true, Bool.or_false, hfuel]
  rw [hx, hs, getVariableLengthLoop_groups _ pre (v % 128 :: post) 0 (post.length + 1) hb, hf,
    getVariableLengthLoop]
  have hlt2 : ((pre.length : Int) + ((vlqHighGroups v (v / 128)).length : Nat)
      < size (pre ++ vlqHighGroups v (v / 128) ++ v % 128 :: post)) := by
    simp [size]
  have hbyte : byteAt (pre ++ vlqHighGroups v (v / 128) ++ v % 128 :: post)
      ((pre.length : Int) + ((vlqHighGroups v (v / 128)).length : Nat)) = v % 128 := by
    have := byteAt_append_length (pre ++ vlqHighGroups v (v / 128)) (v % 128) post
    simp only [List.length_append, Nat.cast_add] at this
    rw [this]; omega
  have hnext : decide (v % 128 &&& 0x80 ≠ 0) = false := by
    have := (and_0x80_ne_zero_iff (v % 128) (by omega))
    simp only [decide_eq_false_iff_not, this]; omega
  simp only [hlt2, and_self, if_true, hbyte, hnext, getVariableLengthLoop_stop]
  rw [vlqStep_eq _ _ (by omega)]
  have hv2 : v / 128 * 128 + v % 128 % 128 = v := by omega
  rw [hv2, toInt32_of_lt v (by omega)]
  have hlen : ((encodeVariableLength v).length : Int)
      = ((vlqHighGroups v (v / 128)).length : Nat) + 1 := by
    simp [encodeVariableLength]
  rw [hlen, add_assoc]

/-- Witness for `getVariableLength_encodeVariableLength`: the two-byte encoding `83 60` of
480 behind one other byte. -/
theorem getVariableLength_encodeVariableLength_witness :
    getVariableLength ([0] ++ encodeVariableLength 480 ++ [7]) ⟨1, 0, false, 0, []⟩
      = ((480 : Int), ⟨1 + 2, 0, false, 0, []⟩) :=
  getVariableLength_encodeVariableLength 480 (by decide) [0] [7] ⟨1, 0, false, 0, []⟩ rfl

/-! ## Quantizer -/

/-- C3 (as stated): the quantizer does not move a valid on-event with start 50 and length
47 to start 32 with time correction -18; the claimed outcome is not what the code
computes. -/
theorem quantize_start50_length47_not_start32 :
    ¬ ((quantizeChannelEvents
          [{ _on := true, _channel := 0, _pitch := 60, _velocity := 100, _time := 50,
             _length := 47, _timeCorrection := 0, _lengthCorrection := 0 }]).map
        (fun e => (e._time, e._length, e._timeCorrection, e._lengthCorrection))
        = [(32, 32, -18, -15)]) := by
  decide

/-- C3 (amended): with grid unit 32, the quantizer leaves a valid on-event with start 50
and length 47 with start 64 (the nearest multiple of 32), length 32, time correction +14
and length correction -15, and keeps it valid. -/
theorem quantize_start50_length47 (pre post : List CAMidiImportEvent) (e : CAMidiImportEvent)
    (hon : e._on = true) (hpitch : e._pitch > 0) (htime : e._time = 50)
    (hlength : e._length = 47) :
    roundQuant = 32 ∧
    quantizeChannelEvents (pre ++ e :: post)
      = quantizeChannelEvents pre
          ++ { e with _time := 64, _length := 32, _timeCorrection := 14,
                      _lengthCorrection := -15 }
          :: quantizeChannelEvents post := by
  refine ⟨rfl, ?_⟩
  simp only [quantizeChannelEvents, List.map_append, List.map_cons, List.append_cancel_left_eq,
    List.cons.injEq, and_true]
  have h1 : quantRound 50 = 64 := by decide
  have h2 : quantRound 47 = 32 := by decide
  have h3 : wrapInt32 (64 - 50) = 14 := by decide
  have h4 : wrapInt32 (32 - 47) = -15 := by decide
  rw [quantizeEvent_valid e hon hpitch, htime, hlength, h1, h2, h3, h4]
  simp

/-- Witness for `quantize_start50_length47`: the event alone in its list. -/
theorem quantize_start50_length47_witness :
    quantizeChannelEvents
        ([] ++ [{ _on := true, _channel := 0, _pitch := 60, _velocity := 100, _time := 50,
                  _length := 47, _timeCorrection := 0, _lengthCorrection := 0 }])
      = [{ _on := true, _channel := 0, _pitch := 60, _velocity := 100, _time := 64,
           _length := 32, _timeCorrection := 14, _lengthCorrection := -15 }] :=
  (quantize_start50_length47 [] []
    { _on := true, _channel := 0, _pitch := 60, _velocity := 100, _time := 50,
      _length := 47, _timeCorrection := 0, _lengthCorrection := 0 } rfl (by decide) rfl rfl).2

/-! ## Event combiner -/

/-- What a successful `findNoteEnd` does: one event, the first that ends a note of the
pitch, is replaced by its invalidated copy. -/
theorem findNoteEnd_some (pitch : Int) :
    ∀ (l : List CAMidiImportEvent) (r : Int × List CAMidiImportEvent),
      findNoteEnd pitch l = some r →
      ∃ k ek, l[k]? = some ek ∧ isNoteEnd pitch ek = true ∧ r.1 = ek._time ∧
        r.2 = l.set k (invalidate ek) := by
  intro l
  induction l with
  | nil => intro r h; simp [findNoteEnd] at h
  | cons ej rest ih =>
    intro r h
    unfold findNoteEnd at h
    split at h
    · next hend =>
      cases h
      exact ⟨0, ej, by simp, hend, rfl, by simp⟩
    · split at h
      · next r' hr' =>
        cases h
        obtain ⟨k, ek, h1, h2, h3, h4⟩ := ih r' hr'
        exact ⟨k + 1, ek, by simpa using h1, h2, h3, by simp [h4]⟩
      · cases h

/-- The first event behind `i` that ends a note of the pitch is the one `findNoteEnd`
consumes. -/
theorem findNoteEnd_first (pitch : Int) :
    ∀ (l : List CAMidiImportEvent) (k : Nat) (ek : CAMidiImportEvent),
      l[k]? = some ek → isNoteEnd pitch ek = true →
      (∀ k', k' < k → ∀ e', l[k']? = some e' → isNoteEnd pitch e' = false) →
      findNoteEnd pitch l = some (ek._time, l.set k (invalidate ek)) := by
  intro l
  induction l with
  | nil => intro k ek h; simp at h
  | cons ej rest ih =>
    intro k ek hk hend hfirst
    cases k with
    | zero =>
      simp at hk
      subst hk
      simp [findNoteEnd, hend]
    | succ k =>
      have h0 : isNoteEnd pitch ej = false := hfirst 0 (Nat.succ_pos _) ej (by simp)
      have hrest := ih k ek (by simpa using hk) hend
        (fun k' hk' e' he' => hfirst (k' + 1) (by omega) e' (by simpa using he'))
      simp [findNoteEnd, h0, hrest]

theorem findNoteEnd_none (pitch : Int) :
    ∀ (l : List CAMidiImportEvent), findNoteEnd pitch l = none →
      ∀ e ∈ l, isNoteEnd pitch e = false := by
  intro l
  induction l with
  | nil => intro _ e he; simp at he
  | cons ej rest ih =>
    intro h e he
    unfold findNoteEnd at h
    split at h
    · cases h
    · next hend =>
      split at h
      · cases h
      · next hnone =>
        rcases List.mem_cons.1 he with h1 | h1
        · subst h1; simpa using hend
        · exact ih hnone e h1

/-- The events behind `i` after iteration `i`: either nothing changed, or one event that
ends a note was invalidated. -/
theorem combineAt_snd (e : CAMidiImportEvent) (rest : List CAMidiImportEvent) :
    (combineAt e rest).2 = rest ∨
      ∃ k ek, rest[k]? = some ek ∧ isNoteEnd e._pitch ek = true ∧
        (combineAt e rest).2 = rest.set k (invalidate ek) := by
  unfold combineAt
  split
  · split
    · next r hr =>
      obtain ⟨k, ek, h1, h2, _, h4⟩ := findNoteEnd_some _ _ _ hr
      exact Or.inr ⟨k, ek, h1, h2, h4⟩
    · exact Or.inl rfl
  · exact Or.inl rfl

theorem combineAt_snd_length (e : CAMidiImportEvent) (rest : List CAMidiImportEvent) :
    (combineAt e rest).2.length = rest.length := by
  rcases combineAt_snd e rest with h | ⟨k, ek, _, _, h⟩ <;> simp [h]

theorem combineUpTo_nil (n : Nat) : combineUpTo n [] = [] := by
  cases n <;> rfl

theorem combineUpTo_length : ∀ (n : Nat) (l : List CAMidiImportEvent),
    (combineUpTo n l).length = l.length := by
  intro n
  induction n with
  | zero => intro l; rfl
  | succ n ih =>
    intro l
    cases l with
    | nil => rfl
    | cons e rest => simp [combineUpTo, ih, combineAt_snd_length]

/-- Running `n + m` iterations is running `n` iterations and then `m` more on the events not
yet visited. -/
theorem combineUpTo_add : ∀ (n m : Nat) (l : List CAMidiImportEvent),
    combineUpTo (n + m) l
      = (combineUpTo n l).take n ++ combineUpTo m ((combineUpTo n l).drop n) := by
  intro n
  induction n with
  | zero => intro m l; simp [combineUpTo]
  | succ n ih =>
    intro m l
    cases l with
    | nil => simp [combineUpTo_nil]
    | cons e rest =>
      have h : n + 1 + m = (n + m) + 1 := by omega
      rw [h]
      simp [combineUpTo, ih]

theorem combineAt_fst (e : CAMidiImportEvent) (rest : List CAMidiImportEvent) :
    ∃ len, (combineAt e rest).1 = { e with _length := len } := by
  unfold combineAt
  split
  · split
    · exact ⟨_, rfl⟩
    · exact ⟨e._length, rfl⟩
  · exact ⟨e._length, rfl⟩

/-- An event that is on with a velocity above 0 ends no note. -/
theorem isNoteEnd_false_of_on (pitch : Int) (x : CAMidiImportEvent) (hon : x._on = true)
    (hvel : x._velocity > 0) : isNoteEnd pitch x = false := by
  have : x._velocity ≠ 0 := by omega
  simp [isNoteEnd, hon, this]

theorem isNoteStart_iff (e : CAMidiImportEvent) :
    isNoteStart e = true ↔ e._on = true ∧ e._velocity > 0 ∧ e._pitch > 0 := by
  simp [isNoteStart, and_assoc]

/-- Iteration `i` leaves the start times of the events behind `i` as they are. -/
theorem combineAt_snd_time (e : CAMidiImportEvent) (rest : List CAMidiImportEvent) (p : Nat) :
    ((combineAt e rest).2[p]?).map (fun x => x._time) = (rest[p]?).map (fun x => x._time) := by
  rcases combineAt_snd e rest with h | ⟨k, ek, h1, _, h⟩
  · rw [h]
  · rw [h, List.getElem?_set]
    split
    · next hkp =>
      subst hkp
      split
      · simp [h1, invalidate]
      · next hlt => simp [List.getElem?_eq_none (not_lt.1 hlt)]
    · rfl

/-- Iteration `i` leaves an event behind `i` untouched when it is on with a velocity
above 0. -/
theorem combineAt_snd_on (e : CAMidiImportEvent) (rest : List CAMidiImportEvent) (p : Nat)
    (x : CAMidiImportEvent) (hp : rest[p]? = some x) (hon : x._on = true)
    (hvel : x._velocity > 0) : (combineAt e rest).2[p]? = some x := by
  rcases combineAt_snd e rest with h | ⟨k, ek, h1, h2, h⟩
  · rw [h, hp]
  · rw [h, List.getElem?_set]
    split
    · next hkp =>
      subst hkp
      rw [hp] at h1
      cases h1
      rw [isNoteEnd_false_of_on _ x hon hvel] at h2
      cases h2
    · exact hp

/-- Iteration `i` leaves an invalidated event behind `i` invalidated. -/
theorem combineAt_snd_dead (e : CAMidiImportEvent) (rest : List CAMidiImportEvent) (p : Nat)
    (x : CAMidiImportEvent) (hp : rest[p]? = some x) (hon : x._on = false)
    (hpitch : x._pitch = -1) :
    ∃ x', (combineAt e rest).2[p]? = some x' ∧ x'._on = false ∧ x'._pitch = -1 := by
  rcases combineAt_snd e rest with h | ⟨k, ek, h1, _, h⟩
  · exact ⟨x, by rw [h, hp], hon, hpitch⟩
  · rw [h, List.getElem?_set]
    split
    · next hkp =>
      subst hkp
      have hlt : k < rest.length := by
        by_contra hc
        rw [List.getElem?_eq_none (not_lt.1 hc)] at hp
        cases hp
      exact ⟨invalidate ek, by simp [hlt], rfl, rfl⟩
    · exact ⟨x, hp, hon, hpitch⟩

/-- The combiner never changes a start time. -/
theorem combineUpTo_time : ∀ (n : Nat) (l : List CAMidiImportEvent) (p : Nat),
    ((combineUpTo n l)[p]?).map (fun x => x._time) = (l[p]?).map (fun x => x._time) := by
  intro n
  induction n with
  | zero => intro l p; rfl
  | succ n ih =>
    intro l p
    cases l with
    | nil => rfl
    | cons e rest =>
      cases p with
      | zero =>
        obtain ⟨len, h⟩ := combineAt_fst e rest
        simp [combineUpTo, h]
      | succ p =>
        simp only [combineUpTo, List.getElem?_cons_succ]
        rw [ih, combineAt_snd_time]

/-- An event that is on with a velocity above 0 is found unchanged when the loop reaches
it. -/
theorem combineUpTo_on : ∀ (n : Nat) (l : List CAMidiImportEvent) (p : Nat)
    (x : CAMidiImportEvent), n ≤ p → l[p]? = some x → x._on = true → x._velocity > 0 →
    (combineUpTo n l)[p]? = some x := by
  intro n
  induction n with
  | zero => intro l p x _ h _ _; exact h
  | succ n ih =>
    intro l p x hnp hp hon hvel
    cases l with
    | nil => simp at hp
    | cons e rest =>
      cases p with
      | zero => omega
      | succ p =>
        simp only [combineUpTo, List.getElem?_cons_succ]
        exact ih _ p x (by omega)
          (combineAt_snd_on e rest p x (by simpa using hp) hon hvel) hon hvel

/-- An invalidated event stays invalidated. -/
theorem combineUpTo_dead : ∀ (n : Nat) (l : List CAMidiImportEvent) (p : Nat)
    (x : CAMidiImportEvent), l[p]? = some x → x._on = false → x._pitch = -1 →
    ∃ x', (combineUpTo n l)[p]? = some x' ∧ x'._on = false ∧ x'._pitch = -1 := by
  intro n
  induction n with
  | zero => intro l p x h hon hpitch; exact ⟨x, h, hon, hpitch⟩
  | succ n ih =>
    intro l p x hp hon hpitch
    cases l with
    | nil => simp at hp
    | cons e rest =>
      cases p with
      | zero =>
        simp at hp
        subst hp
        have hns : isNoteStart e = false := by simp [isNoteStart, hon]
        exact ⟨e, by simp [combineUpTo, combineAt, hns], hon, hpitch⟩
      | succ p =>
        simp only [combineUpTo, List.getElem?_cons_succ]
        obtain ⟨x1, h1, h2, h3⟩ :=
          combineAt_snd_dead e rest p x (by simpa using hp) hon hpitch
        exact ih _ p x1 h1 h2 h3

theorem cleanupUnpaired_getElem? (l : List CAMidiImportEvent) (p : Nat)
    (x : CAMidiImportEvent) (h : l[p]? = some x) :
    ∃ x', (cleanupUnpaired l)[p]? = some x' ∧ x'._length = x._length ∧
      x'._time = x._time ∧ (x._on = false → x._pitch = -1 → x'._on = false ∧ x'._pitch = -1) := by
  refine ⟨if x._on && decide (x._length = 0) then invalidate x else x, ?_, ?_, ?_, ?_⟩
  · simp [cleanupUnpaired, h]
  · split <;> rfl
  · split <;> rfl
  · intro h1 h2
    split
    · exact ⟨rfl, rfl⟩
    · exact ⟨h1, h2⟩

/-- C2 (as stated): the channel list `[on(p=60,t=-1), off(p=60,t=2147483647)]`, sorted by
time.  The difference `time_j - time_i = 2147483648` is not an `int`: the combiner gives the
note the length `-2147483648`. -/
theorem combineMidiFileEvents_length_wraps :
    combineChannelEvents
        [CAMidiImportEvent.new true 0 60 100 (-1),
         CAMidiImportEvent.new false 0 60 0 2147483647]
      = [{ _on := true, _channel := 0, _pitch := 60, _velocity := 100, _time := -1,
           _length := -2147483648, _timeCorrection := 0, _lengthCorrection := 0 },
         { _on := false, _channel := 0, _pitch := -1, _velocity := 0, _time := 2147483647,
           _length := 0, _timeCorrection := 0, _lengthCorrection := 0 }] := by
  decide

/-- C2 (amended): let event `i` of a channel list be on with pitch and velocity above 0, and
let `j` be the first position behind `i` at which the list, in the state in which the loop
finds it at iteration `i` (events consumed by earlier notes are invalidated there), holds
an event of the same pitch that is a note-off or an on-event with velocity 0.  Then after
the combiner event `i` has the length `time_j - time_i` as `int` subtraction gives it, which
is `time_j - time_i` whenever this difference is in the range of `int`, and event `j` is
invalidated.  In particular `[on(p=60,t=0), off(p=60,t=100)]` gives one valid note with
start 0 and length 100 and an invalidated second event. -/
theorem combineMidiFileEvents_pairs :
    (∀ (events : List CAMidiImportEvent) (i j : Nat) (e ej lj : CAMidiImportEvent),
      events[i]? = some e → e._on = true → e._pitch > 0 → e._velocity > 0 →
      i < j → events[j]? = some lj →
      (combineUpTo i events)[j]? = some ej →
      (ej._pitch = e._pitch ∧ (ej._on = false ∨ ej._velocity = 0)) →
      (∀ k ek, i < k → k < j → (combineUpTo i events)[k]? = some ek →
        ¬ (ek._pitch = e._pitch ∧ (ek._on = false ∨ ek._velocity = 0))) →
      ∃ ei' ej', (combineChannelEvents events)[i]? = some ei' ∧
        ei'._length = wrapInt32 (lj._time - e._time) ∧
        (inInt32 (lj._time - e._time) → ei'._length = lj._time - e._time) ∧
        (combineChannelEvents events)[j]? = some ej' ∧
        ej'._pitch = -1 ∧ ej'._on = false) ∧
    combineChannelEvents
        [CAMidiImportEvent.new true 0 60 100 0, CAMidiImportEvent.new false 0 60 0 100]
      = [{ _on := true, _channel := 0, _pitch := 60, _velocity := 100, _time := 0,
           _length := 100, _timeCorrection := 0, _lengthCorrection := 0 },
         { _on := false, _channel := 0, _pitch := -1, _velocity := 0, _time := 100,
           _length := 0, _timeCorrection := 0, _lengthCorrection := 0 }] := by
  refine ⟨?_, by decide⟩
  intro events i j e ej lj hi hon hpitch hvel hij hLj hSj hend hfirst
  have hstart : isNoteStart e = true := (isNoteStart_iff e).2 ⟨hon, hvel, hpitch⟩
  have hend' : isNoteEnd e._pitch ej = true := by
    rcases hend with ⟨h1, h2 | h2⟩ <;> simp [isNoteEnd, h1, h2]
  have hSi : (combineUpTo i events)[i]? = some e :=
    combineUpTo_on i events i e (le_refl _) hi hon hvel
  have hSlen := combineUpTo_length i events
  have hilt : i < (combineUpTo i events).length := by
    by_contra hc
    rw [List.getElem?_eq_none (not_lt.1 hc)] at hSi
    cases hSi
  have hjlt : j < events.length := by
    by_contra hc
    rw [List.getElem?_eq_none (not_lt.1 hc)] at hLj
    cases hLj
  -- the state in which iteration `i` finds the list
  have hdrop : (combineUpTo i events).drop i = e :: (combineUpTo i events).drop (i + 1) := by
    rw [List.drop_eq_getElem_cons hilt]
    congr 1
    rw [List.getElem?_eq_getElem hilt] at hSi
    exact Option.some.inj hSi
  have htodo : ((combineUpTo i events).drop (i + 1))[j - i - 1]? = some ej := by
    rw [List.getElem?_drop]
    have : i + 1 + (j - i - 1) = j := by omega
    rw [this]; exact hSj
  have hfind := findNoteEnd_first e._pitch _ (j - i - 1) ej htodo hend' (by
    intro k' hk' e' he'
    rw [List.getElem?_drop] at he'
    have hnot := hfirst (i + 1 + k') e' (by omega) (by omega) he'
    by_contra hc
    apply hnot
    have hc' : isNoteEnd e._pitch e' = true := by simpa using hc
    simp only [isNoteEnd, Bool.and_eq_true, decide_eq_true_eq, Bool.or_eq_true,
      Bool.not_eq_true'] at hc'
    exact hc')
  have hat : combineAt e ((combineUpTo i events).drop (i + 1))
      = ({ e with _length := wrapInt32 (ej._time - e._time) },
          ((combineUpTo i events).drop (i + 1)).set (j - i - 1) (invalidate ej)) := by
    simp [combineAt, hstart, hfind]
  -- the whole first loop
  have hsplit : events.length = i + ((events.length - i - 1) + 1) := by omega
  have hall : combineUpTo events.length events
      = (combineUpTo i events).take i ++
          { e with _length := wrapInt32 (ej._time - e._time) } ::
            combineUpTo (events.length - i - 1)
              (((combineUpTo i events).drop (i + 1)).set (j - i - 1) (invalidate ej)) := by
    conv_lhs => rw [hsplit]
    rw [combineUpTo_add, hdrop, combineUpTo, hat]
  have htake : ((combineUpTo i events).take i).length = i := by
    rw [List.length_take]; omega
  have hCi : (combineUpTo events.length events)[i]?
      = some { e with _length := wrapInt32 (ej._time - e._time) } := by
    rw [hall, List.getElem?_append_right (by omega), htake]
    simp
  have hdead : ∃ x', (combineUpTo events.length events)[j]? = some x' ∧
      x'._on = false ∧ x'._pitch = -1 := by
    have hk : j - i - 1 < ((combineUpTo i events).drop (i + 1)).length := by
      rw [List.length_drop]; omega
    obtain ⟨x', h1, h2, h3⟩ := combineUpTo_dead (events.length - i - 1)
      (((combineUpTo i events).drop (i + 1)).set (j - i - 1) (invalidate ej)) (j - i - 1)
      (invalidate ej) (List.getElem?_set_self hk) rfl rfl
    refine ⟨x', ?_, h2, h3⟩
    rw [hall, List.getElem?_append_right (by omega), htake]
    have : j - i = (j - i - 1) + 1 := by omega
    rw [this, List.getElem?_cons_succ]
    exact h1
  have htime : ej._time = lj._time := by
    have := combineUpTo_time i events j
    rw [hSj, hLj] at this
    simpa using this
  obtain ⟨ei', hi1, hi2, _, _⟩ := cleanupUnpaired_getElem? _ i _ hCi
  obtain ⟨xj, hj1, hj2, hj3⟩ := hdead
  obtain ⟨ej', hj4, _, _, hj5⟩ := cleanupUnpaired_getElem? _ j _ hj1
  have hlen : ei'._length = wrapInt32 (lj._time - e._time) := by
    rw [hi2, ← htime]
  refine ⟨ei', ej', hi1, hlen, ?_, hj4, (hj5 hj2 hj3).2, (hj5 hj2 hj3).1⟩
  intro hr
  rw [hlen]
  exact wrapInt32_eq _ hr.1 hr.2

/-- Witness for `combineMidiFileEvents_pairs`: in `[on(60,t=0), on(62,t=10), off(60,t=100)]`
the note at position 0 is paired with the event at position 2. -/
theorem combineMidiFileEvents_pairs_witness :
    ∃ ei' ej',
      (combineChannelEvents
        [CAMidiImportEvent.new true 0 60 100 0, CAMidiImportEvent.new true 0 62 100 10,
         CAMidiImportEvent.new false 0 60 0 100])[0]? = some ei' ∧
      ei'._length = wrapInt32 ((CAMidiImportEvent.new false 0 60 0 100)._time
        - (CAMidiImportEvent.new true 0 60 100 0)._time) ∧
      (inInt32 ((CAMidiImportEvent.new false 0 60 0 100)._time
          - (CAMidiImportEvent.new true 0 60 100 0)._time) →
        ei'._length = (CAMidiImportEvent.new false 0 60 0 100)._time
          - (CAMidiImportEvent.new true 0 60 100 0)._time) ∧
      (combineChannelEvents
        [CAMidiImportEvent.new true 0 60 100 0, CAMidiImportEvent.new true 0 62 100 10,
         CAMidiImportEvent.new false 0 60 0 100])[2]? = some ej' ∧
      ej'._pitch = -1 ∧ ej'._on = false :=
  combineMidiFileEvents_pairs.1
    [CAMidiImportEvent.new true 0 60 100 0, CAMidiImportEvent.new true 0 62 100 10,
     CAMidiImportEvent.new false 0 60 0 100] 0 2
    (CAMidiImportEvent.new true 0 60 100 0) (CAMidiImportEvent.new false 0 60 0 100)
    (CAMidiImportEvent.new false 0 60 0 100)
    rfl rfl (by decide) (by decide) (by decide) rfl rfl (by decide)
    (by
      intro k ek h1 h2 hk
      have hk1 : k = 1 := by omega
      subst hk1
      have hek : ek = CAMidiImportEvent.new true 0 62 100 10 := by
        simpa [combineUpTo] using hk.symm
      subst hek
      decide)

/-! ## Overlap resolver -/

/-- C4 (as stated): with an on-event of negative length in the list, a surviving later
event can start before the end of a surviving earlier one.  The three events (start 0,
length 128), (start 128, length -96), (start 64, length 32) all survive the pass, and the
third starts inside the first. -/
theorem exportNonChords_overlap_survives :
    ¬ (∀ (i j : Nat) (ei ej : CAMidiImportEvent), i < j →
        (exportNonChordsChannelEvents
          [{ _on := true, _channel := 0, _pitch := 60, _velocity := 100, _time := 0,
             _length := 128, _timeCorrection := 0, _lengthCorrection := 0 },
           { _on := true, _channel := 0, _pitch := 62, _velocity := 100, _time := 128,
             _length := -96, _timeCorrection := 0, _lengthCorrection := 0 },
           { _on := true, _channel := 0, _pitch := 64, _velocity := 100, _time := 64,
             _length := 32, _timeCorrection := 0, _lengthCorrection := 0 }])[i]? = some ei →
        (exportNonChordsChannelEvents
          [{ _on := true, _channel := 0, _pitch := 60, _velocity := 100, _time := 0,
             _length := 128, _timeCorrection := 0, _lengthCorrection := 0 },
           { _on := true, _channel := 0, _pitch := 62, _velocity := 100, _time := 128,
             _length := -96, _timeCorrection := 0, _lengthCorrection := 0 },
           { _on := true, _channel := 0, _pitch := 64, _velocity := 100, _time := 64,
             _length := 32, _timeCorrection := 0, _lengthCorrection := 0 }])[j]? = some ej →
        ei._on = true → ej._on = true → ¬ (ej._time < ei._time + ei._length)) := by
  intro h
  exact h 0 2 _ _ (by decide) rfl rfl rfl rfl (by decide)

theorem eraseOverlapping_length (timeEnd : Int) : ∀ (l : List CAMidiImportEvent),
    (eraseOverlapping timeEnd l).length = l.length := by
  intro l
  induction l with
  | nil => rfl
  | cons ej rest ih =>
    unfold eraseOverlapping
    split
    · simp [ih]
    · split <;> simp [ih]

/-- Every event of the scanned list is kept as it is or invalidated. -/
theorem eraseOverlapping_mem (timeEnd : Int) : ∀ (l : List CAMidiImportEvent),
    ∀ b ∈ eraseOverlapping timeEnd l, b ∈ l ∨ b._on = false := by
  intro l
  induction l with
  | nil => intro b hb; simp [eraseOverlapping] at hb
  | cons ej rest ih =>
    intro b hb
    unfold eraseOverlapping at hb
    split at hb
    · rcases List.mem_cons.1 hb with h | h
      · exact Or.inl (by simp [h])
      · rcases ih b h with h' | h'
        · exact Or.inl (List.mem_cons_of_mem _ h')
        · exact Or.inr h'
    · split at hb
      · exact Or.inl hb
      · rcases List.mem_cons.1 hb with h | h
        · exact Or.inr (by rw [h]; rfl)
        · rcases ih b h with h' | h'
          · exact Or.inl (List.mem_cons_of_mem _ h')
          · exact Or.inr h'

/-- The first on-event left by the scan starts at or after `timeEnd`. -/
theorem eraseOverlapping_firstOn (timeEnd : Int) : ∀ (l : List CAMidiImportEvent)
    (f : CAMidiImportEvent), firstOn (eraseOverlapping timeEnd l) = some f →
    f._time ≥ timeEnd := by
  intro l
  induction l with
  | nil => intro f h; simp [eraseOverlapping, firstOn] at h
  | cons ej rest ih =>
    intro f h
    unfold eraseOverlapping at h
    split at h
    · next hoff =>
      have : ej._on = false := by simpa using hoff
      simp only [firstOn, this] at h
      exact ih f (by simpa using h)
    · next hon =>
      have hon' : ej._on = true := by simpa using hon
      split at h
      · next hge =>
        simp only [firstOn, hon'] at h
        simp at h
        subst h
        exact hge
      · simp only [firstOn, invalidate] at h
        exact ih f (by simpa using h)

/-- Every event of the result of the pass is an event of the input or is off. -/
theorem exportNonChordsUpTo_mem : ∀ (n : Nat) (l : List CAMidiImportEvent),
    ∀ b ∈ exportNonChordsUpTo n l, b ∈ l ∨ b._on = false := by
  intro n
  induction n with
  | zero => intro l b hb; exact Or.inl hb
  | succ n ih =>
    intro l b hb
    cases l with
    | nil => simp [exportNonChordsUpTo] at hb
    | cons e rest =>
      unfold exportNonChordsUpTo at hb
      split at hb
      · rcases List.mem_cons.1 hb with h | h
        · exact Or.inl (by simp [h])
        · rcases ih _ b h with h' | h'
          · rcases eraseOverlapping_mem _ _ b h' with h'' | h''
            · exact Or.inl (List.mem_cons_of_mem _ h'')
            · exact Or.inr h''
          · exact Or.inr h'
      · rcases List.mem_cons.1 hb with h | h
        · exact Or.inl (by simp [h])
        · rcases ih _ b h with h' | h'
          · exact Or.inl (List.mem_cons_of_mem _ h')
          · exact Or.inr h'

/-- The pass keeps the first on-event of the list it is given. -/
theorem exportNonChordsUpTo_firstOn : ∀ (n : Nat) (l : List CAMidiImportEvent),
    firstOn (exportNonChordsUpTo n l) = firstOn l := by
  intro n
  induction n with
  | zero => intro l; rfl
  | succ n ih =>
    intro l
    cases l with
    | nil => rfl
    | cons e rest =>
      unfold exportNonChordsUpTo
      split
      · next hon => simp [firstOn, hon]
      · next hoff => simp [firstOn, hoff, ih]

/-- In a list without overlaps whose on-events have lengths `>= 0`, no on-event starts
before the first one. -/
theorem firstOn_le_of_pairwise : ∀ (l : List CAMidiImportEvent) (f : CAMidiImportEvent),
    l.Pairwise startsAfter → (∀ e ∈ l, e._on = true → 0 ≤ e._length) →
    firstOn l = some f → ∀ b ∈ l, b._on = true → b._time ≥ f._time := by
  intro l
  induction l with
  | nil => intro f _ _ _ b hb; simp at hb
  | cons x rest ih =>
    intro f hp hlen hf b hb hbon
    rw [List.pairwise_cons] at hp
    by_cases hx : x._on = true
    · simp only [firstOn, hx, if_true, Option.some.injEq] at hf
      subst hf
      rcases List.mem_cons.1 hb with h | h
      · subst h; exact le_refl _
      · have h1 := hp.1 b h hx hbon
        have h2 := hlen x (List.mem_cons_self _ _) hx
        omega
    · have hx' : x._on = false := by simpa using hx
      simp only [firstOn, hx'] at hf
      rcases List.mem_cons.1 hb with h | h
      · rw [h] at hbon; rw [hbon] at hx'; cases hx'
      · exact ih f hp.2 (fun e he => hlen e (List.mem_cons_of_mem _ he)) (by simpa using hf)
          b h hbon

theorem firstOn_isSome : ∀ (l : List CAMidiImportEvent) (b : CAMidiImportEvent),
    b ∈ l → b._on = true → ∃ f, firstOn l = some f := by
  intro l
  induction l with
  | nil => intro b hb; simp at hb
  | cons x rest ih =>
    intro b hb hbon
    by_cases hx : x._on = true
    · exact ⟨x, by simp [firstOn, hx]⟩
    · have hx' : x._on = false := by simpa using hx
      rcases List.mem_cons.1 hb with h | h
      · rw [h] at hbon; rw [hbon] at hx'; cases hx'
      · obtain ⟨f, hf⟩ := ih b h hbon
        exact ⟨f, by simp [firstOn, hx', hf]⟩

/-- After the pass over a list whose on-events have lengths `>= 0` and end times in the
range of `int`, every on-event starts at or after the end of every on-event before it. -/
theorem exportNonChordsUpTo_pairwise : ∀ (n : Nat) (l : List CAMidiImportEvent),
    l.length ≤ n + 1 →
    (∀ e ∈ l, e._on = true → 0 ≤ e._length ∧ inInt32 (e._time + e._length)) →
    (exportNonChordsUpTo n l).Pairwise startsAfter := by
  intro n
  induction n with
  | zero =>
    intro l hl _
    match l, hl with
    | [], _ => exact List.Pairwise.nil
    | [x], _ => exact List.pairwise_singleton _ _
    | _ :: _ :: _, h => simp at h
  | succ n ih =>
    intro l hl hlen
    cases l with
    | nil => exact List.Pairwise.nil
    | cons e rest =>
      have hrest : rest.length ≤ n + 1 := by simpa using hl
      have hlenRest : ∀ x ∈ rest, x._on = true →
          0 ≤ x._length ∧ inInt32 (x._time + x._length) :=
        fun x hx => hlen x (List.mem_cons_of_mem _ hx)
      unfold exportNonChordsUpTo
      split
      · next hon =>
        have hlenErased : ∀ x ∈ eraseOverlapping (wrapInt32 (e._time + e._length)) rest,
            x._on = true → 0 ≤ x._length ∧ inInt32 (x._time + x._length) := by
          intro x hx hxon
          rcases eraseOverlapping_mem _ _ x hx with h | h
          · exact hlenRest x h hxon
          · rw [hxon] at h; cases h
        have hpw := ih (eraseOverlapping (wrapInt32 (e._time + e._length)) rest)
          (by rw [eraseOverlapping_length]; exact hrest) hlenErased
        have hlenOut : ∀ x ∈ exportNonChordsUpTo n
            (eraseOverlapping (wrapInt32 (e._time + e._length)) rest),
            x._on = true → 0 ≤ x._length ∧ inInt32 (x._time + x._length) := by
          intro x hx hxon
          rcases exportNonChordsUpTo_mem _ _ x hx with h | h
          · exact hlenErased x h hxon
          · rw [hxon] at h; cases h
        rw [List.pairwise_cons]
        refine ⟨?_, hpw⟩
        intro b hb _ hbon
        obtain ⟨f, hf⟩ := firstOn_isSome _ b hb hbon
        have hf' := hf
        rw [exportNonChordsUpTo_firstOn] at hf'
        have h1 := eraseOverlapping_firstOn _ _ f hf'
        have h2 := firstOn_le_of_pairwise _ f hpw (fun x hx hxon => (hlenOut x hx hxon).1)
          hf b hb hbon
        have hend := (hlen e (List.mem_cons_self _ _) hon).2
        rw [wrapInt32_eq _ hend.1 hend.2] at h1
        omega
      · next hoff =>
        rw [List.pairwise_cons]
        refine ⟨?_, ih rest hrest hlenRest⟩
        intro b _ hon
        exact absurd hon hoff

/-- C4 (amended): for every channel event list in which no on-event has a negative length
and the end `start + length` of every on-event is in the range of `int`, after the overlap
pass no surviving event `j` behind a surviving event `i` starts before
`start_i + length_i`.  In particular of the two valid notes (start 0, length 100) and
(start 50, length 20) only the first survives. -/
theorem exportNonChords_no_overlap :
    (∀ (events : List CAMidiImportEvent),
      (∀ e ∈ events, e._on = true → 0 ≤ e._length ∧ inInt32 (e._time + e._length)) →
      ∀ (i j : Nat) (ei ej : CAMidiImportEvent), i < j →
        (exportNonChordsChannelEvents events)[i]? = some ei →
        (exportNonChordsChannelEvents events)[j]? = some ej →
        ei._on = true → ej._on = true → ¬ (ej._time < ei._time + ei._length)) ∧
    exportNonChordsChannelEvents
        [{ _on := true, _channel := 0, _pitch := 60, _velocity := 100, _time := 0,
           _length := 100, _timeCorrection := 0, _lengthCorrection := 0 },
         { _on := true, _channel := 0, _pitch := 62, _velocity := 100, _time := 50,
           _length := 20, _timeCorrection := 0, _lengthCorrection := 0 }]
      = [{ _on := true, _channel := 0, _pitch := 60, _velocity := 100, _time := 0,
           _length := 100, _timeCorrection := 0, _lengthCorrection := 0 },
         { _on := false, _channel := 0, _pitch := -1, _velocity := 100, _time := 50,
           _length := 20, _timeCorrection := 0, _lengthCorrection := 0 }] := by
  refine ⟨?_, by decide⟩
  intro events hlen i j ei ej hij hi hj hion hjon
  have hpw := exportNonChordsUpTo_pairwise (events.length - 1) events (by omega) hlen
  rw [List.pairwise_iff_getElem] at hpw
  have hjlt : j < (exportNonChordsChannelEvents events).length := by
    by_contra hc
    rw [List.getElem?_eq_none (not_lt.1 hc)] at hj
    cases hj
  have hilt : i < (exportNonChordsChannelEvents events).length := by omega
  rw [List.getElem?_eq_getElem hilt] at hi
  rw [List.getElem?_eq_getElem hjlt] at hj
  have h := hpw i j hilt hjlt hij
  have hi' : (exportNonChordsUpTo (events.length - 1) events)[i] = ei := Option.some.inj hi
  have hj' : (exportNonChordsUpTo (events.length - 1) events)[j] = ej := Option.some.inj hj
  rw [hi', hj'] at h
  have := h hion hjon
  omega

/-- Witness for `exportNonChords_no_overlap`: in the list (start 0, length 64),
(start 32, length 32), (start 64, length 32) the second note is dropped and the third, which
starts at the end of the first, is kept. -/
theorem exportNonChords_no_overlap_witness :
    ¬ ((64 : Int) < 0 + 64) :=
  exportNonChords_no_overlap.1
    [{ _on := true, _channel := 0, _pitch := 60, _velocity := 100, _time := 0,
       _length := 64, _timeCorrection := 0, _lengthCorrection := 0 },
     { _on := true, _channel := 0, _pitch := 62, _velocity := 100, _time := 32,
       _length := 32, _timeCorrection := 0, _lengthCorrection := 0 },
     { _on := true, _channel := 0, _pitch := 64, _velocity := 100, _time := 64,
       _length := 32, _timeCorrection := 0, _lengthCorrection := 0 }]
    (by unfold inInt32; decide) 0 2
    { _on := true, _channel := 0, _pitch := 60, _velocity := 100, _time := 0,
      _length := 64, _timeCorrection := 0, _lengthCorrection := 0 }
    { _on := true, _channel := 0, _pitch := 64, _velocity := 100, _time := 64,
      _length := 32, _timeCorrection := 0, _lengthCorrection := 0 }
    (by decide) (by decide) (by decide) rfl rfl

/-! ## Score builder -/

theorem setTieStartOfLast_append_note (voice : List CAMusElement) (pitch : CADiatonicPitch)
    (len : CAPlayableLength) (ts te : Bool) :
    setTieStartOfLast (voice ++ [CAMusElement.note pitch len ts te])
      = voice ++ [CAMusElement.note pitch len true te] := by
  induction voice with
  | nil => rfl
  | cons x rest ih =>
    cases rest with
    | nil => simp [setTieStartOfLast]
    | cons y rest2 =>
      simp only [List.cons_append] at ih ⊢
      simp only [setTieStartOfLast]
      rw [ih]

/-- The loop of lines 387-397, entered with a note before it (`previousNote` set) that is
the last element of the voice, ties that note to a chain of tied notes. -/
theorem writeNotes_previous (pitch : CADiatonicPitch) :
    ∀ (lens : List CAPlayableLength) (voice : List CAMusElement) (len0 : CAPlayableLength)
      (te : Bool),
      writeNotes pitch lens true (voice ++ [CAMusElement.note pitch len0 false te])
        = voice ++ tiedNotes pitch (len0 :: lens) te := by
  intro lens
  induction lens with
  | nil => intro voice len0 te; rfl
  | cons len more ih =>
    intro voice len0 te
    simp only [writeNotes, if_true]
    rw [setTieStartOfLast_append_note, ih]
    simp [tiedNotes]

/-- The loop of lines 387-397, entered with `previousNote = 0`, appends a chain of tied
notes and leaves the elements already in the voice as they are. -/
theorem writeNotes_eq (pitch : CADiatonicPitch) (lens : List CAPlayableLength)
    (voice : List CAMusElement) :
    writeNotes pitch lens false voice = voice ++ tiedNotes pitch lens false := by
  cases lens with
  | nil => simp [writeNotes, tiedNotes]
  | cons len more =>
    simp only [writeNotes, Bool.false_eq_true, if_false]
    exact writeNotes_previous pitch more voice len false

theorem tiedNotes_lengths (pitch : CADiatonicPitch) :
    ∀ (lens : List CAPlayableLength) (te : Bool),
      (tiedNotes pitch lens te).map elementLength = lens := by
  intro lens
  induction lens with
  | nil => intro te; rfl
  | cons len more ih =>
    intro te
    cases more with
    | nil => rfl
    | cons len2 more2 =>
      simp only [tiedNotes, List.map_cons, elementLength]
      rw [ih true]

theorem tiedNotes_notes (pitch : CADiatonicPitch) :
    ∀ (lens : List CAPlayableLength) (te : Bool), ∀ x ∈ tiedNotes pitch lens te,
      ∃ len ts te', x = CAMusElement.note pitch len ts te' := by
  intro lens
  induction lens with
  | nil => intro te x hx; simp [tiedNotes] at hx
  | cons len more ih =>
    intro te x hx
    cases more with
    | nil =>
      simp only [tiedNotes, List.mem_singleton] at hx
      exact ⟨len, false, te, hx⟩
    | cons len2 more2 =>
      simp only [tiedNotes, List.mem_cons] at hx
      rcases hx with h | h
      · exact ⟨len, true, te, h⟩
      · exact ih true x (by simpa [tiedNotes] using h)

/-! ## The loops of the decoder, one iteration at a time -/

theorem trackLoop_goOn (env : DecoderEnv) (peek : List Nat) (fuel : Nat) (time time1 : Int)
    (s s1 : CAMidiImport) (hidx : s._dataIndex < s._nextTrackIndex)
    (herr : s._parseError = false)
    (hev : decodeEvent env peek time s = (time1, EventFlow.goOn s1)) :
    trackLoop env peek (fuel + 1) time s = trackLoop env peek fuel time1 s1 := by
  rw [trackLoop]
  simp [hidx, herr, hev]

theorem trackLoop_return0 (env : DecoderEnv) (peek : List Nat) (fuel : Nat) (time time1 : Int)
    (s s1 : CAMidiImport) (hidx : s._dataIndex < s._nextTrackIndex)
    (herr : s._parseError = false)
    (hev : decodeEvent env peek time s = (time1, EventFlow.return0 s1)) :
    trackLoop env peek (fuel + 1) time s = LoopFlow.return0 s1 := by
  rw [trackLoop]
  simp [hidx, herr, hev]

theorem trackLoop_end (env : DecoderEnv) (peek : List Nat) (fuel : Nat) (time : Int)
    (s : CAMidiImport) (h : ¬ (s._dataIndex < s._nextTrackIndex ∧ s._parseError = false)) :
    trackLoop env peek fuel time s = LoopFlow.endOfLoop s := by
  cases fuel <;> simp [trackLoop, h]

theorem chunkLoop_end (env : DecoderEnv) (peek : List Nat) (fuel : Nat)
    (s : CAMidiImport) (h : ¬ (s._dataIndex < size peek ∧ s._parseError = false)) :
    chunkLoop env peek fuel s = LoopFlow.endOfLoop s := by
  cases fuel <;> simp [chunkLoop, h]

theorem chunkLoop_MThd (env : DecoderEnv) (peek : List Nat) (fuel : Nat) (s : CAMidiImport)
    (hidx : s._dataIndex < size peek) (herr : s._parseError = false)
    (hhead : (getHead peek s).1 = tagMThd) :
    chunkLoop env peek (fuel + 1) s
      = chunkLoop env peek fuel
          (getWord16 peek (getWord16 peek (getWord16 peek
            (getWord32 peek (getHead peek s).2).2).2).2).2 := by
  rw [chunkLoop]
  simp [hidx, herr, hhead]

theorem chunkLoop_MTrk_negative (env : DecoderEnv) (peek : List Nat) (fuel : Nat)
    (s : CAMidiImport) (hidx : s._dataIndex < size peek) (herr : s._parseError = false)
    (hhead : (getHead peek s).1 = tagMTrk)
    (hneg : (getWord32 peek (getHead peek s).2).1 < 0) :
    chunkLoop env peek (fuel + 1) s
      = LoopFlow.return0 (getWord32 peek (getHead peek s).2).2 := by
  have hne : tagMTrk ≠ tagMThd := by decide
  rw [chunkLoop]
  simp [hidx, herr, hhead, hne, hneg]

theorem chunkLoop_MTrk (env : DecoderEnv) (peek : List Nat) (fuel : Nat)
    (s s1 : CAMidiImport) (hidx : s._dataIndex < size peek) (herr : s._parseError = false)
    (hhead : (getHead peek s).1 = tagMTrk)
    (hlen : ¬ (getWord32 peek (getHead peek s).2).1 < 0)
    (htrack : trackLoop env peek fuel 0
        { (getWord32 peek (getHead peek s).2).2 with
          _nextTrackIndex := wrapInt32 ((getWord32 peek (getHead peek s).2).2._dataIndex
            + (getWord32 peek (getHead peek s).2).1) } = LoopFlow.endOfLoop s1) :
    chunkLoop env peek (fuel + 1) s = chunkLoop env peek fuel s1 := by
  have hne : tagMTrk ≠ tagMThd := by decide
  rw [chunkLoop]
  simp [hidx, herr, hhead, hne, hlen, htrack]

theorem chunkLoop_unknown (env : DecoderEnv) (peek : List Nat) (fuel : Nat)
    (s : CAMidiImport) (hidx : s._dataIndex < size peek) (herr : s._parseError = false)
    (h1 : (getHead peek s).1 ≠ tagMThd) (h2 : (getHead peek s).1 ≠ tagMTrk) :
    chunkLoop env peek (fuel + 1) s = LoopFlow.return0 (getHead peek s).2 := by
  rw [chunkLoop]
  simp [hidx, herr, h1, h2]

/-! ## End to end on the minimal file -/

/-- The track loop on the track of `minimalFile`: three events, then the loop ends. -/
theorem trackLoop_minimalFile (next : Int) (n : Nat) :
    trackLoop ⟨standardMidi, next⟩ minimalFile (n + 3) 0
        ⟨22, 35, false, 0, List.replicate 16 [[]]⟩
      = LoopFlow.endOfLoop minimalFileDecoded := by
  have h1 : decodeEvent ⟨standardMidi, next⟩ minimalFile 0
        ⟨22, 35, false, 0, List.replicate 16 [[]]⟩
      = (0, EventFlow.goOn ⟨26, 35, false, 0,
            [[CAMidiImportEvent.new true 0 60 100 0]] :: List.replicate 15 [[]]⟩) := rfl
  have h2 : decodeEvent ⟨standardMidi, next⟩ minimalFile 0
        ⟨26, 35, false, 0, [[CAMidiImportEvent.new true 0 60 100 0]] :: List.replicate 15 [[]]⟩
      = (480, EventFlow.goOn ⟨31, 35, false, 0,
            [[CAMidiImportEvent.new true 0 60 100 0, CAMidiImportEvent.new false 0 60 0 480]]
              :: List.replicate 15 [[]]⟩) := rfl
  have h3 : decodeEvent ⟨standardMidi, next⟩ minimalFile 480
        ⟨31, 35, false, 0,
            [[CAMidiImportEvent.new true 0 60 100 0, CAMidiImportEvent.new false 0 60 0 480]]
              :: List.replicate 15 [[]]⟩
      = (480, EventFlow.goOn minimalFileDecoded) := rfl
  rw [trackLoop_goOn _ _ _ _ _ _ _ (by decide) rfl h1,
    trackLoop_goOn _ _ _ _ _ _ _ (by decide) rfl h2,
    trackLoop_goOn _ _ _ _ _ _ _ (by decide) rfl h3]
  exact trackLoop_end _ _ _ _ _ (by decide)

/-- The decoder on `minimalFile`: with fuel 5 or more the chunk loop ends through its test,
without a parse error. -/
theorem chunkLoop_minimalFile (next : Int) (n : Nat) :
    chunkLoop ⟨standardMidi, next⟩ minimalFile (n + 5)
        { CAMidiImport.new with _dataIndex := 0, _nextTrackIndex := 0, _parseError := false }
      = LoopFlow.endOfLoop minimalFileDecoded := by
  rw [chunkLoop_MThd _ _ _ _ (by decide) rfl (by decide)]
  rw [chunkLoop_MTrk _ _ (n + 3) _ minimalFileDecoded (by decide) (by decide) (by decide)
    (by decide) (trackLoop_minimalFile next n)]
  exact chunkLoop_end _ _ _ _ (by decide)

theorem passes_minimalFile :
    exportNonChordsToOtherVoices
        (quantizeMidiFileEvents (combineMidiFileEvents minimalFileDecoded))
      = { minimalFileDecoded with
            _allChannelsEvents := [minimalFileEvents] :: List.replicate 15 [[]] } := by
  decide

/-- The positions of a short event list are all below the limit of 1000 of line 368. -/
theorem writeChannelEvents_minimalFileEvents (m : ScoreModel) :
    writeChannelEvents m minimalFileEvents []
      = (480, tiedNotes (m.midiPitchToDiatonicPitch 60)
          (m.timeLengthToPlayableLengthList 480) false) := by
  have h : minimalFileEvents.take 1000 = minimalFileEvents := by decide
  rw [writeChannelEvents, h]
  simp [minimalFileEvents, writeEventsLoop, isValidNote, writeNotes_eq]

theorem writeChannelEvents_nil (m : ScoreModel) (voice : List CAMusElement) :
    writeChannelEvents m [] voice = (0, voice) := rfl

/-- C6: on the minimal file (header, one track with note-on 60 at 0, note-off 60 at 480 and
end of track on channel 0) decoding ends without an error for every fuel of at least 5;
after combining, quantizing and overlap resolution the list of channel 0 holds exactly one
valid note (pitch 60, start 0, length 480); the voice written for channel 0 starts with no
rest and consists of the notes at pitch 60 whose lengths are the decomposition of 480
ticks. -/
theorem importSheetImpl_minimalFile (next : Int) (m : ScoreModel) (n : Nat) :
    ∃ sheet importer,
      importSheetImpl ⟨standardMidi, next⟩ m (n + 5) minimalFile ⟨[]⟩ CAMidiImport.new
        = some ⟨some sheet, importer⟩ ∧
      importer._parseError = false ∧
      importer._allChannelsEvents.head? = some [minimalFileEvents] ∧
      minimalFileEvents.filter isValidNote
        = [{ _on := true, _channel := 0, _pitch := 60, _velocity := 100, _time := 0,
             _length := 480, _timeCorrection := 0, _lengthCorrection := 0 }] ∧
      sheet.staffList.head?
        = some ⟨5, [tiedNotes (m.midiPitchToDiatonicPitch 60)
            (m.timeLengthToPlayableLengthList 480) false]⟩ ∧
      (tiedNotes (m.midiPitchToDiatonicPitch 60)
          (m.timeLengthToPlayableLengthList 480) false).map elementLength
        = m.timeLengthToPlayableLengthList 480 ∧
      ∀ x ∈ tiedNotes (m.midiPitchToDiatonicPitch 60)
          (m.timeLengthToPlayableLengthList 480) false,
        ∃ len ts te, x = CAMusElement.note (m.midiPitchToDiatonicPitch 60) len ts te := by
  have hrange : List.range 16 = [0, 1, 2, 3, 4, 5, 6, 7, 8, 9, 10, 11, 12, 13, 14, 15] := by
    decide
  have himport : importSheetImpl ⟨standardMidi, next⟩ m (n + 5) minimalFile ⟨[]⟩
      CAMidiImport.new
      = some ⟨some (writeMidiFileEventsToScore m
            { minimalFileDecoded with
              _allChannelsEvents := [minimalFileEvents] :: List.replicate 15 [[]] } ⟨[]⟩),
          { minimalFileDecoded with
            _allChannelsEvents := [minimalFileEvents] :: List.replicate 15 [[]] }⟩ := by
    rw [importSheetImpl, chunkLoop_minimalFile]
    simp only [finishImport, passes_minimalFile]
  refine ⟨_, _, himport, rfl, rfl, by decide, ?_, tiedNotes_lengths _ _ _,
    tiedNotes_notes _ _ _⟩
  simp only [writeMidiFileEventsToScore, hrange, List.length_nil]
  simp [writeChannelsLoop, newStaffWithVoice, writeMidiChannelEventsToVoice,
    writeChannelEvents_minimalFileEvents, writeChannelEvents_nil]

/-! ## Fuel -/

/-- More fuel does not change the outcome of a track loop that did not run out of fuel. -/
theorem trackLoop_succ_fuel (env : DecoderEnv) (peek : List Nat) :
    ∀ (fuel : Nat) (time : Int) (s : CAMidiImport) (r : LoopFlow),
      trackLoop env peek fuel time s = r → r ≠ LoopFlow.outOfFuel →
      trackLoop env peek (fuel + 1) time s = r := by
  intro fuel
  induction fuel with
  | zero =>
    intro time s r h hr
    rw [trackLoop] at h
    split at h
    · exact absurd h.symm hr
    · next hc => rw [← h]; exact trackLoop_end env peek 1 time s hc
  | succ fuel ih =>
    intro time s r h hr
    rw [trackLoop] at h ⊢
    split
    · next hc =>
      rw [if_pos hc] at h
      split
      · next s1 heq =>
        rw [heq] at h
        exact h
      · next time1 s1 heq =>
        rw [heq] at h
        exact ih time1 s1 r h hr
    · next hc =>
      rw [if_neg hc] at h
      exact h

theorem trackLoop_more_fuel (env : DecoderEnv) (peek : List Nat) (fuel : Nat) (time : Int)
    (s : CAMidiImport) (r : LoopFlow) (h : trackLoop env peek fuel time s = r)
    (hr : r ≠ LoopFlow.outOfFuel) :
    ∀ (k : Nat), trackLoop env peek (fuel + k) time s = r := by
  intro k
  induction k with
  | zero => exact h
  | succ k ih => exact trackLoop_succ_fuel env peek (fuel + k) time s r ih hr

/-- A chunk boundary that the decoder reaches is reached with every large enough fuel: the
loop started with `k + fuel` is, `k` iterations later, the loop with `fuel` at the
boundary. -/
theorem chunkLoop_of_reach (env : DecoderEnv) (peek : List Nat) (s t : CAMidiImport)
    (h : ChunkReach env peek s t) :
    ∃ k bound, ∀ fuel, bound ≤ fuel →
      chunkLoop env peek (k + fuel) s = chunkLoop env peek fuel t := by
  induction h with
  | here s => exact ⟨0, 0, fun fuel _ => by simp⟩
  | header s t hrun hhead _ ih =>
    obtain ⟨k, bound, hk⟩ := ih
    refine ⟨k + 1, bound, fun fuel hf => ?_⟩
    have : k + 1 + fuel = (k + fuel) + 1 := by omega
    rw [this, chunkLoop_MThd env peek (k + fuel) s hrun.1 hrun.2 hhead]
    exact hk fuel hf
  | track s s1 t fuel0 hrun hhead hlen htrack _ ih =>
    obtain ⟨k, bound, hk⟩ := ih
    refine ⟨k + 1, max bound fuel0, fun fuel hf => ?_⟩
    have h1 : k + 1 + fuel = (k + fuel) + 1 := by omega
    have h2 : k + fuel = fuel0 + (k + fuel - fuel0) := by
      have : fuel0 ≤ fuel := le_trans (le_max_right _ _) hf
      omega
    have htrack' : trackLoop env peek (k + fuel) 0 (trackStart peek s)
        = LoopFlow.endOfLoop s1 := by
      rw [h2]
      exact trackLoop_more_fuel env peek fuel0 0 _ _ htrack (by simp) _
    rw [h1, chunkLoop_MTrk env peek (k + fuel) s s1 hrun.1 hrun.2 hhead hlen htrack']
    exact hk fuel (le_trans (le_max_left _ _) hf)

/-! ## The stream reader leaves the event lists alone -/

theorem getHead_events (x : List Nat) (s : CAMidiImport) :
    (getHead x s).2._allChannelsEvents = s._allChannelsEvents := by
  unfold getHead; split <;> rfl

theorem getWord16_events (x : List Nat) (s : CAMidiImport) :
    (getWord16 x s).2._allChannelsEvents = s._allChannelsEvents := by
  unfold getWord16; split <;> rfl

theorem getByte_events (x : List Nat) (s : CAMidiImport) :
    (getByte x s).2._allChannelsEvents = s._allChannelsEvents := by
  unfold getByte; split <;> rfl

theorem getWord32_events (x : List Nat) (s : CAMidiImport) :
    (getWord32 x s).2._allChannelsEvents = s._allChannelsEvents := by
  simp only [getWord32, getWord16_events]

theorem getWord24_events (x : List Nat) (s : CAMidiImport) :
    (getWord24 x s).2._allChannelsEvents = s._allChannelsEvents := by
  simp only [getWord24, getByte_events, getWord16_events]

theorem getVariableLength_events (x : List Nat) (s : CAMidiImport) :
    (getVariableLength x s).2._allChannelsEvents = s._allChannelsEvents := rfl

theorem getString_events (x : List Nat) (len : Int) (s : CAMidiImport) :
    (getString x len s).2._allChannelsEvents = s._allChannelsEvents := by
  unfold getString; split <;> rfl

/-! ## Negative track length -/

/-- C7: when the decoder, at a chunk boundary it reaches, reads the tag `MTrk` and a
declared length that `getWord32` returns as a negative `int`, `importSheetImpl` returns the
null pointer for every large enough fuel, and the event lists are those the decoder had at
that boundary: no later stage (combine, quantize, overlap resolution, score writing) has
run. -/
theorem importSheetImpl_negative_track_length (env : DecoderEnv) (m : ScoreModel)
    (peek : List Nat) (sheet : CASheet) (s st : CAMidiImport)
    (hreach : ChunkReach env peek
      { s with _dataIndex := 0, _nextTrackIndex := 0, _parseError := false } st)
    (hrun : chunkLoopRuns peek st) (hhead : (getHead peek st).1 = tagMTrk)
    (hneg : (getWord32 peek (getHead peek st).2).1 < 0) :
    ∃ bound, ∀ fuel, bound ≤ fuel →
      ∃ importer, importSheetImpl env m fuel peek sheet s = some ⟨none, importer⟩ ∧
        importer._allChannelsEvents = st._allChannelsEvents := by
  obtain ⟨k, bound, hk⟩ := chunkLoop_of_reach env peek _ st hreach
  refine ⟨k + (bound + 1), fun fuel hf => ?_⟩
  have hfuel : fuel = k + ((fuel - k - 1) + 1) := by omega
  refine ⟨(getWord32 peek (getHead peek st).2).2, ?_, ?_⟩
  · rw [importSheetImpl, hfuel, hk _ (by omega),
      chunkLoop_MTrk_negative env peek _ st hrun.1 hrun.2 hhead hneg]
  · rw [getWord32_events, getHead_events]

/-- Witness for `importSheetImpl_negative_track_length`: a header chunk followed by the tag
`MTrk` with the declared length `FF FF FF FF`. -/
theorem importSheetImpl_negative_track_length_witness :
    ∃ bound, ∀ fuel, bound ≤ fuel →
      ∃ importer,
        importSheetImpl ⟨standardMidi, 0⟩ ⟨fun _ => [], fun _ => ⟨0, 0⟩, fun _ => 0⟩ fuel
          [0x4D, 0x54, 0x68, 0x64, 0, 0, 0, 6, 0, 0, 0, 1, 0x01, 0xE0,
           0x4D, 0x54, 0x72, 0x6B, 0xFF, 0xFF, 0xFF, 0xFF, 0, 0x90, 60, 100]
          ⟨[]⟩ CAMidiImport.new = some ⟨none, importer⟩ ∧
        importer._allChannelsEvents
          = (⟨14, 0, false, 0, List.replicate 16 [[]]⟩ : CAMidiImport)._allChannelsEvents :=
  importSheetImpl_negative_track_length ⟨standardMidi, 0⟩
    ⟨fun _ => [], fun _ => ⟨0, 0⟩, fun _ => 0⟩
    [0x4D, 0x54, 0x68, 0x64, 0, 0, 0, 6, 0, 0, 0, 1, 0x01, 0xE0,
     0x4D, 0x54, 0x72, 0x6B, 0xFF, 0xFF, 0xFF, 0xFF, 0, 0x90, 60, 100]
    ⟨[]⟩ CAMidiImport.new ⟨14, 0, false, 0, List.replicate 16 [[]]⟩
    (ChunkReach.header _ _ (by decide) (by decide) (ChunkReach.here _))
    (by decide) (by decide) (by decide)

/-! ## Parse errors -/

/-- C9: the import of `minimalFile`, in which only channel 0 carries a note, into an empty
sheet yields sixteen staffs with one voice each, not one staff: the voice of the first staff
holds one element, the fifteen other voices are empty.  The guard of line 335 tests the size
of `_allChannelsEvents[ch]`, the list of the voice lists of the channel, which the
constructor makes 1 (lines 79-82), and not the size of the event list `first()` that line
359 reads, so it skips no channel.  (The external functions are stand-ins.) -/
theorem importSheetImpl_minimalFile_sixteen_staffs :
    (importSheetImpl ⟨standardMidi, 0⟩ ⟨fun _ => [⟨4, 3⟩], fun p => ⟨p, 0⟩, fun _ => 480⟩ 5
        minimalFile ⟨[]⟩ CAMidiImport.new).map
      (fun r => r.sheet.map
        (fun sh => sh.staffList.map (fun staff => staff.voiceList.map List.length)))
      = some (some ([1] :: List.replicate 15 [0])) := by
  decide

/-- Into a sheet without staffs, the loop over the channels adds one new staff for every
channel at which it does not `continue`. -/
theorem writeChannelsLoop_new_staffs (m : ScoreModel) (s : CAMidiImport) :
    ∀ (chs : List Nat) (staffIndex : Nat) (sheet : CASheet),
      writeChannelsLoop m s 0 chs staffIndex sheet
        = ⟨sheet.staffList ++
            (chs.filter (fun ch => decide ((s._allChannelsEvents.getD ch []).length ≠ 0))).map
              (newStaffWithVoice m s)⟩ := by
  intro chs
  induction chs with
  | nil => intro staffIndex sheet; simp [writeChannelsLoop]
  | cons ch more ih =>
    intro staffIndex sheet
    unfold writeChannelsLoop
    split
    · next h =>
      rw [ih, List.filter_cons_of_neg (by simpa using h)]
    · next h =>
      simp only [Nat.not_lt_zero, if_false]
      rw [ih, List.filter_cons_of_pos (by simpa using h)]
      simp only [List.map_cons, List.append_assoc, List.singleton_append]

/-! ## The layout of a voice -/

theorem playableTicks_zero_dots (w ml : Nat) : playableTicks w ⟨ml, 0⟩ = w / ml := by
  simp [playableTicks, List.range_succ]

theorem playableTicks_ge_base (w ml : Nat) : ∀ (j : Nat), w / ml ≤ playableTicks w ⟨ml, j⟩ := by
  intro j
  induction j with
  | zero => rw [playableTicks_zero_dots]
  | succ j ih =>
    have : playableTicks w ⟨ml, j + 1⟩
        = playableTicks w ⟨ml, j⟩ + w / (ml * 2 ^ (j + 1)) := by
      simp only [playableTicks]
      rw [List.range_succ, List.map_append, List.sum_append]
      simp
    rw [this]
    exact le_trans ih (Nat.le_add_right _ _)

theorem fittingDots_some (w ml d : Nat) : ∀ (lim j : Nat), fittingDots w ml d lim = some j →
    playableTicks w ⟨ml, j⟩ ≤ d ∧ j ≤ lim ∧
      ∀ j', j < j' → j' ≤ lim → d < playableTicks w ⟨ml, j'⟩ := by
  intro lim
  induction lim with
  | zero =>
    intro j h
    unfold fittingDots at h
    split at h
    · next hfit =>
      cases h
      exact ⟨hfit, le_refl _, fun j' h1 h2 => by omega⟩
    · cases h
  | succ lim ih =>
    intro j h
    unfold fittingDots at h
    split at h
    · next hfit =>
      cases h
      exact ⟨hfit, le_refl _, fun j' h1 h2 => by omega⟩
    · next hnot =>
      obtain ⟨h1, h2, h3⟩ := ih j h
      refine ⟨h1, by omega, fun j' hj hj' => ?_⟩
      by_cases hc : j' = lim + 1
      · subst hc; omega
      · exact h3 j' hj (by omega)

theorem fittingDots_none (w ml d : Nat) : ∀ (lim : Nat), fittingDots w ml d lim = none →
    ∀ j, j ≤ lim → d < playableTicks w ⟨ml, j⟩ := by
  intro lim
  induction lim with
  | zero =>
    intro h j hj
    unfold fittingDots at h
    split at h
    · cases h
    · next hnot =>
      have : j = 0 := by omega
      subst this; omega
  | succ lim ih =>
    intro h j hj
    unfold fittingDots at h
    split at h
    · cases h
    · next hnot =>
      by_cases hc : j = lim + 1
      · subst hc; omega
      · exact ih h j (by omega)

/-- The search for a fitting base length succeeds as long as the candidate lasts at least
one tick, and what it finds is the greedy choice. -/
theorem findFitting_spec (w lim d : Nat) (hd : 1 ≤ d) :
    ∀ (fuel k : Nat), 1 ≤ w / 2 ^ k → w / 2 ^ k < fuel →
      (∀ k', k' < k → ∀ j, j ≤ lim → d < playableTicks w ⟨2 ^ k', j⟩) →
      ∃ p, findFitting w lim d fuel (2 ^ k) = some p ∧ 1 ≤ playableTicks w p ∧
        IsGreedyChoice w lim d p := by
  intro fuel
  induction fuel with
  | zero => intro k _ h; omega
  | succ fuel ih =>
    intro k hbase hfuel hprev
    unfold findFitting
    cases hfd : fittingDots w (2 ^ k) d lim with
    | some j =>
      obtain ⟨h1, h2, h3⟩ := fittingDots_some w (2 ^ k) d lim j hfd
      refine ⟨⟨2 ^ k, j⟩, rfl, ?_, h1, h2, ⟨k, rfl, hprev⟩, h3⟩
      have := playableTicks_ge_base w (2 ^ k) j
      omega
    | none =>
      have hnone := fittingDots_none w (2 ^ k) d lim hfd
      have h0 := hnone 0 (Nat.zero_le _)
      rw [playableTicks_zero_dots] at h0
      have hhalf : w / 2 ^ (k + 1) = w / 2 ^ k / 2 := by
        rw [pow_succ, Nat.div_div_eq_div_mul]
      have hpow : 2 * 2 ^ k = 2 ^ (k + 1) := by rw [pow_succ]; ring
      simp only [hpow]
      apply ih (k + 1)
      · rw [hhalf]; omega
      · rw [hhalf]; omega
      · intro k' hk' j hj
        by_cases hc : k' = k
        · subst hc; exact hnone j hj
        · exact hprev k' (by omega) j hj

/-- The loop of section 4.6 with enough rounds: the tick values of the result sum to `d`,
and the result follows the greedy rule. -/
theorem decomposeLoop_spec (w lim : Nat) (hw : 0 < w) :
    ∀ (fuel d : Nat), d ≤ fuel →
      ((decomposeLoop w lim fuel d).map (playableTicks w)).sum = d ∧
        IsGreedyDecomposition w lim d (decomposeLoop w lim fuel d) := by
  intro fuel
  induction fuel with
  | zero =>
    intro d hd
    have : d = 0 := by omega
    subst this
    exact ⟨rfl, rfl⟩
  | succ fuel ih =>
    intro d hd
    unfold decomposeLoop
    split
    · next h0 => subst h0; exact ⟨rfl, rfl⟩
    · next h0 =>
      obtain ⟨p, hp, hp1, hgreedy⟩ := findFitting_spec w lim d (by omega) (w + 1) 0
        (by simpa using hw) (by simp) (fun k' hk' => by omega)
      rw [pow_zero] at hp
      rw [hp]
      have hfit := hgreedy.1
      obtain ⟨ih1, ih2⟩ := ih (d - playableTicks w p) (by omega)
      constructor
      · simp only [List.map_cons, List.sum_cons, ih1]
        omega
      · exact ⟨hgreedy, ih2⟩

/-- The Rhythm Reconstructor of section 4.6, for a whole note of at least one tick: the
tick values of what it returns for a positive duration sum to that duration. -/
theorem timeLengthToPlayableLengthList_sum (w lim : Nat) (hw : 0 < w) (d : Int) (hd : 0 < d) :
    (((timeLengthToPlayableLengthList w lim d).map
      (fun p => (playableTicks w p : Int))).sum) = d := by
  have h := (decomposeLoop_spec w lim hw d.toNat d.toNat (le_refl _)).1
  have hcast : ((timeLengthToPlayableLengthList w lim d).map
      (fun p => (playableTicks w p : Int))).sum
      = (((timeLengthToPlayableLengthList w lim d).map (playableTicks w)).sum : Nat) := by
    generalize timeLengthToPlayableLengthList w lim d = l
    induction l with
    | nil => rfl
    | cons a l ih => simp only [List.map_cons, List.sum_cons, ih, Nat.cast_add]
  rw [hcast, timeLengthToPlayableLengthList, h]
  omega

/-- C5: for every positive tick duration `d`, the sequence that the Rhythm Reconstructor
of section 4.6 returns for `d` has tick values that sum to exactly `d`, and it is the
sequence of the greedy largest-fit-first rule: every element is the largest base length,
with the largest number of dots up to the maximum, whose tick value is at most what
remains.  (The whole note lasts `wholeTicks >= 1` ticks.) -/
theorem timeLengthToPlayableLengthList_greedy (wholeTicks dotsLimit : Nat)
    (hw : 0 < wholeTicks) (d : Int) (hd : 0 < d) :
    (((timeLengthToPlayableLengthList wholeTicks dotsLimit d).map
      (fun p => (playableTicks wholeTicks p : Int))).sum) = d ∧
    IsGreedyDecomposition wholeTicks dotsLimit d.toNat
      (timeLengthToPlayableLengthList wholeTicks dotsLimit d) :=
  ⟨timeLengthToPlayableLengthList_sum wholeTicks dotsLimit hw d hd,
    (decomposeLoop_spec wholeTicks dotsLimit hw d.toNat d.toNat (le_refl _)).2⟩

/-- Witness for `timeLengthToPlayableLengthList_greedy`: 480 ticks with a whole note of
1024 ticks and at most four dots. -/
theorem timeLengthToPlayableLengthList_greedy_witness :
    (((timeLengthToPlayableLengthList 1024 4 480).map
      (fun p => (playableTicks 1024 p : Int))).sum) = 480 ∧
    IsGreedyDecomposition 1024 4 (480 : Int).toNat (timeLengthToPlayableLengthList 1024 4 480) :=
  timeLengthToPlayableLengthList_greedy 1024 4 (by decide) 480 (by decide)

/-- C12 (as stated): the valid on-event with start `2147483647` and length `2147483640`,
both at least 0.  The sums `start + 16` and `length + 16` leave the range of `int`: the
quantizer gives it the start `-2147483616` and the length `-2147483616`, which are not the
nearest multiples of 32, and the corrections 33 and 40, outside `-15 .. 16`. -/
theorem quantizeEvent_wraps_at_int_max :
    quantizeEvent ⟨true, 0, 60, 100, 2147483647, 2147483640, 0, 0⟩
      = ⟨true, 0, 60, 100, -2147483616, -2147483616, 33, 40⟩ := by
  decide

/-- C12 (amended): for a valid on-event with start time and length at least 0 and at most
`2^31 - 17 = 2147483631`, so that `start + 16` and `length + 16` are in the range of `int`,
the quantizer replaces the start time by `32 * floor((start + 16) / 32)`, which is a
multiple of 32 nearest to it (the upper one in case of a tie), records the difference as
time correction, and does the same for the length; both corrections lie between -15 and
16. -/
theorem quantizeMidiFileEvents_rounding (e : CAMidiImportEvent) (hon : e._on = true)
    (hpitch : e._pitch > 0) (htime : 0 ≤ e._time) (htime2 : e._time ≤ 2147483631)
    (hlength : 0 ≤ e._length) (hlength2 : e._length ≤ 2147483631) :
    (quantizeEvent e)._time = 32 * ((e._time + 16) / 32) ∧
    (quantizeEvent e)._timeCorrection = (quantizeEvent e)._time - e._time ∧
    (∀ k : Int, |(quantizeEvent e)._time - e._time| ≤ |32 * k - e._time|) ∧
    (e._time % 32 = 16 → (quantizeEvent e)._time = e._time + 16) ∧
    (quantizeEvent e)._length = 32 * ((e._length + 16) / 32) ∧
    (quantizeEvent e)._lengthCorrection = (quantizeEvent e)._length - e._length ∧
    (∀ k : Int, |(quantizeEvent e)._length - e._length| ≤ |32 * k - e._length|) ∧
    (e._length % 32 = 16 → (quantizeEvent e)._length = e._length + 16) ∧
    -15 ≤ (quantizeEvent e)._timeCorrection ∧ (quantizeEvent e)._timeCorrection ≤ 16 ∧
    -15 ≤ (quantizeEvent e)._lengthCorrection ∧ (quantizeEvent e)._lengthCorrection ≤ 16 := by
  have hq := quantizeEvent_valid_range e hon hpitch (by omega) htime2 (by omega) hlength2
  have ht : Int.tdiv (e._time + 16) 32 = (e._time + 16) / 32 :=
    Int.tdiv_eq_ediv (by omega) (by omega)
  have hl : Int.tdiv (e._length + 16) 32 = (e._length + 16) / 32 :=
    Int.tdiv_eq_ediv (by omega) (by omega)
  have hnear : ∀ (a k : Int), 0 ≤ a → |(a + 16) / 32 * 32 - a| ≤ |32 * k - a| := by
    intro a k _
    rw [abs_le]
    constructor
    · rcases le_or_lt 0 (32 * k - a) with h1 | h1
      · rw [abs_of_nonneg h1]; omega
      · rw [abs_of_neg h1]; omega
    · rcases le_or_lt 0 (32 * k - a) with h1 | h1
      · rw [abs_of_nonneg h1]; omega
      · rw [abs_of_neg h1]; omega
  have h1 : (quantizeEvent e)._time = (e._time + 16) / 32 * 32 := by
    rw [hq, ← ht]; split <;> rfl
  have h2 : (quantizeEvent e)._timeCorrection = (e._time + 16) / 32 * 32 - e._time := by
    rw [hq, ← ht]; split <;> rfl
  have h3 : (quantizeEvent e)._length = (e._length + 16) / 32 * 32 := by
    rw [hq, ← hl]; split <;> rfl
  have h4 : (quantizeEvent e)._lengthCorrection
      = (e._length + 16) / 32 * 32 - e._length := by
    rw [hq, ← hl]; split <;> rfl
  rw [h1, h2, h3, h4]
  refine ⟨by omega, rfl, fun k => hnear _ k htime, by omega, by omega, rfl,
    fun k => hnear _ k hlength, by omega, by omega, by omega, by omega, by omega⟩

/-- Witness for `quantizeMidiFileEvents_rounding`: start 48 lies in the middle between 32
and 64 and goes to 64; length 47 goes to 32. -/
theorem quantizeMidiFileEvents_rounding_witness :
    (quantizeEvent
        { _on := true, _channel := 0, _pitch := 60, _velocity := 100, _time := 48,
          _length := 47, _timeCorrection := 0, _lengthCorrection := 0 })._time
      = 32 * (((48 : Int) + 16) / 32) :=
  (quantizeMidiFileEvents_rounding
    { _on := true, _channel := 0, _pitch := 60, _velocity := 100, _time := 48,
      _length := 47, _timeCorrection := 0, _lengthCorrection := 0 }
    rfl (by decide) (by decide) (by decide) (by decide) (by decide)).1

/-- C13 (as stated): the valid on-event with length `2147483640`, which is at least 16.
The sum `length + 16` leaves the range of `int`: the quantizer leaves the event on with the
length `-2147483616`, which is not at least 32. -/
theorem quantizeEvent_long_note_negative :
    (quantizeEvent ⟨true, 0, 60, 100, 0, 2147483640, 0, 0⟩)._on = true ∧
    (quantizeEvent ⟨true, 0, 60, 100, 0, 2147483640, 0, 0⟩)._length = -2147483616 := by
  decide

/-- C13 (amended): a valid on-event with a length of at least 0 and at most
`2^31 - 17 = 2147483631`, so that `length + 16` is in the range of `int`, is invalidated by
the quantizer if and only if its rounded length is 0, that is if and only if its length is
below 16; with a length of 16 or more it stays valid and its length becomes at least 32. -/
theorem quantizeMidiFileEvents_lost_note (e : CAMidiImportEvent) (hon : e._on = true)
    (hpitch : e._pitch > 0) (hlength : 0 ≤ e._length) (hlength2 : e._length ≤ 2147483631) :
    (((quantizeEvent e)._on = false ∧ (quantizeEvent e)._pitch = -1)
      ↔ (quantizeEvent e)._length = 0) ∧
    ((quantizeEvent e)._length = 0 ↔ e._length < 16) ∧
    (16 ≤ e._length →
      (quantizeEvent e)._on = true ∧ (quantizeEvent e)._pitch = e._pitch ∧
        32 ≤ (quantizeEvent e)._length) := by
  have hl : Int.tdiv (e._length + 16) 32 = (e._length + 16) / 32 :=
    Int.tdiv_eq_ediv (by omega) (by omega)
  rw [quantizeEvent_valid e hon hpitch, quantRound_of_range e._length (by omega) hlength2, hl]
  by_cases h0 : (e._length + 16) / 32 * 32 = 0
  · rw [if_pos h0]
    refine ⟨⟨fun _ => h0, fun _ => ⟨rfl, rfl⟩⟩, ⟨fun _ => by omega, fun _ => h0⟩, ?_⟩
    intro h; omega
  · rw [if_neg h0]
    refine ⟨⟨fun h => ?_, fun h => absurd h h0⟩, ⟨fun h => absurd h h0, fun h => ?_⟩, ?_⟩
    · simp only [hon] at h; cases h.1
    · omega
    · intro _; exact ⟨hon, rfl, by show 32 ≤ (e._length + 16) / 32 * 32; omega⟩

/-- Witness for `quantizeMidiFileEvents_lost_note`: a note of length 15 is lost. -/
theorem quantizeMidiFileEvents_lost_note_witness :
    (quantizeEvent
        { _on := true, _channel := 0, _pitch := 60, _velocity := 100, _time := 0,
          _length := 15, _timeCorrection := 0, _lengthCorrection := 0 })._length = 0
      ↔ (15 : Int) < 16 :=
  (quantizeMidiFileEvents_lost_note
    { _on := true, _channel := 0, _pitch := 60, _velocity := 100, _time := 0,
      _length := 15, _timeCorrection := 0, _lengthCorrection := 0 }
    rfl (by decide) (by decide) (by decide)).2.1

/-! ## Event combiner: unpaired notes -/

theorem findNoteEnd_eq_none (pitch : Int) :
    ∀ (l : List CAMidiImportEvent), (∀ e ∈ l, isNoteEnd pitch e = false) →
      findNoteEnd pitch l = none := by
  intro l
  induction l with
  | nil => intro _; rfl
  | cons ej rest ih =>
    intro h
    have h0 := h ej (List.mem_cons_self _ _)
    have hrest := ih (fun e he => h e (List.mem_cons_of_mem _ he))
    simp [findNoteEnd, h0, hrest]

theorem invalidate_invalidate (x : CAMidiImportEvent) : invalidate (invalidate x) = invalidate x :=
  rfl

/-- Iteration `i` leaves an event behind `i` as it is or invalidates it. -/
theorem combineAt_snd_cases (e : CAMidiImportEvent) (rest : List CAMidiImportEvent) (p : Nat)
    (x : CAMidiImportEvent) (hp : rest[p]? = some x) :
    (combineAt e rest).2[p]? = some x ∨ (combineAt e rest).2[p]? = some (invalidate x) := by
  rcases combineAt_snd e rest with h | ⟨k, ek, h1, _, h⟩
  · exact Or.inl (by rw [h, hp])
  · rw [h, List.getElem?_set]
    split
    · next hkp =>
      subst hkp
      rw [hp] at h1
      cases h1
      have hlt : k < rest.length := by
        by_contra hc
        rw [List.getElem?_eq_none (not_lt.1 hc)] at hp
        cases hp
      exact Or.inr (by simp [hlt])
    · exact Or.inl hp

/-- When the loop reaches an event, the event is as it was in the input or has been
invalidated. -/
theorem combineUpTo_unvisited : ∀ (n : Nat) (l : List CAMidiImportEvent) (p : Nat)
    (x : CAMidiImportEvent), n ≤ p → l[p]? = some x →
    (combineUpTo n l)[p]? = some x ∨ (combineUpTo n l)[p]? = some (invalidate x) := by
  intro n
  induction n with
  | zero => intro l p x _ h; exact Or.inl h
  | succ n ih =>
    intro l p x hnp hp
    cases l with
    | nil => simp at hp
    | cons e rest =>
      cases p with
      | zero => omega
      | succ p =>
        simp only [combineUpTo, List.getElem?_cons_succ]
        rcases combineAt_snd_cases e rest p x (by simpa using hp) with h | h
        · exact ih _ p x (by omega) h
        · rcases ih _ p (invalidate x) (by omega) h with h' | h'
          · exact Or.inr h'
          · exact Or.inr h'

/-- The entry at position `i` after the first loop is what iteration `i` made of the entry
it found there. -/
theorem combineUpTo_at (events : List CAMidiImportEvent) (i : Nat) (x : CAMidiImportEvent)
    (hx : (combineUpTo i events)[i]? = some x) :
    (combineUpTo events.length events)[i]?
      = some (combineAt x ((combineUpTo i events).drop (i + 1))).1 := by
  have hSlen := combineUpTo_length i events
  have hilt : i < (combineUpTo i events).length := by
    by_contra hc
    rw [List.getElem?_eq_none (not_lt.1 hc)] at hx
    cases hx
  have hdrop : (combineUpTo i events).drop i = x :: (combineUpTo i events).drop (i + 1) := by
    rw [List.drop_eq_getElem_cons hilt]
    congr 1
    rw [List.getElem?_eq_getElem hilt] at hx
    exact Option.some.inj hx
  have hsplit : events.length = i + ((events.length - i - 1) + 1) := by omega
  have htake : ((combineUpTo i events).take i).length = i := by
    rw [List.length_take]; omega
  conv_lhs => rw [hsplit]
  rw [combineUpTo_add, hdrop, combineUpTo, List.getElem?_append_right (by omega), htake]
  simp

/-- C14 (as stated): a lone on-event whose length is not 0 finds no terminating event and is
not invalidated by the combiner.  (The combiner meets such an event when `importSheetImpl`
runs a second time on an importer: the lists still hold the notes of the first run.) -/
theorem combineMidiFileEvents_unpaired_kept :
    combineChannelEvents
        [{ _on := true, _channel := 0, _pitch := 60, _velocity := 100, _time := 0,
           _length := 480, _timeCorrection := 0, _lengthCorrection := 0 }]
      = [{ _on := true, _channel := 0, _pitch := 60, _velocity := 100, _time := 0,
           _length := 480, _timeCorrection := 0, _lengthCorrection := 0 }] := by
  decide

/-- C14 (amended): every on-event whose length is 0, as the decoder creates it, and that
finds no terminating event (when the loop reaches it, no event behind it has the same pitch
and is a note-off or an on-event with velocity 0) is invalidated by the combiner: afterwards
it has `on = false` and `pitch = -1`.  In particular a lone `on(p=60,t=0)` is
invalidated. -/
theorem combineMidiFileEvents_unpaired :
    (∀ (events : List CAMidiImportEvent) (i : Nat) (e : CAMidiImportEvent),
      events[i]? = some e → e._on = true → e._length = 0 →
      (∀ k ek, i < k → (combineUpTo i events)[k]? = some ek →
        ¬ (ek._pitch = e._pitch ∧ (ek._on = false ∨ ek._velocity = 0))) →
      ∃ e', (combineChannelEvents events)[i]? = some e' ∧
        e'._on = false ∧ e'._pitch = -1) ∧
    combineChannelEvents [CAMidiImportEvent.new true 0 60 100 0]
      = [{ _on := false, _channel := 0, _pitch := -1, _velocity := 100, _time := 0,
           _length := 0, _timeCorrection := 0, _lengthCorrection := 0 }] := by
  refine ⟨?_, by decide⟩
  intro events i e hi hon hlen hnone
  have hfind : findNoteEnd e._pitch ((combineUpTo i events).drop (i + 1)) = none := by
    apply findNoteEnd_eq_none
    intro e' he'
    obtain ⟨k, hk⟩ := List.getElem?_of_mem he'
    rw [List.getElem?_drop] at hk
    have hnot := hnone (i + 1 + k) e' (by omega) hk
    by_contra hc
    apply hnot
    have hc' : isNoteEnd e._pitch e' = true := by simpa using hc
    simp only [isNoteEnd, Bool.and_eq_true, decide_eq_true_eq, Bool.or_eq_true,
      Bool.not_eq_true'] at hc'
    exact hc'
  rcases combineUpTo_unvisited i events i e (le_refl _) hi with hS | hS
  · have hat := combineUpTo_at events i e hS
    have hfst : (combineAt e ((combineUpTo i events).drop (i + 1))).1 = e := by
      unfold combineAt
      split
      · rw [hfind]
      · rfl
    rw [hfst] at hat
    refine ⟨invalidate e, ?_, rfl, rfl⟩
    simp [combineChannelEvents, cleanupUnpaired, hat, hon, hlen]
  · have hat := combineUpTo_at events i (invalidate e) hS
    have hns : isNoteStart (invalidate e) = false := by simp [isNoteStart, invalidate]
    have hfst : (combineAt (invalidate e) ((combineUpTo i events).drop (i + 1))).1
        = invalidate e := by
      simp [combineAt, hns]
    rw [hfst] at hat
    refine ⟨invalidate e, ?_, rfl, rfl⟩
    simp [combineChannelEvents, cleanupUnpaired, hat, invalidate]

/-- Witness for `combineMidiFileEvents_unpaired`: in `[on(60), off(60), on(60)]` the only
note-off is consumed by the first note, and the second note-on is dropped. -/
theorem combineMidiFileEvents_unpaired_witness :
    ∃ e', (combineChannelEvents
        [CAMidiImportEvent.new true 0 60 100 0, CAMidiImportEvent.new false 0 60 0 100,
         CAMidiImportEvent.new true 0 60 100 200])[2]? = some e' ∧
      e'._on = false ∧ e'._pitch = -1 :=
  combineMidiFileEvents_unpaired.1
    [CAMidiImportEvent.new true 0 60 100 0, CAMidiImportEvent.new false 0 60 0 100,
     CAMidiImportEvent.new true 0 60 100 200] 2
    (CAMidiImportEvent.new true 0 60 100 200) rfl rfl rfl
    (by
      intro k ek h1 hk
      have hlen := combineUpTo_length 2
        [CAMidiImportEvent.new true 0 60 100 0, CAMidiImportEvent.new false 0 60 0 100,
         CAMidiImportEvent.new true 0 60 100 200]
      have hkge : (combineUpTo 2
        [CAMidiImportEvent.new true 0 60 100 0, CAMidiImportEvent.new false 0 60 0 100,
         CAMidiImportEvent.new true 0 60 100 200]).length ≤ k := by
        rw [hlen]; simp; omega
      rw [List.getElem?_eq_none hkge] at hk
      cases hk)

/-! ## Event combiner: lengths of the surviving notes -/

/-- C15 (as stated): the decoder restarts the time at 0 with every track (line 149), so a
note-off in a second track can carry an earlier time than its note-on in the first.  For
the two tracks `on(60) at 480` and `off(60) at 0` the combiner leaves the note on with the
length -480. -/
theorem combineMidiFileEvents_negative_length :
    (match chunkLoop ⟨standardMidi, 0⟩
        [0x4D, 0x54, 0x72, 0x6B, 0, 0, 0, 5, 0x83, 0x60, 0x90, 0x3C, 0x64,
         0x4D, 0x54, 0x72, 0x6B, 0, 0, 0, 4, 0x00, 0x80, 0x3C, 0x00] 10 CAMidiImport.new with
      | LoopFlow.endOfLoop s =>
        some (s._parseError, (combineMidiFileEvents s)._allChannelsEvents.head?)
      | _ => none)
      = some (false, some
          [[{ _on := true, _channel := 0, _pitch := 60, _velocity := 100, _time := 480,
              _length := -480, _timeCorrection := 0, _lengthCorrection := 0 },
            { _on := false, _channel := 0, _pitch := -1, _velocity := 0, _time := 0,
              _length := 0, _timeCorrection := 0, _lengthCorrection := 0 }]]) := by
  decide

theorem combineAt_snd_times (e : CAMidiImportEvent) (rest : List CAMidiImportEvent) :
    (combineAt e rest).2.map (fun x => x._time) = rest.map (fun x => x._time) := by
  apply List.ext_getElem?
  intro p
  simp only [List.getElem?_map]
  exact combineAt_snd_time e rest p

theorem combineAt_snd_lengths (e : CAMidiImportEvent) (rest : List CAMidiImportEvent) :
    (combineAt e rest).2.map (fun x => x._length) = rest.map (fun x => x._length) := by
  rcases combineAt_snd e rest with h | ⟨k, ek, h1, _, h⟩
  · rw [h]
  · rw [h]
    apply List.ext_getElem?
    intro p
    simp only [List.getElem?_map, List.getElem?_set]
    split
    · next hkp =>
      subst hkp
      split
      · simp [h1, invalidate]
      · next hlt => simp [List.getElem?_eq_none (not_lt.1 hlt)]
    · rfl

/-- In a list whose times lie in `0 .. 2^31 - 1` and do not decrease and whose lengths are
not negative, the first loop of the combiner produces no negative length. -/
theorem combineUpTo_length_nonneg : ∀ (n : Nat) (l : List CAMidiImportEvent),
    (∀ x ∈ l.map (fun x => x._length), (0 : Int) ≤ x) →
    (∀ x ∈ l.map (fun x => x._time), (0 : Int) ≤ x ∧ x ≤ 2147483647) →
    (l.map (fun x => x._time)).Pairwise (fun a b => a ≤ b) →
    ∀ q ∈ combineUpTo n l, 0 ≤ q._length := by
  intro n
  induction n with
  | zero =>
    intro l hlen _ _ q hq
    exact hlen q._length (List.mem_map.2 ⟨q, hq, rfl⟩)
  | succ n ih =>
    intro l hlen htimes hsorted q hq
    cases l with
    | nil => simp [combineUpTo] at hq
    | cons e rest =>
      simp only [combineUpTo, List.mem_cons] at hq
      simp only [List.map_cons, List.pairwise_cons] at hsorted
      rcases hq with hq | hq
      · rw [hq]
        unfold combineAt
        split
        · split
          · next r hr =>
            obtain ⟨k, ek, h1, _, h3, _⟩ := findNoteEnd_some _ _ _ hr
            have hmem : ek._time ∈ rest.map (fun x => x._time) :=
              List.mem_map.2 ⟨ek, List.getElem?_mem h1, rfl⟩
            have := hsorted.1 _ hmem
            have hb1 := htimes ek._time (by
              simp only [List.map_cons, List.mem_cons]; exact Or.inr hmem)
            have hb2 := htimes e._time (by simp)
            show 0 ≤ wrapInt32 (r.1 - e._time)
            rw [wrapInt32_eq _ (by omega) (by omega)]
            omega
          · exact hlen e._length (by simp)
        · exact hlen e._length (by simp)
      · apply ih (combineAt e rest).2 _ _ _ q hq
        · rw [combineAt_snd_lengths]
          intro x hx
          exact hlen x (by simp only [List.map_cons, List.mem_cons]; exact Or.inr hx)
        · rw [combineAt_snd_times]
          intro x hx
          exact htimes x (by simp only [List.map_cons, List.mem_cons]; exact Or.inr hx)
        · rw [combineAt_snd_times]
          exact hsorted.2

/-- C15 (amended): after the combiner every event of a channel list that still has
`on = true` has a length different from 0; and when all lengths were 0 before, as the
decoder leaves them, and the start times of the list lie in `0 .. 2^31 - 1` and do not
decrease in list order, that length is above 0. -/
theorem combineMidiFileEvents_surviving_length (events : List CAMidiImportEvent)
    (q : CAMidiImportEvent) (hq : q ∈ combineChannelEvents events) (hon : q._on = true) :
    q._length ≠ 0 ∧
    ((∀ e ∈ events, e._length = 0) →
      (∀ e ∈ events, 0 ≤ e._time ∧ e._time ≤ 2147483647) →
      (events.map (fun x => x._time)).Pairwise (fun a b => a ≤ b) → q._length > 0) := by
  obtain ⟨x, hx, hxq⟩ := List.mem_map.1 hq
  have hkeep : ¬ ((x._on && decide (x._length = 0)) = true) := by
    intro hc
    rw [if_pos hc] at hxq
    rw [← hxq] at hon
    cases hon
  rw [if_neg hkeep] at hxq
  subst hxq
  have hne : x._length ≠ 0 := by
    intro hc
    apply hkeep
    simp [hon, hc]
  refine ⟨hne, fun hzero htimes hsorted => ?_⟩
  have := combineUpTo_length_nonneg events.length events
    (by
      intro y hy
      obtain ⟨e, he, hey⟩ := List.mem_map.1 hy
      rw [← hey, hzero e he])
    (by
      intro y hy
      obtain ⟨e, he, hey⟩ := List.mem_map.1 hy
      rw [← hey]
      exact htimes e he)
    hsorted x hx
  omega

/-- Witness for `combineMidiFileEvents_surviving_length`: the note of
`[on(60) at 0, off(60) at 100]`. -/
theorem combineMidiFileEvents_surviving_length_witness :
    (100 : Int) ≠ 0 ∧ (100 : Int) > 0 :=
  ⟨(combineMidiFileEvents_surviving_length
      [CAMidiImportEvent.new true 0 60 100 0, CAMidiImportEvent.new false 0 60 0 100]
      { _on := true, _channel := 0, _pitch := 60, _velocity := 100, _time := 0,
        _length := 100, _timeCorrection := 0, _lengthCorrection := 0 }
      (by decide) rfl).1,
    (combineMidiFileEvents_surviving_length
      [CAMidiImportEvent.new true 0 60 100 0, CAMidiImportEvent.new false 0 60 0 100]
      { _on := true, _channel := 0, _pitch := 60, _velocity := 100, _time := 0,
        _length := 100, _timeCorrection := 0, _lengthCorrection := 0 }
      (by decide) rfl).2 (by decide) (by decide) (by decide)⟩

/-! ## Stream reader: failures -/

/-- C16 (code at the failing input): one byte `81`, whose high bit is set, remains at the
cursor and the stream ends behind it.  `getVariableLength` returns 1, moves the cursor to
the end and leaves the parse-error flag clear: the flag is set only when no byte at all
remains at the cursor (line 912). -/
theorem getVariableLength_unterminated :
    getVariableLength [0x81] ⟨0, 0, false, 0, []⟩ = (1, ⟨1, 0, false, 0, []⟩) ∧
    getVariableLength [0x00, 0xFF, 0xFF, 0xFF] ⟨1, 0, false, 0, []⟩
      = (2097151, ⟨4, 0, false, 0, []⟩) ∧
    getVariableLength [0x81] ⟨1, 0, false, 0, []⟩ = (0, ⟨1, 0, true, 0, []⟩) := by
  decide

/-- C17 (code at the failing input): with exactly three bytes remaining, `getString(3)`
fails: the flag is set, the cursor stays and the result is empty; with four bytes
remaining it returns the next three.  The test of line 924 is `_dataIndex+len < size`.
`getHead`, whose test is `_dataIndex < size-3`, reads its four bytes when exactly four
remain. -/
theorem getString_exact_fit_fails :
    getString [1, 2, 3] 3 ⟨0, 0, false, 0, []⟩ = ([], ⟨0, 0, true, 0, []⟩) ∧
    getString [1, 2, 3, 4] 3 ⟨0, 0, false, 0, []⟩ = ([1, 2, 3], ⟨3, 0, false, 0, []⟩) ∧
    getString [1, 2, 3] 0 ⟨3, 0, false, 0, []⟩ = ([], ⟨3, 0, true, 0, []⟩) ∧
    getHead [1, 2, 3, 4] ⟨0, 0, false, 0, []⟩ = ([1, 2, 3, 4], ⟨4, 0, false, 0, []⟩) := by
  decide

/-- C18 (as stated): with three bytes remaining, `getWord32` records an error and has
moved the cursor by two; so has `getWord24` with two bytes remaining. -/
theorem getWord32_error_moves_cursor :
    getWord32 [1, 2, 3] ⟨0, 0, false, 0, []⟩ = (16908288, ⟨2, 0, true, 0, []⟩) ∧
    getWord24 [1, 2] ⟨0, 0, false, 0, []⟩ = (66048, ⟨2, 0, true, 0, []⟩) := by
  decide

theorem getVariableLength_parseError (x : List Nat) (s : CAMidiImport) :
    (getVariableLength x s).2._parseError
      = (s._parseError || !decide (s._dataIndex < size x)) := rfl

theorem getVariableLengthLoop_not_next (x : List Nat) (fuel : Nat) (idx : Int) (y : Nat)
    (next : Bool) (h : ¬ idx < size x) :
    getVariableLengthLoop x fuel idx y next = (idx, y) := by
  cases fuel <;> simp [getVariableLengthLoop, h]

theorem getByte_ok (x : List Nat) (s : CAMidiImport) (h : s._dataIndex < size x) :
    getByte x s = (byteAt x s._dataIndex, { s with _dataIndex := s._dataIndex + 1 }) := by
  rw [getByte, if_pos h]

theorem getByte_fail (x : List Nat) (s : CAMidiImport) (h : ¬ s._dataIndex < size x) :
    getByte x s = (0, { s with _parseError := true }) := by
  rw [getByte, if_neg h]

theorem getWord16_ok (x : List Nat) (s : CAMidiImport) (h : s._dataIndex < size x - 1) :
    getWord16 x s
      = (((byteAt x s._dataIndex) <<< 8) ||| byteAt x (s._dataIndex + 1),
          { s with _dataIndex := s._dataIndex + 2 }) := by
  rw [getWord16, if_pos h]

theorem getWord16_fail (x : List Nat) (s : CAMidiImport) (h : ¬ s._dataIndex < size x - 1) :
    getWord16 x s = (0, { s with _parseError := true }) := by
  rw [getWord16, if_neg h]

/-- C18 (amended): when `getHead`, `getByte`, `getWord16`, `getVariableLength` or
`getString` records an error, the cursor after the call is the cursor before it.
`getWord24` and `getWord32` are two reads in a row, of which the second is made also when
the first has failed: when `getWord32` records an error, the cursor is where it was or two
bytes further, and when `getWord24` records an error, it is where it was or one or two bytes
further. -/
theorem reader_error_cursor (x : List Nat) (s : CAMidiImport) (hs : s._parseError = false) :
    ((getHead x s).2._parseError = true → (getHead x s).2._dataIndex = s._dataIndex) ∧
    ((getByte x s).2._parseError = true → (getByte x s).2._dataIndex = s._dataIndex) ∧
    ((getWord16 x s).2._parseError = true → (getWord16 x s).2._dataIndex = s._dataIndex) ∧
    ((getVariableLength x s).2._parseError = true →
      (getVariableLength x s).2._dataIndex = s._dataIndex) ∧
    (∀ len, (getString x len s).2._parseError = true →
      (getString x len s).2._dataIndex = s._dataIndex) ∧
    ((getWord24 x s).2._parseError = true →
      (getWord24 x s).2._dataIndex = s._dataIndex ∨
        (getWord24 x s).2._dataIndex = s._dataIndex + 1 ∨
        (getWord24 x s).2._dataIndex = s._dataIndex + 2) ∧
    ((getWord32 x s).2._parseError = true →
      (getWord32 x s).2._dataIndex = s._dataIndex ∨
        (getWord32 x s).2._dataIndex = s._dataIndex + 2) := by
  refine ⟨?_, ?_, ?_, ?_, ?_, ?_, ?_⟩
  · unfold getHead
    split
    · intro h; rw [hs] at h; cases h
    · intro _; rfl
  · unfold getByte
    split
    · intro h; rw [hs] at h; cases h
    · intro _; rfl
  · unfold getWord16
    split
    · intro h; rw [hs] at h; cases h
    · intro _; rfl
  · intro h
    rw [getVariableLength_parseError, hs] at h
    have hend : ¬ s._dataIndex < size x := by simpa using h
    simp only [getVariableLength, getVariableLengthLoop_not_next x _ _ _ _ hend]
  · intro len
    unfold getString
    split
    · intro h; rw [hs] at h; cases h
    · intro _; rfl
  · intro herr
    by_cases h1 : s._dataIndex < size x - 1
    · have e1 := getWord16_ok x s h1
      by_cases h2 : s._dataIndex + 2 < size x
      · have e2 := getByte_ok x { s with _dataIndex := s._dataIndex + 2 } h2
        simp only [getWord24, e1, e2] at herr
        rw [hs] at herr
        cases herr
      · have e2 := getByte_fail x { s with _dataIndex := s._dataIndex + 2 } h2
        simp only [getWord24, e1, e2]
        exact Or.inr (Or.inr trivial)
    · have e1 := getWord16_fail x s h1
      by_cases h2 : s._dataIndex < size x
      · have e2 := getByte_ok x { s with _parseError := true } h2
        simp only [getWord24, e1, e2]
        exact Or.inr (Or.inl trivial)
      · have e2 := getByte_fail x { s with _parseError := true } h2
        simp only [getWord24, e1, e2]
        exact Or.inl trivial
  · intro herr
    by_cases h1 : s._dataIndex < size x - 1
    · have e1 := getWord16_ok x s h1
      by_cases h2 : s._dataIndex + 2 < size x - 1
      · have e2 := getWord16_ok x { s with _dataIndex := s._dataIndex + 2 } h2
        simp only [getWord32, e1, e2] at herr
        rw [hs] at herr
        cases herr
      · have e2 := getWord16_fail x { s with _dataIndex := s._dataIndex + 2 } h2
        simp only [getWord32, e1, e2]
        exact Or.inr trivial
    · have e1 := getWord16_fail x s h1
      have e2 := getWord16_fail x { s with _parseError := true } h1
      simp only [getWord32, e1, e2]
      exact Or.inl trivial

/-- Witness for `reader_error_cursor`: `getWord32` with three bytes remaining records an
error and leaves the cursor two bytes further. -/
theorem reader_error_cursor_witness :
    (getWord32 [1, 2, 3] ⟨0, 0, false, 0, []⟩).2._dataIndex = 0 ∨
      (getWord32 [1, 2, 3] ⟨0, 0, false, 0, []⟩).2._dataIndex = 0 + 2 :=
  (reader_error_cursor [1, 2, 3] ⟨0, 0, false, 0, []⟩ rfl).2.2.2.2.2.2 (by decide)

/-! ## Stream reader: the flag is not tested -/

/-- C19 (as stated): with the parse-error flag set and bytes remaining, the reads are no
no-ops: `getByte` returns the byte 7 and moves the cursor, `getWord16` and
`getVariableLength` likewise. -/
theorem reader_reads_after_error :
    getByte [7] ⟨0, 0, true, 0, []⟩ = (7, ⟨1, 0, true, 0, []⟩) ∧
    getWord16 [1, 2] ⟨0, 0, true, 0, []⟩ = (258, ⟨2, 0, true, 0, []⟩) ∧
    getVariableLength [0x83, 0x60] ⟨0, 0, true, 0, []⟩ = (480, ⟨2, 0, true, 0, []⟩) := by
  decide

theorem getHead_cursor_only (x : List Nat) (s t : CAMidiImport)
    (h : s._dataIndex = t._dataIndex) :
    (getHead x s).1 = (getHead x t).1 ∧
      (getHead x s).2._dataIndex = (getHead x t).2._dataIndex := by
  unfold getHead
  rw [h]
  split <;> exact ⟨rfl, rfl⟩

theorem getByte_cursor_only (x : List Nat) (s t : CAMidiImport)
    (h : s._dataIndex = t._dataIndex) :
    (getByte x s).1 = (getByte x t).1 ∧
      (getByte x s).2._dataIndex = (getByte x t).2._dataIndex := by
  unfold getByte
  rw [h]
  split
  · exact ⟨rfl, rfl⟩
  · exact ⟨rfl, rfl⟩

theorem getWord16_cursor_only (x : List Nat) (s t : CAMidiImport)
    (h : s._dataIndex = t._dataIndex) :
    (getWord16 x s).1 = (getWord16 x t).1 ∧
      (getWord16 x s).2._dataIndex = (getWord16 x t).2._dataIndex := by
  unfold getWord16
  rw [h]
  split
  · exact ⟨rfl, rfl⟩
  · exact ⟨rfl, rfl⟩

theorem getWord32_cursor_only (x : List Nat) (s t : CAMidiImport)
    (h : s._dataIndex = t._dataIndex) :
    (getWord32 x s).1 = (getWord32 x t).1 ∧
      (getWord32 x s).2._dataIndex = (getWord32 x t).2._dataIndex := by
  have h1 := getWord16_cursor_only x s t h
  have h2 := getWord16_cursor_only x (getWord16 x s).2 (getWord16 x t).2 h1.2
  simp only [getWord32, h1.1, h2.1, h2.2, and_self]

theorem getWord24_cursor_only (x : List Nat) (s t : CAMidiImport)
    (h : s._dataIndex = t._dataIndex) :
    (getWord24 x s).1 = (getWord24 x t).1 ∧
      (getWord24 x s).2._dataIndex = (getWord24 x t).2._dataIndex := by
  have h1 := getWord16_cursor_only x s t h
  have h2 := getByte_cursor_only x (getWord16 x s).2 (getWord16 x t).2 h1.2
  simp only [getWord24, h1.1, h2.1, h2.2, and_self]

theorem getVariableLength_cursor_only (x : List Nat) (s t : CAMidiImport)
    (h : s._dataIndex = t._dataIndex) :
    (getVariableLength x s).1 = (getVariableLength x t).1 ∧
      (getVariableLength x s).2._dataIndex = (getVariableLength x t).2._dataIndex := by
  simp only [getVariableLength, h, and_self]

theorem getString_cursor_only (x : List Nat) (len : Int) (s t : CAMidiImport)
    (h : s._dataIndex = t._dataIndex) :
    (getString x len s).1 = (getString x len t).1 ∧
      (getString x len s).2._dataIndex = (getString x len t).2._dataIndex := by
  unfold getString
  rw [h]
  split
  · exact ⟨rfl, rfl⟩
  · exact ⟨rfl, rfl⟩

theorem getHead_sticky (x : List Nat) (s : CAMidiImport) (h : s._parseError = true) :
    (getHead x s).2._parseError = true := by
  unfold getHead; split
  · exact h
  · rfl

theorem getByte_sticky (x : List Nat) (s : CAMidiImport) (h : s._parseError = true) :
    (getByte x s).2._parseError = true := by
  unfold getByte; split
  · exact h
  · rfl

theorem getWord16_sticky (x : List Nat) (s : CAMidiImport) (h : s._parseError = true) :
    (getWord16 x s).2._parseError = true := by
  unfold getWord16; split
  · exact h
  · rfl

theorem getString_sticky (x : List Nat) (len : Int) (s : CAMidiImport)
    (h : s._parseError = true) : (getString x len s).2._parseError = true := by
  unfold getString; split
  · exact h
  · rfl

theorem getVariableLength_sticky (x : List Nat) (s : CAMidiImport)
    (h : s._parseError = true) : (getVariableLength x s).2._parseError = true := by
  rw [getVariableLength_parseError, h]; rfl

theorem getWord32_sticky (x : List Nat) (s : CAMidiImport) (h : s._parseError = true) :
    (getWord32 x s).2._parseError = true :=
  getWord16_sticky x _ (getWord16_sticky x s h)

theorem getWord24_sticky (x : List Nat) (s : CAMidiImport) (h : s._parseError = true) :
    (getWord24 x s).2._parseError = true :=
  getByte_sticky x _ (getWord16_sticky x s h)

/-- C19 (amended): once the parse-error flag has been set, no Stream Reader operation clears
it; but no operation tests it either: the value that an operation returns and the cursor
after it are the same as with the flag clear, so that a read still returns data and
advances the cursor when enough bytes remain. -/
theorem reader_after_error (x : List Nat) (s : CAMidiImport) (hs : s._parseError = true) :
    ((getHead x s).2._parseError = true ∧ (getByte x s).2._parseError = true ∧
      (getWord16 x s).2._parseError = true ∧ (getWord24 x s).2._parseError = true ∧
      (getWord32 x s).2._parseError = true ∧ (getVariableLength x s).2._parseError = true ∧
      ∀ len, (getString x len s).2._parseError = true) ∧
    ((getHead x s).1 = (getHead x { s with _parseError := false }).1 ∧
      (getHead x s).2._dataIndex = (getHead x { s with _parseError := false }).2._dataIndex) ∧
    ((getByte x s).1 = (getByte x { s with _parseError := false }).1 ∧
      (getByte x s).2._dataIndex = (getByte x { s with _parseError := false }).2._dataIndex) ∧
    ((getWord16 x s).1 = (getWord16 x { s with _parseError := false }).1 ∧
      (getWord16 x s).2._dataIndex
        = (getWord16 x { s with _parseError := false }).2._dataIndex) ∧
    ((getWord24 x s).1 = (getWord24 x { s with _parseError := false }).1 ∧
      (getWord24 x s).2._dataIndex
        = (getWord24 x { s with _parseError := false }).2._dataIndex) ∧
    ((getWord32 x s).1 = (getWord32 x { s with _parseError := false }).1 ∧
      (getWord32 x s).2._dataIndex
        = (getWord32 x { s with _parseError := false }).2._dataIndex) ∧
    ((getVariableLength x s).1 = (getVariableLength x { s with _parseError := false }).1 ∧
      (getVariableLength x s).2._dataIndex
        = (getVariableLength x { s with _parseError := false }).2._dataIndex) ∧
    (∀ len, (getString x len s).1 = (getString x len { s with _parseError := false }).1 ∧
      (getString x len s).2._dataIndex
        = (getString x len { s with _parseError := false }).2._dataIndex) :=
  ⟨⟨getHead_sticky x s hs, getByte_sticky x s hs, getWord16_sticky x s hs,
      getWord24_sticky x s hs, getWord32_sticky x s hs, getVariableLength_sticky x s hs,
      fun len => getString_sticky x len s hs⟩,
    getHead_cursor_only x s _ rfl, getByte_cursor_only x s _ rfl,
    getWord16_cursor_only x s _ rfl, getWord24_cursor_only x s _ rfl,
    getWord32_cursor_only x s _ rfl, getVariableLength_cursor_only x s _ rfl,
    fun len => getString_cursor_only x len s _ rfl⟩

/-- Witness for `reader_after_error`: `getByte` on the buffer `[7]` with the flag set. -/
theorem reader_after_error_witness :
    (getByte [7] ⟨0, 0, true, 0, []⟩).1
        = (getByte [7] { (⟨0, 0, true, 0, []⟩ : CAMidiImport) with _parseError := false }).1 ∧
      (getByte [7] ⟨0, 0, true, 0, []⟩).2._dataIndex
        = (getByte [7]
            { (⟨0, 0, true, 0, []⟩ : CAMidiImport) with _parseError := false }).2._dataIndex :=
  (reader_after_error [7] ⟨0, 0, true, 0, []⟩ rfl).2.2.1

/-! ## The header chunk -/

/-- C20 (as stated): `minimalFile` with the declared header length changed from 6 to 7 is
not rejected: the import returns a sheet, and the note of the track is written to its first
staff.  (The external functions are stand-ins.) -/
theorem importSheetImpl_header_length_seven :
    (importSheetImpl ⟨standardMidi, 0⟩ ⟨fun _ => [⟨4, 3⟩], fun p => ⟨p, 0⟩, fun _ => 480⟩ 5
        [0x4D, 0x54, 0x68, 0x64, 0, 0, 0, 7, 0, 0, 0, 1, 0x01, 0xE0,
         0x4D, 0x54, 0x72, 0x6B, 0, 0, 0, 13,
         0x00, 0x90, 0x3C, 0x64, 0x83, 0x60, 0x80, 0x3C, 0x00, 0x00, 0xFF, 0x2F, 0x00]
        ⟨[]⟩ CAMidiImport.new).map
      (fun r => (r.importer._parseError, r.sheet.map (fun sh => sh.staffList.head?)))
      = some (false,
          some (some ⟨5, [[CAMusElement.note ⟨60, 0⟩ ⟨4, 3⟩ false false]]⟩)) := by
  decide

theorem getHead_ok (x : List Nat) (s : CAMidiImport) (h : s._dataIndex < size x - 3) :
    getHead x s = (mid x s._dataIndex 4, { s with _dataIndex := s._dataIndex + 4 }) := by
  rw [getHead, if_pos h]

/-- C20 (amended): whatever length an `MThd` chunk declares, the decoder reads the tag, the
four bytes of the length and three 16-bit fields, fourteen bytes in all when that many
remain, records no error and goes on with the next chunk behind them: the declared length
is not compared with 6 and the import is not rejected because of it. -/
theorem chunkLoop_header_length_ignored (env : DecoderEnv) (peek : List Nat) (fuel : Nat)
    (s : CAMidiImport) (herr : s._parseError = false)
    (hhead : (getHead peek s).1 = tagMThd) (hbytes : s._dataIndex + 14 ≤ size peek) :
    chunkLoop env peek (fuel + 1) s
      = chunkLoop env peek fuel { s with _dataIndex := s._dataIndex + 14 } := by
  rw [chunkLoop_MThd env peek fuel s (by omega) herr hhead]
  have e0 := getHead_ok peek s (by omega)
  have e1 := getWord16_ok peek { s with _dataIndex := s._dataIndex + 4 }
    (by show s._dataIndex + 4 < size peek - 1; omega)
  have e2 := getWord16_ok peek { s with _dataIndex := s._dataIndex + 4 + 2 }
    (by show s._dataIndex + 4 + 2 < size peek - 1; omega)
  have e3 := getWord16_ok peek { s with _dataIndex := s._dataIndex + 4 + 2 + 2 }
    (by show s._dataIndex + 4 + 2 + 2 < size peek - 1; omega)
  have e4 := getWord16_ok peek { s with _dataIndex := s._dataIndex + 4 + 2 + 2 + 2 }
    (by show s._dataIndex + 4 + 2 + 2 + 2 < size peek - 1; omega)
  have e5 := getWord16_ok peek { s with _dataIndex := s._dataIndex + 4 + 2 + 2 + 2 + 2 }
    (by show s._dataIndex + 4 + 2 + 2 + 2 + 2 < size peek - 1; omega)
  simp only [getWord32, e0, e1, e2, e3, e4, e5]
  congr 2
  omega

/-- Witness for `chunkLoop_header_length_ignored`: a header that declares the length 7. -/
theorem chunkLoop_header_length_ignored_witness :
    chunkLoop ⟨standardMidi, 0⟩
        [0x4D, 0x54, 0x68, 0x64, 0, 0, 0, 7, 0, 0, 0, 1, 0x01, 0xE0] (0 + 1)
        ⟨0, 0, false, 0, []⟩
      = chunkLoop ⟨standardMidi, 0⟩
          [0x4D, 0x54, 0x68, 0x64, 0, 0, 0, 7, 0, 0, 0, 1, 0x01, 0xE0] 0
          { (⟨0, 0, false, 0, []⟩ : CAMidiImport) with _dataIndex := 0 + 14 } :=
  chunkLoop_header_length_ignored ⟨standardMidi, 0⟩
    [0x4D, 0x54, 0x68, 0x64, 0, 0, 0, 7, 0, 0, 0, 1, 0x01, 0xE0] 0 ⟨0, 0, false, 0, []⟩
    rfl (by decide) (by decide)

/-! ## Big-endian reads -/

theorem byteAt_append_length_succ (pre : List Nat) (b0 b1 : Nat) (rest : List Nat) :
    byteAt (pre ++ b0 :: b1 :: rest) ((pre.length : Int) + 1) = b1 % 256 := by
  have h := byteAt_append_length (pre ++ [b0]) b1 rest
  simpa using h

theorem shiftLeft_or_byte (a b : Nat) : (a <<< 8) ||| (b % 256) = a * 256 + b % 256 := by
  rw [Nat.shiftLeft_eq]
  have h : a * 2 ^ 8 = 2 ^ 8 * a := by ring
  rw [h, ← Nat.mul_add_lt_is_or (Nat.mod_lt _ (by norm_num)) a]
  omega

theorem getWord16_value (pre rest : List Nat) (b0 b1 : Nat) (s : CAMidiImport)
    (hidx : s._dataIndex = (pre.length : Int)) :
    getWord16 (pre ++ b0 :: b1 :: rest) s
      = (b0 % 256 * 256 + b1 % 256, { s with _dataIndex := s._dataIndex + 2 }) := by
  have hlt : s._dataIndex < size (pre ++ b0 :: b1 :: rest) - 1 := by
    simp [size, hidx]; omega
  rw [getWord16_ok _ _ hlt, hidx, byteAt_append_length, byteAt_append_length_succ,
    shiftLeft_or_byte]

theorem getByte_value (pre rest : List Nat) (b0 : Nat) (s : CAMidiImport)
    (hidx : s._dataIndex = (pre.length : Int)) :
    getByte (pre ++ b0 :: rest) s = (b0 % 256, { s with _dataIndex := s._dataIndex + 1 }) := by
  have hlt : s._dataIndex < size (pre ++ b0 :: rest) := by
    simp [size, hidx]
  rw [getByte_ok _ _ hlt, hidx, byteAt_append_length]

/-- C28: with the bytes `b0 b1` at the cursor, `getWord16` returns `b0 * 256 + b1` and moves
the cursor by 2; with `b0 b1 b2` at the cursor, `getWord24` returns
`b0 * 65536 + b1 * 256 + b2` and moves the cursor by 3; with `b0` at the cursor, `getByte`
returns it, a value from 0 to 255, and moves the cursor by 1.  Nothing but the cursor
changes: the parse-error flag is not set.  (A byte of the buffer is read as
`at(i) & 0xff`, its value modulo 256.) -/
theorem getWord16_getWord24_getByte_value (pre rest : List Nat) (b0 b1 b2 : Nat)
    (s : CAMidiImport) (hidx : s._dataIndex = (pre.length : Int)) :
    getWord16 (pre ++ b0 :: b1 :: rest) s
      = (b0 % 256 * 256 + b1 % 256, { s with _dataIndex := s._dataIndex + 2 }) ∧
    getWord24 (pre ++ b0 :: b1 :: b2 :: rest) s
      = (b0 % 256 * 65536 + b1 % 256 * 256 + b2 % 256,
          { s with _dataIndex := s._dataIndex + 3 }) ∧
    getByte (pre ++ b0 :: rest) s = (b0 % 256, { s with _dataIndex := s._dataIndex + 1 }) ∧
    (getByte (pre ++ b0 :: rest) s).1 ≤ 255 := by
  refine ⟨getWord16_value pre rest b0 b1 s hidx, ?_, getByte_value pre rest b0 s hidx, ?_⟩
  · have h16 := getWord16_value pre (b2 :: rest) b0 b1 s hidx
    have hb := getByte_value (pre ++ [b0, b1]) rest b2
      { s with _dataIndex := s._dataIndex + 2 } (by simp [hidx])
    have happ : pre ++ [b0, b1] ++ b2 :: rest = pre ++ b0 :: b1 :: b2 :: rest := by simp
    rw [happ] at hb
    simp only [getWord24, h16, hb]
    rw [shiftLeft_or_byte]
    refine Prod.ext ?_ ?_
    · simp only; ring
    · simp only [CAMidiImport.mk.injEq, and_true, true_and]; ring
  · rw [getByte_value pre rest b0 s hidx]
    have := Nat.mod_lt b0 (show 0 < 256 by norm_num)
    simp only; omega

/-- Witness for `getWord16_getWord24_getByte_value`: the bytes `12 34 56` behind one byte
that was read before. -/
theorem getWord16_getWord24_getByte_value_witness :
    getWord16 ([0] ++ 0x12 :: 0x34 :: [0x56]) ⟨1, 0, false, 0, []⟩
      = (0x12 % 256 * 256 + 0x34 % 256, ⟨1 + 2, 0, false, 0, []⟩) ∧
    getWord24 ([0] ++ 0x12 :: 0x34 :: 0x56 :: [0x56]) ⟨1, 0, false, 0, []⟩
      = (0x12 % 256 * 65536 + 0x34 % 256 * 256 + 0x56 % 256, ⟨1 + 3, 0, false, 0, []⟩) ∧
    getByte ([0] ++ 0x12 :: [0x56]) ⟨1, 0, false, 0, []⟩
      = (0x12 % 256, ⟨1 + 1, 0, false, 0, []⟩) ∧
    (getByte ([0] ++ 0x12 :: [0x56]) ⟨1, 0, false, 0, []⟩).1 ≤ 255 :=
  getWord16_getWord24_getByte_value [0] [0x56] 0x12 0x34 0x56 ⟨1, 0, false, 0, []⟩ rfl
/-! ## The 32-bit read -/

/-- C29 (as stated): with the four bytes `FF FF FF FF` at the cursor, `getWord32` returns
`-1`, not `2^32 - 1`: the `unsigned` value is returned as `int`.  With `80 00 00 00` it
returns `-2^31`. -/
theorem getWord32_negative :
    getWord32 [0xFF, 0xFF, 0xFF, 0xFF] ⟨0, 0, false, 0, []⟩ = (-1, ⟨4, 0, false, 0, []⟩) ∧
    getWord32 [0x80, 0, 0, 0] ⟨0, 0, false, 0, []⟩ = (-2147483648, ⟨4, 0, false, 0, []⟩) := by
  decide

/-- C29 (amended): with the bytes `b0 b1 b2 b3` at the cursor, `getWord32` moves the cursor
by 4, sets no flag, and returns the big-endian value
`v = b0 * 2^24 + b1 * 2^16 + b2 * 2^8 + b3` read as a signed 32-bit integer: `v` itself when
`v < 2^31` (that is `b0 < 128`), and `v - 2^32`, a negative number, otherwise. -/
theorem getWord32_value (pre rest : List Nat) (b0 b1 b2 b3 : Nat) (s : CAMidiImport)
    (hidx : s._dataIndex = (pre.length : Int)) :
    getWord32 (pre ++ b0 :: b1 :: b2 :: b3 :: rest) s
      = (if b0 % 256 * 16777216 + b1 % 256 * 65536 + b2 % 256 * 256 + b3 % 256 < 2147483648
          then ((b0 % 256 * 16777216 + b1 % 256 * 65536 + b2 % 256 * 256 + b3 % 256 : Nat) : Int)
          else ((b0 % 256 * 16777216 + b1 % 256 * 65536 + b2 % 256 * 256 + b3 % 256 : Nat) : Int)
            - 4294967296,
         { s with _dataIndex := s._dataIndex + 4 }) := by
  have h1 := getWord16_value pre (b2 :: b3 :: rest) b0 b1 s hidx
  have h2 := getWord16_value (pre ++ [b0, b1]) rest b2 b3
    { s with _dataIndex := s._dataIndex + 2 } (by simp [hidx])
  have happ : pre ++ [b0, b1] ++ b2 :: b3 :: rest = pre ++ b0 :: b1 :: b2 :: b3 :: rest := by
    simp
  rw [happ] at h2
  have hb0 := Nat.mod_lt b0 (show 0 < 256 by norm_num)
  have hb1 := Nat.mod_lt b1 (show 0 < 256 by norm_num)
  have hb2 := Nat.mod_lt b2 (show 0 < 256 by norm_num)
  have hb3 := Nat.mod_lt b3 (show 0 < 256 by norm_num)
  have hor : ((b0 % 256 * 256 + b1 % 256) <<< 16) % 4294967296 ||| (b2 % 256 * 256 + b3 % 256)
      = b0 % 256 * 16777216 + b1 % 256 * 65536 + b2 % 256 * 256 + b3 % 256 := by
    rw [Nat.shiftLeft_eq, Nat.mod_eq_of_lt (by omega)]
    have h : (b0 % 256 * 256 + b1 % 256) * 2 ^ 16 = 2 ^ 16 * (b0 % 256 * 256 + b1 % 256) := by
      ring
    rw [h, ← Nat.mul_add_lt_is_or (show b2 % 256 * 256 + b3 % 256 < 2 ^ 16 by omega)]
    omega
  simp only [getWord32, h1, h2, hor]
  refine Prod.ext ?_ ?_
  · simp only [toInt32]
    rw [Nat.mod_eq_of_lt (show b0 % 256 * 16777216 + b1 % 256 * 65536 + b2 % 256 * 256
      + b3 % 256 < 4294967296 by omega)]
  · simp only [CAMidiImport.mk.injEq, and_true, true_and]; ring

/-- Witness for `getWord32_value`: the bytes `80 00 00 01` behind one byte that was read
before. -/
theorem getWord32_value_witness :
    getWord32 ([0] ++ 0x80 :: 0 :: 0 :: 1 :: []) ⟨1, 0, false, 0, []⟩
      = (if 0x80 % 256 * 16777216 + 0 % 256 * 65536 + 0 % 256 * 256 + 1 % 256 < 2147483648
          then ((0x80 % 256 * 16777216 + 0 % 256 * 65536 + 0 % 256 * 256 + 1 % 256 : Nat) : Int)
          else ((0x80 % 256 * 16777216 + 0 % 256 * 65536 + 0 % 256 * 256 + 1 % 256 : Nat) : Int)
            - 4294967296,
         ⟨1 + 4, 0, false, 0, []⟩) :=
  getWord32_value [0] [] 0x80 0 0 1 ⟨1, 0, false, 0, []⟩ rfl

/-! ## Aborted imports -/

/-- An event that the track loop reaches is reached with every fuel that covers the
iterations before it. -/
theorem trackLoop_of_reach (env : DecoderEnv) (peek : List Nat) (time time2 : Int)
    (s s2 : CAMidiImport) (deltas : List Int)
    (h : TrackReach env peek time s deltas time2 s2) :
    ∀ fuel, trackLoop env peek (deltas.length + fuel) time s
      = trackLoop env peek fuel time2 s2 := by
  induction h with
  | here time s => intro fuel; simp
  | step time time1 time2 s s1 s2 deltas hrun hev _ ih =>
    intro fuel
    have : ((getVariableLength peek s).1 :: deltas).length + fuel
        = (deltas.length + fuel) + 1 := by simp; omega
    rw [this, trackLoop_goOn env peek _ time time1 s s1 hrun.1 hrun.2 hev]
    exact ih fuel

theorem chunkLoop_MTrk_return0 (env : DecoderEnv) (peek : List Nat) (fuel : Nat)
    (s s1 : CAMidiImport) (hidx : s._dataIndex < size peek) (herr : s._parseError = false)
    (hhead : (getHead peek s).1 = tagMTrk)
    (hlen : ¬ (getWord32 peek (getHead peek s).2).1 < 0)
    (htrack : trackLoop env peek fuel 0 (trackStart peek s) = LoopFlow.return0 s1) :
    chunkLoop env peek (fuel + 1) s = LoopFlow.return0 s1 := by
  have hne : tagMTrk ≠ tagMThd := by decide
  rw [trackStart] at htrack
  rw [chunkLoop]
  simp [hidx, herr, hhead, hne, hlen, htrack]

/-- When the decoding of an event that the decoder reaches inside a track executes
`return 0`, `importSheetImpl` returns the null pointer for every large enough fuel, with
the importer in the state in which the event left it. -/
theorem importSheetImpl_return0_in_track (env : DecoderEnv) (m : ScoreModel)
    (peek : List Nat) (sheet : CASheet) (s st s1 s2 : CAMidiImport) (deltas : List Int)
    (time time1 : Int)
    (hreach : ChunkReach env peek
      { s with _dataIndex := 0, _nextTrackIndex := 0, _parseError := false } st)
    (hrun : chunkLoopRuns peek st) (hhead : (getHead peek st).1 = tagMTrk)
    (hlen : ¬ (getWord32 peek (getHead peek st).2).1 < 0)
    (htrack : TrackReach env peek 0 (trackStart peek st) deltas time s1)
    (hrun1 : trackLoopRuns s1)
    (hev : decodeEvent env peek time s1 = (time1, EventFlow.return0 s2)) :
    ∃ bound, ∀ fuel, bound ≤ fuel →
      importSheetImpl env m fuel peek sheet s = some ⟨none, s2⟩ := by
  obtain ⟨k, bound, hk⟩ := chunkLoop_of_reach env peek _ st hreach
  refine ⟨k + (bound + deltas.length + 2), fun fuel hf => ?_⟩
  have hfuel : fuel = k + ((deltas.length + ((fuel - k - deltas.length - 2) + 1)) + 1) := by
    omega
  have h1 : trackLoop env peek (deltas.length + ((fuel - k - deltas.length - 2) + 1)) 0
      (trackStart peek st) = LoopFlow.return0 s2 := by
    rw [trackLoop_of_reach env peek 0 time _ s1 deltas htrack,
      trackLoop_return0 env peek _ time time1 s1 s2 hrun1.1 hrun1.2 hev]
  rw [importSheetImpl, hfuel, hk _ (by omega),
    chunkLoop_MTrk_return0 env peek _ st s2 hrun.1 hrun.2 hhead hlen h1]

/-- C21: when the track loop, at an event it reaches, reads the status byte
`Midi_Ctl_Event` and then a meta type that is none of `Meta_Text`, `Meta_Tempo`,
`Meta_InstrName`, `Meta_SeqTrkName`, `Meta_SMPTEOffs`, `Meta_Keysig`, `Meta_Timesig` and
`Meta_Track_End`, `importSheetImpl` returns the null pointer for every large enough fuel.
The importer is left as it was right behind the type byte: nothing behind it was read, the
event lists are those of that moment, and no later stage has run. -/
theorem importSheetImpl_unknown_meta (env : DecoderEnv) (m : ScoreModel)
    (peek : List Nat) (sheet : CASheet) (s st s1 : CAMidiImport) (deltas : List Int)
    (time : Int)
    (hreach : ChunkReach env peek
      { s with _dataIndex := 0, _nextTrackIndex := 0, _parseError := false } st)
    (hrun : chunkLoopRuns peek st) (hhead : (getHead peek st).1 = tagMTrk)
    (hlen : ¬ (getWord32 peek (getHead peek st).2).1 < 0)
    (htrack : TrackReach env peek 0 (trackStart peek st) deltas time s1)
    (hrun1 : trackLoopRuns s1)
    (hevent : (getByte peek (getVariableLength peek s1).2).1 = env.dev.Midi_Ctl_Event)
    (hmeta : (getByte peek (getByte peek (getVariableLength peek s1).2).2).1
      ∉ [env.dev.Meta_Text, env.dev.Meta_Tempo, env.dev.Meta_InstrName,
          env.dev.Meta_SeqTrkName, env.dev.Meta_SMPTEOffs, env.dev.Meta_Keysig,
          env.dev.Meta_Timesig, env.dev.Meta_Track_End]) :
    ∃ bound, ∀ fuel, bound ≤ fuel →
      importSheetImpl env m fuel peek sheet s
        = some ⟨none, (getByte peek (getByte peek (getVariableLength peek s1).2).2).2⟩ ∧
      (getByte peek (getByte peek (getVariableLength peek s1).2).2).2._allChannelsEvents
        = s1._allChannelsEvents := by
  simp only [List.mem_cons, List.mem_singleton, List.not_mem_nil, or_false, not_or] at hmeta
  obtain ⟨m1, m2, m3, m4, m5, m6, m7, m8⟩ := hmeta
  have hev : decodeEvent env peek time s1
      = (wrapInt32 (time + (getVariableLength peek s1).1),
          EventFlow.return0 (getByte peek (getByte peek (getVariableLength peek s1).2).2).2) := by
    simp only [decodeEvent, hevent, if_true, decodeMetaEvent, m1, m2, m3, m4, m5, m6, m7, m8,
      if_false, or_self]
  obtain ⟨bound, hb⟩ := importSheetImpl_return0_in_track env m peek sheet s st s1 _ deltas
    time _ hreach hrun hhead hlen htrack hrun1 hev
  refine ⟨bound, fun fuel hf => ⟨hb fuel hf, ?_⟩⟩
  rw [getByte_events, getByte_events, getVariableLength_events]

/-- Witness for `importSheetImpl_unknown_meta`: a header chunk and a track whose first event
is a meta event of type `7F`. -/
theorem importSheetImpl_unknown_meta_witness :
    ∃ bound, ∀ fuel, bound ≤ fuel →
      importSheetImpl ⟨standardMidi, 0⟩ ⟨fun _ => [], fun _ => ⟨0, 0⟩, fun _ => 0⟩ fuel
          [0x4D, 0x54, 0x68, 0x64, 0, 0, 0, 6, 0, 0, 0, 1, 0x01, 0xE0,
           0x4D, 0x54, 0x72, 0x6B, 0, 0, 0, 4, 0x00, 0xFF, 0x7F, 0x00] ⟨[]⟩ CAMidiImport.new
        = some ⟨none, (getByte
            [0x4D, 0x54, 0x68, 0x64, 0, 0, 0, 6, 0, 0, 0, 1, 0x01, 0xE0,
             0x4D, 0x54, 0x72, 0x6B, 0, 0, 0, 4, 0x00, 0xFF, 0x7F, 0x00]
            (getByte
              [0x4D, 0x54, 0x68, 0x64, 0, 0, 0, 6, 0, 0, 0, 1, 0x01, 0xE0,
               0x4D, 0x54, 0x72, 0x6B, 0, 0, 0, 4, 0x00, 0xFF, 0x7F, 0x00]
              (getVariableLength
                [0x4D, 0x54, 0x68, 0x64, 0, 0, 0, 6, 0, 0, 0, 1, 0x01, 0xE0,
                 0x4D, 0x54, 0x72, 0x6B, 0, 0, 0, 4, 0x00, 0xFF, 0x7F, 0x00]
                ⟨22, 26, false, 0, List.replicate 16 [[]]⟩).2).2).2⟩ ∧
      (getByte
            [0x4D, 0x54, 0x68, 0x64, 0, 0, 0, 6, 0, 0, 0, 1, 0x01, 0xE0,
             0x4D, 0x54, 0x72, 0x6B, 0, 0, 0, 4, 0x00, 0xFF, 0x7F, 0x00]
            (getByte
              [0x4D, 0x54, 0x68, 0x64, 0, 0, 0, 6, 0, 0, 0, 1, 0x01, 0xE0,
               0x4D, 0x54, 0x72, 0x6B, 0, 0, 0, 4, 0x00, 0xFF, 0x7F, 0x00]
              (getVariableLength
                [0x4D, 0x54, 0x68, 0x64, 0, 0, 0, 6, 0, 0, 0, 1, 0x01, 0xE0,
                 0x4D, 0x54, 0x72, 0x6B, 0, 0, 0, 4, 0x00, 0xFF, 0x7F, 0x00]
                ⟨22, 26, false, 0, List.replicate 16 [[]]⟩).2).2).2._allChannelsEvents
        = (⟨22, 26, false, 0, List.replicate 16 [[]]⟩ : CAMidiImport)._allChannelsEvents :=
  importSheetImpl_unknown_meta ⟨standardMidi, 0⟩
    ⟨fun _ => [], fun _ => ⟨0, 0⟩, fun _ => 0⟩
    [0x4D, 0x54, 0x68, 0x64, 0, 0, 0, 6, 0, 0, 0, 1, 0x01, 0xE0,
     0x4D, 0x54, 0x72, 0x6B, 0, 0, 0, 4, 0x00, 0xFF, 0x7F, 0x00]
    ⟨[]⟩ CAMidiImport.new ⟨14, 0, false, 0, List.replicate 16 [[]]⟩
    ⟨22, 26, false, 0, List.replicate 16 [[]]⟩ [] 0
    (ChunkReach.header _ _ (by decide) (by decide) (ChunkReach.here _))
    (by decide) (by decide) (by decide) (TrackReach.here _ _) (by decide) (by decide)
    (by decide)

/-- C22: when the chunk loop, at a chunk boundary it reaches with bytes left, reads a tag
that is neither `MThd` nor `MTrk`, `importSheetImpl` returns the null pointer for every
large enough fuel; so it does when fewer than four bytes are left there, where `getHead`
returns the empty tag.  The event lists are those of the boundary, and no later stage has
run. -/
theorem importSheetImpl_unknown_chunk (env : DecoderEnv) (m : ScoreModel)
    (peek : List Nat) (sheet : CASheet) (s st : CAMidiImport)
    (hreach : ChunkReach env peek
      { s with _dataIndex := 0, _nextTrackIndex := 0, _parseError := false } st)
    (hrun : chunkLoopRuns peek st)
    (htag : ¬ st._dataIndex < size peek - 3 ∨
      ((getHead peek st).1 ≠ tagMThd ∧ (getHead peek st).1 ≠ tagMTrk)) :
    ∃ bound, ∀ fuel, bound ≤ fuel →
      importSheetImpl env m fuel peek sheet s = some ⟨none, (getHead peek st).2⟩ ∧
      (getHead peek st).2._allChannelsEvents = st._allChannelsEvents := by
  have hne : (getHead peek st).1 ≠ tagMThd ∧ (getHead peek st).1 ≠ tagMTrk := by
    rcases htag with h | h
    · have : (getHead peek st).1 = [] := by rw [getHead, if_neg h]
      rw [this]
      exact ⟨by decide, by decide⟩
    · exact h
  obtain ⟨k, bound, hk⟩ := chunkLoop_of_reach env peek _ st hreach
  refine ⟨k + (bound + 1), fun fuel hf => ⟨?_, getHead_events peek st⟩⟩
  have hfuel : fuel = k + ((fuel - k - 1) + 1) := by omega
  rw [importSheetImpl, hfuel, hk _ (by omega),
    chunkLoop_unknown env peek _ st hrun.1 hrun.2 hne.1 hne.2]

/-- Witness for `importSheetImpl_unknown_chunk`: a header chunk followed by two stray
bytes. -/
theorem importSheetImpl_unknown_chunk_witness :
    ∃ bound, ∀ fuel, bound ≤ fuel →
      importSheetImpl ⟨standardMidi, 0⟩ ⟨fun _ => [], fun _ => ⟨0, 0⟩, fun _ => 0⟩ fuel
          [0x4D, 0x54, 0x68, 0x64, 0, 0, 0, 6, 0, 0, 0, 1, 0x01, 0xE0, 0x4D, 0x54]
          ⟨[]⟩ CAMidiImport.new
        = some ⟨none, (getHead
            [0x4D, 0x54, 0x68, 0x64, 0, 0, 0, 6, 0, 0, 0, 1, 0x01, 0xE0, 0x4D, 0x54]
            ⟨14, 0, false, 0, List.replicate 16 [[]]⟩).2⟩ ∧
      (getHead [0x4D, 0x54, 0x68, 0x64, 0, 0, 0, 6, 0, 0, 0, 1, 0x01, 0xE0, 0x4D, 0x54]
          ⟨14, 0, false, 0, List.replicate 16 [[]]⟩).2._allChannelsEvents
        = (⟨14, 0, false, 0, List.replicate 16 [[]]⟩ : CAMidiImport)._allChannelsEvents :=
  importSheetImpl_unknown_chunk ⟨standardMidi, 0⟩
    ⟨fun _ => [], fun _ => ⟨0, 0⟩, fun _ => 0⟩
    [0x4D, 0x54, 0x68, 0x64, 0, 0, 0, 6, 0, 0, 0, 1, 0x01, 0xE0, 0x4D, 0x54]
    ⟨[]⟩ CAMidiImport.new ⟨14, 0, false, 0, List.replicate 16 [[]]⟩
    (ChunkReach.header _ _ (by decide) (by decide) (ChunkReach.here _))
    (by decide) (Or.inl (by decide))

/-! ## End of track -/

theorem getByte_nextTrackIndex (x : List Nat) (s : CAMidiImport) :
    (getByte x s).2._nextTrackIndex = s._nextTrackIndex := by
  unfold getByte; split <;> rfl

theorem getVariableLength_nextTrackIndex (x : List Nat) (s : CAMidiImport) :
    (getVariableLength x s).2._nextTrackIndex = s._nextTrackIndex := rfl

/-- C23 (as stated): a track of declared length 8 that holds an end-of-track event
(`00 FF 2F 00`) followed by a note-on (`00 90 3C 64`).  The decoder does not stop at the
end-of-track event: the four bytes behind it are decoded, and the note-on is in the event
list of channel 0 when the chunk loop ends. -/
theorem chunkLoop_decodes_after_end_of_track :
    chunkLoop ⟨standardMidi, 0⟩
        [0x4D, 0x54, 0x72, 0x6B, 0, 0, 0, 8, 0x00, 0xFF, 0x2F, 0x00, 0x00, 0x90, 0x3C, 0x64]
        10 CAMidiImport.new
      = LoopFlow.endOfLoop ⟨16, 16, false, 0,
          [[CAMidiImportEvent.new true 0 60 100 0]] :: List.replicate 15 [[]]⟩ := by
  decide

/-- C23 (amended): the decoding of an end-of-track meta event reads the delta time, the
status byte, the type byte and one more byte, leaves the event lists and the declared end of
the track as they are, and does not leave the track loop: the loop goes on at its test with
the state behind these bytes.  It ends there when the cursor has reached the declared end of
the track (or the error flag is set); otherwise the bytes that follow are decoded as the
next event.  The running time is the `int` sum of the time before and the delta time.  (The
case labels of the `switch` are distinct constants.) -/
theorem trackLoop_end_of_track (env : DecoderEnv) (peek : List Nat) (fuel : Nat) (time : Int)
    (s : CAMidiImport) (hrun : trackLoopRuns s)
    (hevent : (getByte peek (getVariableLength peek s).2).1 = env.dev.Midi_Ctl_Event)
    (hmeta : (getByte peek (getByte peek (getVariableLength peek s).2).2).1
      = env.dev.Meta_Track_End)
    (hdistinct : env.dev.Meta_Track_End
      ∉ [env.dev.Meta_Text, env.dev.Meta_Tempo, env.dev.Meta_InstrName,
          env.dev.Meta_SeqTrkName, env.dev.Meta_SMPTEOffs, env.dev.Meta_Keysig,
          env.dev.Meta_Timesig]) :
    decodeEvent env peek time s
      = (wrapInt32 (time + (getVariableLength peek s).1),
          EventFlow.goOn
            (getByte peek (getByte peek (getByte peek (getVariableLength peek s).2).2).2).2) ∧
    (getByte peek (getByte peek (getByte peek
        (getVariableLength peek s).2).2).2).2._allChannelsEvents = s._allChannelsEvents ∧
    (getByte peek (getByte peek (getByte peek
        (getVariableLength peek s).2).2).2).2._nextTrackIndex = s._nextTrackIndex ∧
    trackLoop env peek (fuel + 1) time s
      = trackLoop env peek fuel (wrapInt32 (time + (getVariableLength peek s).1))
          (getByte peek (getByte peek (getByte peek (getVariableLength peek s).2).2).2).2 ∧
    (¬ trackLoopRuns
        (getByte peek (getByte peek (getByte peek (getVariableLength peek s).2).2).2).2 →
      trackLoop env peek (fuel + 1) time s
        = LoopFlow.endOfLoop
            (getByte peek (getByte peek (getByte peek (getVariableLength peek s).2).2).2).2) ∧
    (trackLoopRuns
        (getByte peek (getByte peek (getByte peek (getVariableLength peek s).2).2).2).2 →
      trackLoop env peek (fuel + 2) time s
        = match decodeEvent env peek (wrapInt32 (time + (getVariableLength peek s).1))
            (getByte peek (getByte peek (getByte peek
              (getVariableLength peek s).2).2).2).2 with
          | (_, EventFlow.return0 s2) => LoopFlow.return0 s2
          | (time2, EventFlow.goOn s2) => trackLoop env peek fuel time2 s2) := by
  simp only [List.mem_cons, List.mem_singleton, List.not_mem_nil, or_false, not_or]
    at hdistinct
  obtain ⟨m1, m2, m3, m4, m5, m6, m7⟩ := hdistinct
  have hev : decodeEvent env peek time s
      = (wrapInt32 (time + (getVariableLength peek s).1),
          EventFlow.goOn
            (getByte peek (getByte peek (getByte peek
              (getVariableLength peek s).2).2).2).2) := by
    simp only [decodeEvent, hevent, if_true, decodeMetaEvent, hmeta, m1, m2, m3, m4, m5, m6,
      m7, if_false, or_self]
  have hloop := fun f => trackLoop_goOn env peek f time _ s _ hrun.1 hrun.2 hev
  refine ⟨hev, ?_, ?_, hloop fuel, ?_, ?_⟩
  · rw [getByte_events, getByte_events, getByte_events, getVariableLength_events]
  · rw [getByte_nextTrackIndex, getByte_nextTrackIndex, getByte_nextTrackIndex,
      getVariableLength_nextTrackIndex]
  · intro hstop
    rw [hloop fuel]
    exact trackLoop_end env peek fuel _ _ hstop
  · intro hgo
    rw [hloop (fuel + 1), trackLoop, if_pos hgo]

/-- Witness for `trackLoop_end_of_track`: the track of 8 bytes with an end-of-track event
and a note-on behind it, at the head of its track loop. -/
theorem trackLoop_end_of_track_witness :
    trackLoop ⟨standardMidi, 0⟩
        [0x4D, 0x54, 0x72, 0x6B, 0, 0, 0, 8, 0x00, 0xFF, 0x2F, 0x00, 0x00, 0x90, 0x3C, 0x64]
        (0 + 1) 0 ⟨8, 16, false, 0, List.replicate 16 [[]]⟩
      = trackLoop ⟨standardMidi, 0⟩
          [0x4D, 0x54, 0x72, 0x6B, 0, 0, 0, 8, 0x00, 0xFF, 0x2F, 0x00, 0x00, 0x90, 0x3C, 0x64]
          0 (wrapInt32 (0 + 0)) ⟨12, 16, false, 0, List.replicate 16 [[]]⟩ :=
  (trackLoop_end_of_track ⟨standardMidi, 0⟩
    [0x4D, 0x54, 0x72, 0x6B, 0, 0, 0, 8, 0x00, 0xFF, 0x2F, 0x00, 0x00, 0x90, 0x3C, 0x64]
    0 0 ⟨8, 16, false, 0, List.replicate 16 [[]]⟩ (by decide) (by decide) (by decide)
    (by decide)).2.2.2.1

/-! ## Start times -/

theorem readBytes_events (x : List Nat) : ∀ (n : Nat) (s : CAMidiImport),
    (readBytes x n s)._allChannelsEvents = s._allChannelsEvents := by
  intro n
  induction n with
  | zero => intro s; rfl
  | succ n ih => intro s; rw [readBytes, ih, getByte_events]

/-- A meta event leaves the event lists as they are. -/
theorem decodeMetaEvent_events (env : DecoderEnv) (peek : List Nat) (s : CAMidiImport) :
    (decodeMetaEvent env peek s).state._allChannelsEvents = s._allChannelsEvents := by
  unfold decodeMetaEvent
  simp only []
  split_ifs <;>
    simp only [EventFlow.state, getString_events, getVariableLength_events, getByte_events,
      getWord24_events, getWord32_events, readBytes_events]

/-- A channel message leaves the event lists as they are or appends one event, whose start
time is the running time, to the first list of one channel. -/
theorem decodeChannelEvent_events (env : DecoderEnv) (peek : List Nat) (event : Nat)
    (time : Int) (s : CAMidiImport) :
    (decodeChannelEvent env peek event time s)._allChannelsEvents = s._allChannelsEvents ∨
    ∃ (isOn : Bool) (channel : Nat) (pitch velocity : Int),
      (decodeChannelEvent env peek event time s)._allChannelsEvents
        = modifyAt (onFirstVoice (fun events => events ++
            [CAMidiImportEvent.new isOn (channel : Int) pitch velocity time]))
          channel s._allChannelsEvents := by
  unfold decodeChannelEvent
  simp only []
  split_ifs
  · exact Or.inr ⟨true, event &&& 0x0f, (getByte peek s).1,
      (getByte peek (getByte peek s).2).1, by simp only [noteOn, getByte_events]⟩
  · exact Or.inr ⟨false, event &&& 0x0f, (getByte peek s).1,
      (getByte peek (getByte peek s).2).1, by simp only [noteOn, getByte_events]⟩
  · exact Or.inl (by simp only [getByte_events])
  · exact Or.inl (by simp only [getByte_events])
  · exact Or.inl (by simp only [getByte_events])
  · exact Or.inl rfl

theorem decodeEvent_time (env : DecoderEnv) (peek : List Nat) (time : Int)
    (s : CAMidiImport) :
    (decodeEvent env peek time s).1 = wrapInt32 (time + (getVariableLength peek s).1) := by
  unfold decodeEvent
  simp only []
  split_ifs <;> rfl

/-- The decoding of one event leaves the event lists as they are or appends one event, whose
start time is the running time after the delta time of this event was added. -/
theorem decodeEvent_events (env : DecoderEnv) (peek : List Nat) (time : Int)
    (s : CAMidiImport) :
    (decodeEvent env peek time s).2.state._allChannelsEvents = s._allChannelsEvents ∨
    ∃ (isOn : Bool) (channel : Nat) (pitch velocity : Int),
      (decodeEvent env peek time s).2.state._allChannelsEvents
        = modifyAt (onFirstVoice (fun events => events ++
            [CAMidiImportEvent.new isOn (channel : Int) pitch velocity
              (wrapInt32 (time + (getVariableLength peek s).1))]))
          channel s._allChannelsEvents := by
  unfold decodeEvent
  simp only []
  split_ifs
  · left
    rw [decodeMetaEvent_events, getByte_events, getVariableLength_events]
  · have h := decodeChannelEvent_events env peek
      (getByte peek (getVariableLength peek s).2).1
      (wrapInt32 (time + (getVariableLength peek s).1))
      (getByte peek (getVariableLength peek s).2).2
    rw [getByte_events, getVariableLength_events] at h
    exact h

/-- The running time is the sum of the delta times when every partial sum is in the range of
an `int`. -/
theorem runningTime_eq_sum (deltas : List Int) : ∀ (time : Int),
    (∀ k, inInt32 (time + (deltas.take k).sum)) →
    runningTime time deltas = time + deltas.sum := by
  induction deltas with
  | nil => intro time _; simp [runningTime]
  | cons d ds ih =>
    intro time h
    have h1 : inInt32 (time + d) := by simpa using h 1
    have hw : wrapInt32 (time + d) = time + d := wrapInt32_eq _ h1.1 h1.2
    have := ih (time + d) (fun k => by
      have := h (k + 1)
      simpa [List.take_succ_cons, add_assoc] using this)
    simp only [runningTime, List.foldl_cons, hw, List.sum_cons] at this ⊢
    rw [this]; ring

/-- The running time after one more delta time. -/
theorem runningTime_append (deltas : List Int) (d time : Int) :
    runningTime time (deltas ++ [d]) = wrapInt32 (runningTime time deltas + d) := by
  simp [runningTime, List.foldl_append]

/-- The running time at an event reached by the track loop is the `int` sum of the delta
times decoded before it. -/
theorem trackReach_time (env : DecoderEnv) (peek : List Nat) (time time2 : Int)
    (s s2 : CAMidiImport) (deltas : List Int)
    (h : TrackReach env peek time s deltas time2 s2) : time2 = runningTime time deltas := by
  induction h with
  | here time s => simp [runningTime]
  | step time time1 time2 s s1 s2 deltas _ hev _ ih =>
    have h1 := decodeEvent_time env peek time s
    rw [hev] at h1
    simp only at h1
    rw [ih, h1]
    simp [runningTime]

/-- C24 (as stated): `longDeltaFile` is decoded without an error: its track holds the note-on
at delta time 2147483647 and the note-off at delta time 1.  The delta times up to and
including the note-off sum to 2147483648, but the note-off gets the start time
-2147483648: the running time is an `int`, and the sum in line 167 is an `int` again. -/
theorem chunkLoop_start_time_wraps :
    chunkLoop ⟨standardMidi, 0⟩ longDeltaFile 4
        { CAMidiImport.new with _dataIndex := 0, _nextTrackIndex := 0, _parseError := false }
      = LoopFlow.endOfLoop ⟨20, 20, false, 0,
          [[CAMidiImportEvent.new true 0 60 100 2147483647,
            CAMidiImportEvent.new false 0 60 0 (-2147483648)]] :: List.replicate 15 [[]]⟩ ∧
    (getVariableLength longDeltaFile ⟨8, 20, false, 0, List.replicate 16 [[]]⟩).1
      = 2147483647 ∧
    (getVariableLength longDeltaFile ⟨16, 20, false, 0,
        [[CAMidiImportEvent.new true 0 60 100 2147483647]] :: List.replicate 15 [[]]⟩).1
      = 1 ∧
    ¬ ((-2147483648 : Int) = ([2147483647, 1] : List Int).sum) := by
  decide

/-- C24 (amended): the running time of a track starts at 0, whatever was decoded before: at
a chunk boundary with the tag `MTrk` (and a length that is not negative) the chunk loop runs
the track loop with time 0.  When the track loop has reached an event of this track, the
running time is the `int` sum of the delta times of the events decoded before it in this
track, added one after the other; the decoding of the event adds its own delta time, and an
event that it appends to the event lists has this `int` sum, over the events of the track up
to and including it, as its start time.  When every partial sum of these delta times lies in
the range of an `int`, the `int` sum is their sum. -/
theorem decodeEvent_start_time (env : DecoderEnv) (peek : List Nat) (st s1 : CAMidiImport)
    (deltas : List Int) (time : Int)
    (hrun : chunkLoopRuns peek st) (hhead : (getHead peek st).1 = tagMTrk)
    (hlen : ¬ (getWord32 peek (getHead peek st).2).1 < 0)
    (htrack : TrackReach env peek 0 (trackStart peek st) deltas time s1) :
    (∀ fuel, chunkLoop env peek (fuel + 1) st
      = match trackLoop env peek fuel 0 (trackStart peek st) with
        | LoopFlow.outOfFuel => LoopFlow.outOfFuel
        | LoopFlow.return0 s2 => LoopFlow.return0 s2
        | LoopFlow.endOfLoop s2 => chunkLoop env peek fuel s2) ∧
    time = runningTime 0 deltas ∧
    (decodeEvent env peek time s1).1
      = runningTime 0 (deltas ++ [(getVariableLength peek s1).1]) ∧
    ((decodeEvent env peek time s1).2.state._allChannelsEvents = s1._allChannelsEvents ∨
      ∃ (isOn : Bool) (channel : Nat) (pitch velocity : Int),
        (decodeEvent env peek time s1).2.state._allChannelsEvents
          = modifyAt (onFirstVoice (fun events => events ++
              [CAMidiImportEvent.new isOn (channel : Int) pitch velocity
                (runningTime 0 (deltas ++ [(getVariableLength peek s1).1]))]))
            channel s1._allChannelsEvents) ∧
    ((∀ k, inInt32 ((deltas ++ [(getVariableLength peek s1).1]).take k).sum) →
      runningTime 0 (deltas ++ [(getVariableLength peek s1).1])
        = (deltas ++ [(getVariableLength peek s1).1]).sum) := by
  have htime : time = runningTime 0 deltas := trackReach_time env peek 0 time _ s1 deltas htrack
  have hsum : runningTime 0 (deltas ++ [(getVariableLength peek s1).1])
      = wrapInt32 (time + (getVariableLength peek s1).1) := by
    rw [runningTime_append, htime]
  refine ⟨?_, htime, ?_, ?_, ?_⟩
  · intro fuel
    have hne : tagMTrk ≠ tagMThd := by decide
    rw [chunkLoop, trackStart]
    simp [hrun.1, hrun.2, hhead, hne, hlen]
  · rw [decodeEvent_time, hsum]
  · rw [hsum]
    exact decodeEvent_events env peek time s1
  · intro h
    have := runningTime_eq_sum (deltas ++ [(getVariableLength peek s1).1]) 0
      (fun k => by simpa using h k)
    simpa using this

/-- Witness for `decodeEvent_start_time`: in the track of `minimalFile`, behind the note-on
at delta time 0, the note-off with delta time 480 gets the running time of the delta times 0
and 480. -/
theorem decodeEvent_start_time_witness :
    (decodeEvent ⟨standardMidi, 0⟩ minimalFile 0
        ⟨26, 35, false, 0,
          [[CAMidiImportEvent.new true 0 60 100 0]] :: List.replicate 15 [[]]⟩).1
      = runningTime 0 ([0] ++ [(getVariableLength minimalFile
          ⟨26, 35, false, 0,
            [[CAMidiImportEvent.new true 0 60 100 0]] :: List.replicate 15 [[]]⟩).1]) :=
  (decodeEvent_start_time ⟨standardMidi, 0⟩ minimalFile
    ⟨14, 0, false, 0, List.replicate 16 [[]]⟩
    ⟨26, 35, false, 0, [[CAMidiImportEvent.new true 0 60 100 0]] :: List.replicate 15 [[]]⟩
    [0] 0 (by decide) (by decide) (by decide)
    (TrackReach.step 0 0 0 _ _ _ [] (by decide) (by decide) (TrackReach.here _ _))).2.2.1

/-! ## Note messages -/

theorem modifyAt_length {α : Type} (f : α → α) : ∀ (n : Nat) (l : List α),
    (modifyAt f n l).length = l.length := by
  intro n l
  induction l generalizing n with
  | nil => cases n <;> rfl
  | cons x rest ih =>
    cases n with
    | zero => rfl
    | succ n => simp [modifyAt, ih]

theorem modifyAt_getElem?_self {α : Type} (f : α → α) : ∀ (n : Nat) (l : List α),
    (modifyAt f n l)[n]? = (l[n]?).map f := by
  intro n l
  induction l generalizing n with
  | nil => cases n <;> rfl
  | cons x rest ih =>
    cases n with
    | zero => simp [modifyAt]
    | succ n => simp [modifyAt, ih]

theorem modifyAt_getElem?_ne {α : Type} (f : α → α) : ∀ (n c : Nat) (l : List α), c ≠ n →
    (modifyAt f n l)[c]? = l[c]? := by
  intro n c l
  induction l generalizing n c with
  | nil => intro _; cases n <;> rfl
  | cons x rest ih =>
    intro hne
    cases n with
    | zero =>
      cases c with
      | zero => exact absurd rfl hne
      | succ c => simp [modifyAt]
    | succ n =>
      cases c with
      | zero => simp [modifyAt]
      | succ c => simp [modifyAt, ih n c (by omega)]

/-- C25: with the note-on, note-off, program-change and control-change constants at their
MIDI values `0x90`, `0x80`, `0xC0`, `0xB0`: for a status byte with the high nibble `0x90` or
`0x80` and two more bytes in the buffer, the decoder reads these as pitch and velocity (the
cursor moves by 2, the flag is untouched) and appends one event to the end of the first
event list of channel `event & 0x0f`: it is on for a note-on, whatever the velocity, and not
on for a note-off, carries the two bytes as pitch and velocity, the running time as start
time, and length 0.  The number of channels and the entries of all other channels are
unchanged.  A program change or control change leaves the event lists as they are.  The
running time with which the track loop decodes a channel message is the time after the
delta time of the message was added (the sum of two `int` values). -/
theorem decodeChannelEvent_note (env : DecoderEnv) (peek : List Nat) (event : Nat)
    (time : Int) (s : CAMidiImport) (events : List CAMidiImportEvent)
    (others : List (List CAMidiImportEvent))
    (hon : env.dev.Midi_Note_On = 0x90) (hoff : env.dev.Midi_Note_Off = 0x80)
    (hprog : env.dev.Midi_Prog_Change = 0xC0) (hctl : env.dev.Midi_Control_Chg = 0xB0)
    (hidx : s._dataIndex + 2 ≤ size peek)
    (hch : s._allChannelsEvents[event &&& 0x0f]? = some (events :: others)) :
    (event &&& 0xf0 = 0x90 ∨ event &&& 0xf0 = 0x80 →
      (decodeChannelEvent env peek event time s)._dataIndex = s._dataIndex + 2 ∧
      (decodeChannelEvent env peek event time s)._parseError = s._parseError ∧
      (decodeChannelEvent env peek event time s)._allChannelsEvents[event &&& 0x0f]?
        = some ((events ++
            [{ _on := decide (event &&& 0xf0 = 0x90), _channel := ((event &&& 0x0f : Nat) : Int),
               _pitch := (byteAt peek s._dataIndex : Int),
               _velocity := (byteAt peek (s._dataIndex + 1) : Int),
               _time := time, _length := 0, _timeCorrection := 0,
               _lengthCorrection := 0 }]) :: others) ∧
      (decodeChannelEvent env peek event time s)._allChannelsEvents.length
        = s._allChannelsEvents.length ∧
      ∀ c, c ≠ event &&& 0x0f →
        (decodeChannelEvent env peek event time s)._allChannelsEvents[c]?
          = s._allChannelsEvents[c]?) ∧
    (event &&& 0xf0 = 0xC0 ∨ event &&& 0xf0 = 0xB0 →
      (decodeChannelEvent env peek event time s)._allChannelsEvents
        = s._allChannelsEvents) ∧
    (∀ (time0 : Int) (s0 : CAMidiImport),
      (getByte peek (getVariableLength peek s0).2).1 ≠ env.dev.Midi_Ctl_Event →
      decodeEvent env peek time0 s0
        = (wrapInt32 (time0 + (getVariableLength peek s0).1),
            EventFlow.goOn (decodeChannelEvent env peek
              (getByte peek (getVariableLength peek s0).2).1
              (wrapInt32 (time0 + (getVariableLength peek s0).1))
              (getByte peek (getVariableLength peek s0).2).2))) := by
  have h1 : s._dataIndex < size peek := by omega
  have e1 := getByte_ok peek s h1
  have e2 := getByte_ok peek { s with _dataIndex := s._dataIndex + 1 }
    (show s._dataIndex + 1 < size peek by omega)
  have hnote : ∀ (isOn : Bool),
      (noteOn isOn (event &&& 0x0f) (byteAt peek s._dataIndex : Int)
          (byteAt peek (s._dataIndex + 1) : Int) time
          { s with _dataIndex := s._dataIndex + 1 + 1 })._dataIndex = s._dataIndex + 2 ∧
      (noteOn isOn (event &&& 0x0f) (byteAt peek s._dataIndex : Int)
          (byteAt peek (s._dataIndex + 1) : Int) time
          { s with _dataIndex := s._dataIndex + 1 + 1 })._parseError = s._parseError ∧
      (noteOn isOn (event &&& 0x0f) (byteAt peek s._dataIndex : Int)
          (byteAt peek (s._dataIndex + 1) : Int) time
          { s with _dataIndex := s._dataIndex + 1 + 1 })._allChannelsEvents[event &&& 0x0f]?
        = some ((events ++
            [{ _on := isOn, _channel := ((event &&& 0x0f : Nat) : Int),
               _pitch := (byteAt peek s._dataIndex : Int),
               _velocity := (byteAt peek (s._dataIndex + 1) : Int),
               _time := time, _length := 0, _timeCorrection := 0,
               _lengthCorrection := 0 }]) :: others) ∧
      (noteOn isOn (event &&& 0x0f) (byteAt peek s._dataIndex : Int)
          (byteAt peek (s._dataIndex + 1) : Int) time
          { s with _dataIndex := s._dataIndex + 1 + 1 })._allChannelsEvents.length
        = s._allChannelsEvents.length ∧
      ∀ c, c ≠ event &&& 0x0f →
        (noteOn isOn (event &&& 0x0f) (byteAt peek s._dataIndex : Int)
          (byteAt peek (s._dataIndex + 1) : Int) time
          { s with _dataIndex := s._dataIndex + 1 + 1 })._allChannelsEvents[c]?
          = s._allChannelsEvents[c]? := by
    intro isOn
    refine ⟨?_, rfl, ?_, ?_, ?_⟩
    · simp only [noteOn]; ring
    · simp only [noteOn]
      rw [modifyAt_getElem?_self, hch]
      rfl
    · simp only [noteOn]
      rw [modifyAt_length]
    · intro c hc
      simp only [noteOn]
      rw [modifyAt_getElem?_ne _ _ _ _ hc]
  refine ⟨?_, ?_, ?_⟩
  · intro h
    rcases h with h | h
    · have hd : decodeChannelEvent env peek event time s
          = noteOn true (event &&& 0x0f) (byteAt peek s._dataIndex : Int)
              (byteAt peek (s._dataIndex + 1) : Int) time
              { s with _dataIndex := s._dataIndex + 1 + 1 } := by
        simp only [decodeChannelEvent, hon, h, if_true, e1, e2]
      rw [hd]
      simpa [h] using hnote true
    · have hd : decodeChannelEvent env peek event time s
          = noteOn false (event &&& 0x0f) (byteAt peek s._dataIndex : Int)
              (byteAt peek (s._dataIndex + 1) : Int) time
              { s with _dataIndex := s._dataIndex + 1 + 1 } := by
        simp only [decodeChannelEvent, hon, hoff, h, if_true, e1, e2]
        simp
      rw [hd]
      simpa [h] using hnote false
  · intro h
    rcases h with h | h
    · simp only [decodeChannelEvent, hon, hoff, hprog, h]
      simp [getByte_events]
    · simp only [decodeChannelEvent, hon, hoff, hprog, hctl, h]
      simp [getByte_events]
  · intro time0 s0 hne
    simp only [decodeEvent]
    rw [if_neg hne]

/-- Witness for `decodeChannelEvent_note`: the note-on `91 3C 00` (channel 1, pitch 60,
velocity 0) at running time 480, on a fresh importer. -/
theorem decodeChannelEvent_note_witness :
    (decodeChannelEvent ⟨standardMidi, 0⟩ [0x00, 0x91, 0x3C, 0x00] 0x91 480
        ⟨2, 4, false, 0, List.replicate 16 [[]]⟩)._allChannelsEvents[0x91 &&& 0x0f]?
      = some (([] ++
          [{ _on := decide (0x91 &&& 0xf0 = 0x90), _channel := ((0x91 &&& 0x0f : Nat) : Int),
             _pitch := (byteAt [0x00, 0x91, 0x3C, 0x00] 2 : Int),
             _velocity := (byteAt [0x00, 0x91, 0x3C, 0x00] (2 + 1) : Int),
             _time := 480, _length := 0, _timeCorrection := 0,
             _lengthCorrection := 0 }]) :: []) :=
  ((decodeChannelEvent_note ⟨standardMidi, 0⟩ [0x00, 0x91, 0x3C, 0x00] 0x91 480
    ⟨2, 4, false, 0, List.replicate 16 [[]]⟩ [] [] rfl rfl rfl rfl (by decide)
    (by decide)).1 (Or.inl (by decide))).2.2.1

/-! ## Ties -/

theorem onFirstVoice_append_nil (voices : List (List CAMidiImportEvent)) :
    onFirstVoice (fun events => events ++ []) voices = voices := by
  cases voices <;> simp [onFirstVoice]

theorem onFirstVoice_append_append (voices : List (List CAMidiImportEvent))
    (n1 n2 : List CAMidiImportEvent) :
    onFirstVoice (fun events => events ++ n2) (onFirstVoice (fun events => events ++ n1) voices)
      = onFirstVoice (fun events => events ++ (n1 ++ n2)) voices := by
  cases voices <;> simp [onFirstVoice]

theorem extendsLists_refl (l : List (List (List CAMidiImportEvent))) : extendsLists l l :=
  ⟨rfl, fun c voices h => ⟨[], by rw [h, onFirstVoice_append_nil]⟩⟩

theorem extendsLists_of_eq (l l2 : List (List (List CAMidiImportEvent))) (h : l2 = l) :
    extendsLists l l2 := by
  rw [h]; exact extendsLists_refl l

theorem extendsLists_trans (l1 l2 l3 : List (List (List CAMidiImportEvent)))
    (h12 : extendsLists l1 l2) (h23 : extendsLists l2 l3) : extendsLists l1 l3 := by
  refine ⟨h23.1.trans h12.1, fun c voices h => ?_⟩
  obtain ⟨n1, h1⟩ := h12.2 c voices h
  obtain ⟨n2, h2⟩ := h23.2 c _ h1
  exact ⟨n1 ++ n2, by rw [h2, onFirstVoice_append_append]⟩

theorem extendsLists_modifyAt (l : List (List (List CAMidiImportEvent))) (ch : Nat)
    (new : List CAMidiImportEvent) :
    extendsLists l (modifyAt (onFirstVoice (fun events => events ++ new)) ch l) := by
  refine ⟨modifyAt_length _ _ _, fun c voices h => ?_⟩
  by_cases hc : c = ch
  · subst hc
    exact ⟨new, by rw [modifyAt_getElem?_self, h]; rfl⟩
  · exact ⟨[], by rw [modifyAt_getElem?_ne _ _ _ _ hc, h, onFirstVoice_append_nil]⟩

theorem decodeEvent_extends (env : DecoderEnv) (peek : List Nat) (time : Int)
    (s : CAMidiImport) :
    extendsLists s._allChannelsEvents
      (decodeEvent env peek time s).2.state._allChannelsEvents := by
  rcases decodeEvent_events env peek time s with h | ⟨isOn, ch, pitch, vel, h⟩
  · exact extendsLists_of_eq _ _ h
  · rw [h]
    exact extendsLists_modifyAt _ _ _

/-- The track loop appends: when it returns, the event lists hold what they held at the
start, and possibly more events behind that. -/
theorem trackLoop_extends (env : DecoderEnv) (peek : List Nat) :
    ∀ (fuel : Nat) (time : Int) (s s2 : CAMidiImport),
      (trackLoop env peek fuel time s = LoopFlow.return0 s2 ∨
        trackLoop env peek fuel time s = LoopFlow.endOfLoop s2) →
      extendsLists s._allChannelsEvents s2._allChannelsEvents := by
  intro fuel
  induction fuel with
  | zero =>
    intro time s s2 h
    rw [trackLoop] at h
    split at h
    · simp at h
    · simp only [false_or, LoopFlow.endOfLoop.injEq, reduceCtorEq] at h
      rw [← h]
      exact extendsLists_refl _
  | succ fuel ih =>
    intro time s s2 h
    rw [trackLoop] at h
    split at h
    · have hev := decodeEvent_extends env peek time s
      split at h
      · next s1 heq =>
        rw [heq] at hev
        simp only [LoopFlow.return0.injEq, reduceCtorEq, or_false] at h
        rw [← h]
        exact hev
      · next time1 s1 heq =>
        rw [heq] at hev
        exact extendsLists_trans _ _ _ hev (ih time1 s1 s2 h)
    · simp only [false_or, LoopFlow.endOfLoop.injEq, reduceCtorEq] at h
      rw [← h]
      exact extendsLists_refl _

/-- The chunk loop appends: when it returns, the event lists hold what they held at the
start, and possibly more events behind that. -/
theorem chunkLoop_extends (env : DecoderEnv) (peek : List Nat) :
    ∀ (fuel : Nat) (s s2 : CAMidiImport),
      (chunkLoop env peek fuel s = LoopFlow.return0 s2 ∨
        chunkLoop env peek fuel s = LoopFlow.endOfLoop s2) →
      extendsLists s._allChannelsEvents s2._allChannelsEvents := by
  intro fuel
  induction fuel with
  | zero =>
    intro s s2 h
    rw [chunkLoop] at h
    split at h
    · simp at h
    · simp only [false_or, LoopFlow.endOfLoop.injEq, reduceCtorEq] at h
      rw [← h]
      exact extendsLists_refl _
  | succ fuel ih =>
    intro s s2 h
    rw [chunkLoop] at h
    split at h
    · simp only [] at h
      split at h
      · have := ih _ s2 h
        rw [getWord16_events, getWord16_events, getWord16_events, getWord32_events,
          getHead_events] at this
        exact this
      · split at h
        · split at h
          · simp only [LoopFlow.return0.injEq, reduceCtorEq, or_false] at h
            rw [← h, getWord32_events, getHead_events]
            exact extendsLists_refl _
          · split at h
            · simp at h
            · next s1 heq =>
              simp only [LoopFlow.return0.injEq, reduceCtorEq, or_false] at h
              have := trackLoop_extends env peek fuel 0 _ s1 (Or.inl heq)
              simp only [getWord32_events, getHead_events] at this
              rw [← h]
              exact this
            · next s1 heq =>
              have h1 := trackLoop_extends env peek fuel 0 _ s1 (Or.inr heq)
              simp only [getWord32_events, getHead_events] at h1
              exact extendsLists_trans _ _ _ h1 (ih s1 s2 h)
        · simp only [LoopFlow.return0.injEq, reduceCtorEq, or_false] at h
          rw [← h, getHead_events]
          exact extendsLists_refl _
    · simp only [false_or, LoopFlow.endOfLoop.injEq, reduceCtorEq] at h
      rw [← h]
      exact extendsLists_refl _
/-- C27 (as stated): `minimalFile` imported twice in a row with the same importer.  After
the first call the event list of channel 0 holds the two events of the file; after the
second call it holds four: the two left by the first call and, behind them, the two that
the second call decoded (the note-on among them invalidated as unpaired, since its note-off
was paired with the note of the first call). -/
theorem importSheetImpl_twice_accumulates :
    (importSheetImpl ⟨standardMidi, 0⟩ ⟨fun _ => [], fun p => ⟨p, 0⟩, fun _ => 0⟩ 10
        minimalFile ⟨[]⟩ CAMidiImport.new).map (fun r => r.importer._allChannelsEvents)
      = some ([minimalFileEvents] :: List.replicate 15 [[]]) ∧
    ((importSheetImpl ⟨standardMidi, 0⟩ ⟨fun _ => [], fun p => ⟨p, 0⟩, fun _ => 0⟩ 10
        minimalFile ⟨[]⟩ CAMidiImport.new).bind
      (fun r => importSheetImpl ⟨standardMidi, 0⟩ ⟨fun _ => [], fun p => ⟨p, 0⟩, fun _ => 0⟩ 10
        minimalFile ⟨[]⟩ r.importer)).map (fun r => r.importer._allChannelsEvents)
      = some ([minimalFileEvents ++
          [⟨false, 0, -1, 100, 0, 0, 0, 0⟩, ⟨false, 0, -1, 0, 480, 0, 0, 0⟩]]
          :: List.replicate 15 [[]]) := by
  decide

/-- C27 (amended): `importSheetImpl` resets the cursor, the end of the track and the error
flag, so its result does not depend on what these members held; it does not clear the event
lists.  The decoder appends: when the chunk loop has returned, the event lists hold,
channel by channel, what the importer held at the call, with the events decoded from the
buffer behind that; the import returns the null pointer with these lists, or runs the later
stages over them.  So the result of an import depends on the buffer and on the events that
earlier imports left in the importer. -/
theorem importSheetImpl_keeps_events (env : DecoderEnv) (m : ScoreModel) (fuel : Nat)
    (peek : List Nat) (sheet : CASheet) (s s2 : CAMidiImport)
    (hdec : chunkLoop env peek fuel
        { s with _dataIndex := 0, _nextTrackIndex := 0, _parseError := false }
          = LoopFlow.return0 s2 ∨
      chunkLoop env peek fuel
        { s with _dataIndex := 0, _nextTrackIndex := 0, _parseError := false }
          = LoopFlow.endOfLoop s2) :
    extendsLists s._allChannelsEvents s2._allChannelsEvents ∧
    (importSheetImpl env m fuel peek sheet s = some ⟨none, s2⟩ ∨
      importSheetImpl env m fuel peek sheet s = some (finishImport m s2 sheet)) ∧
    (∀ (a b : Int) (c : Bool),
      importSheetImpl env m fuel peek sheet
          { s with _dataIndex := a, _nextTrackIndex := b, _parseError := c }
        = importSheetImpl env m fuel peek sheet s) := by
  refine ⟨chunkLoop_extends env peek fuel
    { s with _dataIndex := 0, _nextTrackIndex := 0, _parseError := false } s2 hdec, ?_,
    fun a b c => rfl⟩
  rcases hdec with h | h
  · left; rw [importSheetImpl, h]
  · right; rw [importSheetImpl, h]

/-- Witness for `importSheetImpl_keeps_events`: the decoding of `minimalFile` by an importer
that holds the events of an earlier import of the same file. -/
theorem importSheetImpl_keeps_events_witness :
    extendsLists
      (⟨35, 35, false, 0, [minimalFileEvents] :: List.replicate 15 [[]]⟩ :
        CAMidiImport)._allChannelsEvents
      (⟨35, 35, false, 0,
        [minimalFileEvents ++
          [CAMidiImportEvent.new true 0 60 100 0, CAMidiImportEvent.new false 0 60 0 480]]
          :: List.replicate 15 [[]]⟩ : CAMidiImport)._allChannelsEvents :=
  (importSheetImpl_keeps_events ⟨standardMidi, 0⟩
    ⟨fun _ => [], fun p => ⟨p, 0⟩, fun _ => 0⟩ 10 minimalFile ⟨[]⟩
    ⟨35, 35, false, 0, [minimalFileEvents] :: List.replicate 15 [[]]⟩
    ⟨35, 35, false, 0,
      [minimalFileEvents ++
        [CAMidiImportEvent.new true 0 60 100 0, CAMidiImportEvent.new false 0 60 0 480]]
        :: List.replicate 15 [[]]⟩
    (Or.inr (by decide))).1

/-! ## The overlap pass on lists sorted by start time -/

theorem eraseOverlapping_sorted (timeEnd : Int) : ∀ (l : List CAMidiImportEvent),
    onTimesSorted l → onTimesSorted (eraseOverlapping timeEnd l) := by
  intro l
  induction l with
  | nil => intro h; exact h
  | cons ej rest ih =>
    intro hp
    unfold onTimesSorted at hp
    rw [List.pairwise_cons] at hp
    have hhead : ∀ b ∈ eraseOverlapping timeEnd rest,
        ej._on = true → b._on = true → ej._time ≤ b._time := by
      intro b hb hon hbon
      rcases eraseOverlapping_mem _ _ b hb with h | h
      · exact hp.1 b h hon hbon
      · rw [hbon] at h; cases h
    unfold eraseOverlapping
    split
    · exact List.pairwise_cons.2 ⟨hhead, ih hp.2⟩
    · split
      · exact List.pairwise_cons.2 hp
      · refine List.pairwise_cons.2 ⟨?_, ih hp.2⟩
        intro b _ hon
        simp [invalidate] at hon

theorem exportNonChordsUpTo_sorted : ∀ (n : Nat) (l : List CAMidiImportEvent),
    onTimesSorted l → onTimesSorted (exportNonChordsUpTo n l) := by
  intro n
  induction n with
  | zero => intro l h; exact h
  | succ n ih =>
    intro l hp
    cases l with
    | nil => exact hp
    | cons e rest =>
      have hp' := hp
      unfold onTimesSorted at hp'
      rw [List.pairwise_cons] at hp'
      unfold exportNonChordsUpTo
      split
      · refine List.pairwise_cons.2 ⟨?_, ih _ (eraseOverlapping_sorted _ rest hp'.2)⟩
        intro b hb hon hbon
        rcases exportNonChordsUpTo_mem _ _ b hb with h | h
        · rcases eraseOverlapping_mem _ _ b h with h' | h'
          · exact hp'.1 b h' hon hbon
          · rw [hbon] at h'; cases h'
        · rw [hbon] at h; cases h
      · refine List.pairwise_cons.2 ⟨?_, ih _ hp'.2⟩
        intro b hb hon hbon
        rcases exportNonChordsUpTo_mem _ _ b hb with h | h
        · exact hp'.1 b h hon hbon
        · rw [hbon] at h; cases h

/-- In a list sorted by start time no on-event starts before the first one. -/
theorem firstOn_le_of_sorted : ∀ (l : List CAMidiImportEvent) (f : CAMidiImportEvent),
    onTimesSorted l → firstOn l = some f → ∀ b ∈ l, b._on = true → f._time ≤ b._time := by
  intro l
  induction l with
  | nil => intro f _ _ b hb; simp at hb
  | cons x rest ih =>
    intro f hp hf b hb hbon
    unfold onTimesSorted at hp
    rw [List.pairwise_cons] at hp
    by_cases hx : x._on = true
    · simp only [firstOn, hx, if_true, Option.some.injEq] at hf
      subst hf
      rcases List.mem_cons.1 hb with h | h
      · subst h; exact le_refl _
      · exact hp.1 b h hx hbon
    · have hx' : x._on = false := by simpa using hx
      simp only [firstOn, hx'] at hf
      rcases List.mem_cons.1 hb with h | h
      · rw [h] at hbon; rw [hbon] at hx'; cases hx'
      · exact ih f hp.2 (by simpa using hf) b h hbon

/-- After the pass over a list sorted by start time in which no end `start + length` of an
on-event is above the range of `int`, every on-event starts at or after the end of every
on-event before it. -/
theorem exportNonChordsUpTo_pairwise_sorted : ∀ (n : Nat) (l : List CAMidiImportEvent),
    l.length ≤ n + 1 → onTimesSorted l →
    (∀ e ∈ l, e._on = true → e._time + e._length ≤ 2147483647) →
    (exportNonChordsUpTo n l).Pairwise startsAfter := by
  intro n
  induction n with
  | zero =>
    intro l hl _ _
    match l, hl with
    | [], _ => exact List.Pairwise.nil
    | [x], _ => exact List.pairwise_singleton _ _
    | _ :: _ :: _, h => simp at h
  | succ n ih =>
    intro l hl hp hend
    cases l with
    | nil => exact List.Pairwise.nil
    | cons e rest =>
      have hrest : rest.length ≤ n + 1 := by simpa using hl
      have hendRest : ∀ x ∈ rest, x._on = true → x._time + x._length ≤ 2147483647 :=
        fun x hx => hend x (List.mem_cons_of_mem _ hx)
      have hp' := hp
      unfold onTimesSorted at hp'
      rw [List.pairwise_cons] at hp'
      unfold exportNonChordsUpTo
      split
      · next hon =>
        have hs1 := eraseOverlapping_sorted (wrapInt32 (e._time + e._length)) rest hp'.2
        have hs2 := exportNonChordsUpTo_sorted n _ hs1
        have hendErased : ∀ x ∈ eraseOverlapping (wrapInt32 (e._time + e._length)) rest,
            x._on = true → x._time + x._length ≤ 2147483647 := by
          intro x hx hxon
          rcases eraseOverlapping_mem _ _ x hx with h | h
          · exact hendRest x h hxon
          · rw [hxon] at h; cases h
        have hpw := ih (eraseOverlapping (wrapInt32 (e._time + e._length)) rest)
          (by rw [eraseOverlapping_length]; exact hrest) hs1 hendErased
        rw [List.pairwise_cons]
        refine ⟨?_, hpw⟩
        intro b hb _ hbon
        obtain ⟨f, hf⟩ := firstOn_isSome _ b hb hbon
        have hf' := hf
        rw [exportNonChordsUpTo_firstOn] at hf'
        have h1 := eraseOverlapping_firstOn _ _ f hf'
        have h2 := firstOn_le_of_sorted _ f hs2 hf b hb hbon
        have h3 := le_wrapInt32 _ (hend e (List.mem_cons_self _ _) hon)
        omega
      · next hoff =>
        rw [List.pairwise_cons]
        refine ⟨?_, ih rest hrest hp'.2 hendRest⟩
        intro b _ hon
        exact absurd hon hoff

/-- The scan behind a note keeps an event as it is, or invalidates it; the latter only when
the event is on and starts before `timeEnd`. -/
theorem eraseOverlapping_getElem? (timeEnd : Int) : ∀ (l : List CAMidiImportEvent) (p : Nat)
    (x : CAMidiImportEvent), l[p]? = some x →
    (eraseOverlapping timeEnd l)[p]? = some x ∨
      (x._on = true ∧ x._time < timeEnd ∧
        (eraseOverlapping timeEnd l)[p]? = some (invalidate x)) := by
  intro l
  induction l with
  | nil => intro p x h; simp at h
  | cons ej rest ih =>
    intro p x h
    unfold eraseOverlapping
    split
    · cases p with
      | zero => exact Or.inl (by simpa using h)
      | succ p =>
        rw [List.getElem?_cons_succ] at h ⊢
        exact ih p x h
    · next hon =>
      split
      · exact Or.inl h
      · next hlt =>
        cases p with
        | zero =>
          simp only [List.getElem?_cons_zero, Option.some.injEq] at h
          subst h
          exact Or.inr ⟨by simpa using hon, by omega, by simp⟩
        | succ p =>
          rw [List.getElem?_cons_succ] at h ⊢
          exact ih p x h

/-- The pass keeps an event as it is, or invalidates it; the latter only when the event is
on and starts before the end, as the `int` sum of line 505 gives it, of an on-event that
the pass leaves before it. -/
theorem exportNonChordsUpTo_getElem? : ∀ (n : Nat) (l : List CAMidiImportEvent) (p : Nat)
    (x : CAMidiImportEvent), l[p]? = some x →
    (exportNonChordsUpTo n l)[p]? = some x ∨
      (x._on = true ∧ (exportNonChordsUpTo n l)[p]? = some (invalidate x) ∧
        ∃ (q : Nat) (y : CAMidiImportEvent), q < p ∧
          (exportNonChordsUpTo n l)[q]? = some y ∧ y._on = true ∧
          x._time < wrapInt32 (y._time + y._length)) := by
  intro n
  induction n with
  | zero => intro l p x h; exact Or.inl h
  | succ n ih =>
    intro l p x h
    cases l with
    | nil => simp at h
    | cons e rest =>
      unfold exportNonChordsUpTo
      split
      · next hon =>
        cases p with
        | zero => exact Or.inl (by simpa using h)
        | succ p =>
          rw [List.getElem?_cons_succ] at h
          rcases eraseOverlapping_getElem? (wrapInt32 (e._time + e._length)) rest p x h
            with h1 | h1
          · rcases ih _ p x h1 with h2 | ⟨hx, h2, q, y, hq, hy, hyon, hlt⟩
            · exact Or.inl (by rw [List.getElem?_cons_succ]; exact h2)
            · exact Or.inr ⟨hx, by rw [List.getElem?_cons_succ]; exact h2, q + 1, y,
                by omega, by rw [List.getElem?_cons_succ]; exact hy, hyon, hlt⟩
          · obtain ⟨hx, hlt, h1'⟩ := h1
            rcases ih _ p (invalidate x) h1' with h2 | ⟨hx2, _⟩
            · exact Or.inr ⟨hx, by rw [List.getElem?_cons_succ]; exact h2, 0, e,
                by omega, by simp, hon, hlt⟩
            · simp [invalidate] at hx2
      · cases p with
        | zero => exact Or.inl (by simpa using h)
        | succ p =>
          rw [List.getElem?_cons_succ] at h
          rcases ih _ p x h with h2 | ⟨hx, h2, q, y, hq, hy, hyon, hlt⟩
          · exact Or.inl (by rw [List.getElem?_cons_succ]; exact h2)
          · exact Or.inr ⟨hx, by rw [List.getElem?_cons_succ]; exact h2, q + 1, y,
              by omega, by rw [List.getElem?_cons_succ]; exact hy, hyon, hlt⟩

/-- An event that is on after the pass is the event that the input holds at its position. -/
theorem exportNonChordsUpTo_survivor (n : Nat) (l : List CAMidiImportEvent) (q : Nat)
    (y : CAMidiImportEvent) (hq : q < l.length)
    (hy : (exportNonChordsUpTo n l)[q]? = some y) (hyon : y._on = true) :
    l[q]? = some y := by
  rcases exportNonChordsUpTo_getElem? n l q l[q] (List.getElem?_eq_getElem hq)
    with h | ⟨_, h, _⟩
  · rw [hy] at h
    rw [List.getElem?_eq_getElem hq, ← Option.some.inj h]
  · rw [hy] at h
    rw [Option.some.inj h] at hyon
    simp [invalidate] at hyon

/-- C30 (as stated): the channel list of two valid notes that both start at `2147483616`
and have the length 32; the start times do not decrease.  The end `start + length` is not
an `int`: the sum of line 505 is negative, the scan behind the first note stops at once,
and both notes survive the pass, although the second starts before the end of the
first. -/
theorem exportNonChords_sorted_overlap_survives :
    exportNonChordsChannelEvents
        [⟨true, 0, 60, 100, 2147483616, 32, 0, 0⟩, ⟨true, 0, 62, 100, 2147483616, 32, 0, 0⟩]
      = [⟨true, 0, 60, 100, 2147483616, 32, 0, 0⟩,
         ⟨true, 0, 62, 100, 2147483616, 32, 0, 0⟩] ∧
    ¬ ((2147483616 : Int) ≥ 2147483616 + 32) := by
  decide

/-- C30 (amended): for every channel event list in which the start times of the on-events
do not decrease in list order and the end `start + length` of every on-event is in the
range of `int`, after the overlap pass every surviving event `j` behind a surviving event
`i` starts at or after `start_i + length_i`; and an on-event of the list that starts
exactly at the end of the surviving event before it (no other event survives between the
two) is kept as it is. -/
theorem exportNonChords_sorted (events : List CAMidiImportEvent)
    (hsorted : onTimesSorted events)
    (hend : ∀ e ∈ events, e._on = true → inInt32 (e._time + e._length)) :
    (∀ (i j : Nat) (ei ej : CAMidiImportEvent), i < j →
      (exportNonChordsChannelEvents events)[i]? = some ei →
      (exportNonChordsChannelEvents events)[j]? = some ej →
      ei._on = true → ej._on = true → ej._time ≥ ei._time + ei._length) ∧
    (∀ (p j : Nat) (ep ej : CAMidiImportEvent), p < j →
      (exportNonChordsChannelEvents events)[p]? = some ep → ep._on = true →
      events[j]? = some ej → ej._on = true →
      (∀ (k : Nat) (y : CAMidiImportEvent), p < k → k < j →
        (exportNonChordsChannelEvents events)[k]? = some y → y._on = false) →
      ej._time = ep._time + ep._length →
      (exportNonChordsChannelEvents events)[j]? = some ej) := by
  have hno : ∀ (i j : Nat) (ei ej : CAMidiImportEvent), i < j →
      (exportNonChordsChannelEvents events)[i]? = some ei →
      (exportNonChordsChannelEvents events)[j]? = some ej →
      ei._on = true → ej._on = true → ej._time ≥ ei._time + ei._length := by
    intro i j ei ej hij hi hj hion hjon
    have hpw := exportNonChordsUpTo_pairwise_sorted (events.length - 1) events (by omega)
      hsorted (fun e he hon => (hend e he hon).2)
    rw [List.pairwise_iff_getElem] at hpw
    have hjlt : j < (exportNonChordsChannelEvents events).length := by
      by_contra hc
      rw [List.getElem?_eq_none (not_lt.1 hc)] at hj
      cases hj
    have hilt : i < (exportNonChordsChannelEvents events).length := by omega
    rw [List.getElem?_eq_getElem hilt] at hi
    rw [List.getElem?_eq_getElem hjlt] at hj
    have h := hpw i j hilt hjlt hij
    have hi' : (exportNonChordsUpTo (events.length - 1) events)[i] = ei := Option.some.inj hi
    have hj' : (exportNonChordsUpTo (events.length - 1) events)[j] = ej := Option.some.inj hj
    rw [hi', hj'] at h
    exact h hion hjon
  refine ⟨hno, ?_⟩
  intro p j ep ej hpj hp hpon hj hjon hbetween heq
  rcases exportNonChordsUpTo_getElem? (events.length - 1) events j ej hj
    with h | ⟨_, _, q, y, hq, hy, hyon, hlt⟩
  · exact h
  · exfalso
    have hjlt : j < events.length := by
      by_contra hc
      rw [List.getElem?_eq_none (not_lt.1 hc)] at hj
      cases hj
    have hplt : p < events.length := by omega
    have hp0 : events[p]? = some ep := by
      rcases exportNonChordsUpTo_getElem? (events.length - 1) events p events[p]
        (List.getElem?_eq_getElem hplt) with h | ⟨_, h, _⟩
      · have h' : (exportNonChordsChannelEvents events)[p]? = some events[p] := h
        rw [hp] at h'
        rw [List.getElem?_eq_getElem hplt, ← Option.some.inj h']
      · have h' : (exportNonChordsChannelEvents events)[p]? = some (invalidate events[p]) := h
        rw [hp] at h'
        rw [Option.some.inj h'] at hpon
        simp [invalidate] at hpon
    have hle : ep._time ≤ ej._time := by
      have hs := hsorted
      unfold onTimesSorted at hs
      rw [List.pairwise_iff_getElem] at hs
      have := hs p j hplt hjlt hpj
      rw [List.getElem?_eq_getElem hplt] at hp0
      rw [List.getElem?_eq_getElem hjlt] at hj
      rw [Option.some.inj hp0, Option.some.inj hj] at this
      exact this hpon hjon
    have hy' : (exportNonChordsChannelEvents events)[q]? = some y := hy
    have hy0 : events[q]? = some y :=
      exportNonChordsUpTo_survivor _ events q y (by omega) hy hyon
    have hle2 := wrapInt32_le _ (hend y (List.getElem?_mem hy0) hyon).1
    rcases Nat.lt_trichotomy q p with hqp | hqp | hqp
    · have := hno q p y ep hqp hy' hp hyon hpon
      omega
    · subst hqp
      rw [hp] at hy'
      rw [← Option.some.inj hy'] at hlt hle2
      omega
    · have := hbetween q y hqp hq hy'
      rw [hyon] at this
      cases this

/-- Witness for `exportNonChords_sorted`: in the list (start 0, length 64),
(start 32, length 32), (start 64, length 32), which is sorted by start time, the third
note starts at the end of the first, the second does not survive, and the third is kept. -/
theorem exportNonChords_sorted_witness :
    (exportNonChordsChannelEvents
        [⟨true, 0, 60, 100, 0, 64, 0, 0⟩, ⟨true, 0, 62, 100, 32, 32, 0, 0⟩,
         ⟨true, 0, 64, 100, 64, 32, 0, 0⟩])[2]?
      = some ⟨true, 0, 64, 100, 64, 32, 0, 0⟩ :=
  (exportNonChords_sorted
    [⟨true, 0, 60, 100, 0, 64, 0, 0⟩, ⟨true, 0, 62, 100, 32, 32, 0, 0⟩,
     ⟨true, 0, 64, 100, 64, 32, 0, 0⟩]
    (by unfold onTimesSorted; decide) (by unfold inInt32; decide)).2 0 2
    ⟨true, 0, 60, 100, 0, 64, 0, 0⟩ ⟨true, 0, 64, 100, 64, 32, 0, 0⟩
    (by decide) (by decide) rfl (by decide) rfl
    (fun k y h1 h2 hy => by
      obtain rfl : k = 1 := by omega
      have h : (exportNonChordsChannelEvents
          [⟨true, 0, 60, 100, 0, 64, 0, 0⟩, ⟨true, 0, 62, 100, 32, 32, 0, 0⟩,
           ⟨true, 0, 64, 100, 64, 32, 0, 0⟩])[1]?
          = some ⟨false, 0, -1, 100, 32, 32, 0, 0⟩ := by decide
      rw [h] at hy
      rw [← Option.some.inj hy])
    (by decide)

/-! ## What the overlap pass drops -/

/-- C33 (as stated): `negativeEndFile` is decoded without an error, and combining and
quantizing deliver for channel 0 the note of pitch 60 with start `-2147483616` and length
`-64` before the note of pitch 62 with start `2147483552` and length 32.  The end of the
first, `-2147483680`, is below the range of `int` and the sum of line 505 is `2147483616`:
the pass invalidates the second note, although it does not start before
`start_i + length_i` for the only surviving event `i` before it. -/
theorem exportNonChords_dropped_without_overlap :
    chunkLoop ⟨standardMidi, 0⟩ negativeEndFile 6
        { CAMidiImport.new with _dataIndex := 0, _nextTrackIndex := 0, _parseError := false }
      = LoopFlow.endOfLoop ⟨32, 32, false, 0,
          [[CAMidiImportEvent.new true 0 60 100 (-2147483648),
            CAMidiImportEvent.new false 0 60 0 2147483552,
            CAMidiImportEvent.new true 0 62 100 2147483552,
            CAMidiImportEvent.new false 0 62 0 2147483584]] :: List.replicate 15 [[]]⟩ ∧
    (quantizeMidiFileEvents (combineMidiFileEvents ⟨32, 32, false, 0,
          [[CAMidiImportEvent.new true 0 60 100 (-2147483648),
            CAMidiImportEvent.new false 0 60 0 2147483552,
            CAMidiImportEvent.new true 0 62 100 2147483552,
            CAMidiImportEvent.new false 0 62 0 2147483584]]
              :: List.replicate 15 [[]]⟩))._allChannelsEvents.head?
      = some [[⟨true, 0, 60, 100, -2147483616, -64, 32, 32⟩,
               ⟨false, 0, -1, 0, 2147483552, 0, 0, 0⟩,
               ⟨true, 0, 62, 100, 2147483552, 32, 0, 0⟩,
               ⟨false, 0, -1, 0, 2147483584, 0, 0, 0⟩]] ∧
    exportNonChordsChannelEvents
        [⟨true, 0, 60, 100, -2147483616, -64, 32, 32⟩,
         ⟨false, 0, -1, 0, 2147483552, 0, 0, 0⟩,
         ⟨true, 0, 62, 100, 2147483552, 32, 0, 0⟩,
         ⟨false, 0, -1, 0, 2147483584, 0, 0, 0⟩]
      = [⟨true, 0, 60, 100, -2147483616, -64, 32, 32⟩,
         ⟨false, 0, -1, 0, 2147483552, 0, 0, 0⟩,
         ⟨false, 0, -1, 100, 2147483552, 32, 0, 0⟩,
         ⟨false, 0, -1, 0, 2147483584, 0, 0, 0⟩] ∧
    ¬ ((2147483552 : Int) < -2147483616 + -64) := by
  decide

/-- C33 (amended): the overlap pass leaves every event as it is or invalidates it, and it
invalidates an event `j` only when `j` is on and an event `i` before it in the list, which
is on and is left as it is by the pass, ends after the start of `j`, the end being the
`int` sum of line 505; whenever `start_i + length_i` is not below the range of `int`, this
is `start_j < start_i + length_i`.  In particular an on-event before which the list holds
no on-event is left as it is. -/
theorem exportNonChords_dropped_by_kept (events : List CAMidiImportEvent) :
    (∀ (j : Nat) (x : CAMidiImportEvent), events[j]? = some x →
      (exportNonChordsChannelEvents events)[j]? = some x ∨
      (x._on = true ∧ (exportNonChordsChannelEvents events)[j]? = some (invalidate x) ∧
        ∃ (i : Nat) (ei : CAMidiImportEvent), i < j ∧ events[i]? = some ei ∧
          (exportNonChordsChannelEvents events)[i]? = some ei ∧ ei._on = true ∧
          x._time < wrapInt32 (ei._time + ei._length) ∧
          (-2147483648 ≤ ei._time + ei._length → x._time < ei._time + ei._length))) ∧
    (∀ (p : Nat) (x : CAMidiImportEvent), events[p]? = some x → x._on = true →
      (∀ (k : Nat) (y : CAMidiImportEvent), k < p → events[k]? = some y → y._on = false) →
      (exportNonChordsChannelEvents events)[p]? = some x) := by
  have hmain : ∀ (j : Nat) (x : CAMidiImportEvent), events[j]? = some x →
      (exportNonChordsChannelEvents events)[j]? = some x ∨
      (x._on = true ∧ (exportNonChordsChannelEvents events)[j]? = some (invalidate x) ∧
        ∃ (i : Nat) (ei : CAMidiImportEvent), i < j ∧ events[i]? = some ei ∧
          (exportNonChordsChannelEvents events)[i]? = some ei ∧ ei._on = true ∧
          x._time < wrapInt32 (ei._time + ei._length) ∧
          (-2147483648 ≤ ei._time + ei._length → x._time < ei._time + ei._length)) := by
    intro j x hj
    have hjlt : j < events.length := by
      by_contra hc
      rw [List.getElem?_eq_none (not_lt.1 hc)] at hj
      cases hj
    rcases exportNonChordsUpTo_getElem? (events.length - 1) events j x hj
      with h | ⟨hx, h, q, y, hq, hy, hyon, hlt⟩
    · exact Or.inl h
    · exact Or.inr ⟨hx, h, q, y, hq,
        exportNonChordsUpTo_survivor _ events q y (by omega) hy hyon, hy, hyon, hlt,
        fun hlow => lt_of_lt_of_le hlt (wrapInt32_le _ hlow)⟩
  refine ⟨hmain, ?_⟩
  intro p x hp hx hbefore
  rcases hmain p x hp with h | ⟨_, _, i, ei, hi, hei, _, heion, _, _⟩
  · exact h
  · have := hbefore i ei hi hei
    rw [heion] at this
    cases this

/-- Witness for `exportNonChords_dropped_by_kept`: in the list (start 0, length 100),
(start 50, length 20) the first event is on and has nothing before it, and is kept. -/
theorem exportNonChords_dropped_by_kept_witness :
    (exportNonChordsChannelEvents
        [⟨true, 0, 60, 100, 0, 100, 0, 0⟩, ⟨true, 0, 62, 100, 50, 20, 0, 0⟩])[0]?
      = some ⟨true, 0, 60, 100, 0, 100, 0, 0⟩ :=
  (exportNonChords_dropped_by_kept
    [⟨true, 0, 60, 100, 0, 100, 0, 0⟩, ⟨true, 0, 62, 100, 50, 20, 0, 0⟩]).2 0
    ⟨true, 0, 60, 100, 0, 100, 0, 0⟩ rfl rfl (fun k _ hk _ => absurd hk (Nat.not_lt_zero k))

/-! ## The overlap pass run twice -/

/-- The scan changes nothing in a list whose first on-event, if there is one, starts at or
after `timeEnd`. -/
theorem eraseOverlapping_of_firstOn (timeEnd : Int) : ∀ (l : List CAMidiImportEvent),
    (∀ f, firstOn l = some f → f._time ≥ timeEnd) → eraseOverlapping timeEnd l = l := by
  intro l
  induction l with
  | nil => intro _; rfl
  | cons ej rest ih =>
    intro h
    unfold eraseOverlapping
    by_cases hon : ej._on = true
    · have hge : ej._time ≥ timeEnd := h ej (by simp [firstOn, hon])
      simp [hon, hge]
    · have hoff : ej._on = false := by simpa using hon
      have hrest : ∀ f, firstOn rest = some f → f._time ≥ timeEnd := by
        intro f hf
        exact h f (by simp [firstOn, hoff, hf])
      simp [hoff, ih hrest]

/-- Iterations of the pass over the result of a complete pass change nothing. -/
theorem exportNonChordsUpTo_idem : ∀ (n : Nat) (l : List CAMidiImportEvent),
    l.length ≤ n + 1 → ∀ (k : Nat),
      exportNonChordsUpTo k (exportNonChordsUpTo n l) = exportNonChordsUpTo n l := by
  intro n
  induction n with
  | zero =>
    intro l hl k
    match l, hl with
    | [], _ => cases k <;> rfl
    | [x], _ =>
      cases k with
      | zero => rfl
      | succ k =>
        simp only [exportNonChordsUpTo]
        split
        · cases k <;> simp [eraseOverlapping, exportNonChordsUpTo]
        · cases k <;> simp [exportNonChordsUpTo]
    | _ :: _ :: _, h => simp at h
  | succ n ih =>
    intro l hl k
    cases l with
    | nil => cases k <;> rfl
    | cons e rest =>
      have hrest : rest.length ≤ n + 1 := by simpa using hl
      cases k with
      | zero => rfl
      | succ k =>
        by_cases hon : e._on = true
        · have h1 : exportNonChordsUpTo (n + 1) (e :: rest)
              = e :: exportNonChordsUpTo n
                  (eraseOverlapping (wrapInt32 (e._time + e._length)) rest) := by
            simp [exportNonChordsUpTo, hon]
          have hfirst : ∀ f,
              firstOn (exportNonChordsUpTo n
                  (eraseOverlapping (wrapInt32 (e._time + e._length)) rest))
                = some f → f._time ≥ wrapInt32 (e._time + e._length) := by
            intro f hf
            rw [exportNonChordsUpTo_firstOn] at hf
            exact eraseOverlapping_firstOn _ _ f hf
          rw [h1]
          simp only [exportNonChordsUpTo, hon, if_true]
          rw [eraseOverlapping_of_firstOn _ _ hfirst,
            ih _ (by rw [eraseOverlapping_length]; exact hrest) k]
        · have hoff : e._on = false := by simpa using hon
          have h1 : exportNonChordsUpTo (n + 1) (e :: rest)
              = e :: exportNonChordsUpTo n rest := by
            simp [exportNonChordsUpTo, hoff]
          rw [h1]
          simp only [exportNonChordsUpTo, hoff]
          simp [ih rest hrest k]

/-- C34: the overlap pass is idempotent.  For every channel event list, in any order of
start times, the pass run over its own result leaves the list as it is, so no further event
is invalidated; and so `exportNonChordsToOtherVoices` run twice leaves all event lists as
one run leaves them. -/
theorem exportNonChordsToOtherVoices_idempotent :
    (∀ (events : List CAMidiImportEvent),
      exportNonChordsChannelEvents (exportNonChordsChannelEvents events)
        = exportNonChordsChannelEvents events) ∧
    (∀ (s : CAMidiImport),
      exportNonChordsToOtherVoices (exportNonChordsToOtherVoices s)
        = exportNonChordsToOtherVoices s) := by
  have hlist : ∀ (events : List CAMidiImportEvent),
      exportNonChordsChannelEvents (exportNonChordsChannelEvents events)
        = exportNonChordsChannelEvents events := by
    intro events
    unfold exportNonChordsChannelEvents
    exact exportNonChordsUpTo_idem (events.length - 1) events (by omega) _
  refine ⟨hlist, ?_⟩
  intro s
  have hvoice : ∀ (voices : List (List CAMidiImportEvent)),
      onFirstVoice exportNonChordsChannelEvents
          (onFirstVoice exportNonChordsChannelEvents voices)
        = onFirstVoice exportNonChordsChannelEvents voices := by
    intro voices
    cases voices with
    | nil => rfl
    | cons events others => simp [onFirstVoice, hlist]
  simp only [exportNonChordsToOtherVoices, List.map_map]
  congr 1
  apply List.map_congr_left
  intro voices _
  exact hvoice voices

/-! ## The limit of 1000 events -/

/-- The loop with its index, started at position `i` with enough fuel, is the loop over the
entries from `i` on of the list cut behind its first 1000 entries. -/
theorem writeEventsFor_eq (m : ScoreModel) (events : List CAMidiImportEvent) :
    ∀ (fuel i : Nat) (time : Int) (voice : List CAMusElement), events.length - i ≤ fuel →
      writeEventsFor m events fuel i time voice
        = writeEventsLoop m ((events.take 1000).drop i) time voice := by
  intro fuel
  induction fuel with
  | zero =>
    intro i time voice h
    have hdrop : (events.take 1000).drop i = [] :=
      List.drop_eq_nil_of_le (by rw [List.length_take]; omega)
    rw [hdrop]
    rfl
  | succ fuel ih =>
    intro i time voice h
    rw [writeEventsFor]
    by_cases hc : i < events.length ∧ i < 1000
    · have hlt : i < (events.take 1000).length := by rw [List.length_take]; omega
      have hget : events[i]? = some events[i] := List.getElem?_eq_getElem hc.1
      have hdrop : (events.take 1000).drop i = events[i] :: (events.take 1000).drop (i + 1) := by
        rw [List.drop_eq_getElem_cons hlt, List.getElem_take]
      rw [if_pos hc, hget, hdrop, writeEventsLoop]
      simp only []
      split
      · exact ih _ _ _ (by omega)
      · exact ih _ _ _ (by omega)
    · have hdrop : (events.take 1000).drop i = [] :=
        List.drop_eq_nil_of_le (by rw [List.length_take]; omega)
      rw [if_neg hc, hdrop]
      rfl

/-- C37: the loop of `writeMidiChannelEventsToVoice`, run with its index and its test
`i < events->size() && i < 1000`, writes for a list what it writes for the list cut behind
its first 1000 entries, which is what `writeMidiChannelEventsToVoice` leaves in the voice.
Whatever follows the first 1000 entries of a list has no influence on the result: a valid
note at an index of 1000 or more is not written. -/
theorem writeMidiChannelEventsToVoice_first_1000 (m : ScoreModel) :
    (∀ (events : List CAMidiImportEvent) (voice : List CAMusElement),
      writeEventsFor m events events.length 0 0 voice
        = writeEventsFor m (events.take 1000) (events.take 1000).length 0 0 voice) ∧
    (∀ (s : CAMidiImport) (channel : Nat) (voice : List CAMusElement),
      writeMidiChannelEventsToVoice m s channel voice
        = (writeEventsFor m ((s._allChannelsEvents.getD channel []).headD [])
            ((s._allChannelsEvents.getD channel []).headD []).length 0 0 voice).2) ∧
    (∀ (pre extra : List CAMidiImportEvent) (voice : List CAMusElement),
      1000 ≤ pre.length →
      writeEventsFor m (pre ++ extra) (pre ++ extra).length 0 0 voice
        = writeEventsFor m pre pre.length 0 0 voice) := by
  have hfor : ∀ (events : List CAMidiImportEvent) (voice : List CAMusElement),
      writeEventsFor m events events.length 0 0 voice
        = writeEventsLoop m (events.take 1000) 0 voice := by
    intro events voice
    rw [writeEventsFor_eq m events events.length 0 0 voice (by omega), List.drop_zero]
  refine ⟨?_, ?_, ?_⟩
  · intro events voice
    rw [hfor, hfor, List.take_take, min_self]
  · intro s channel voice
    rw [hfor, writeMidiChannelEventsToVoice, writeChannelEvents]
  · intro pre extra voice hpre
    rw [hfor, hfor, List.take_append_of_le_length hpre]

/-- Witness for `writeMidiChannelEventsToVoice_first_1000`: a valid note behind 1000
events. -/
theorem writeMidiChannelEventsToVoice_first_1000_witness :
    writeEventsFor ⟨fun _ => [⟨4, 0⟩], fun p => ⟨p, 0⟩, fun _ => 0⟩
        (List.replicate 1000 ⟨false, 0, 60, 0, 0, 0, 0, 0⟩
          ++ [⟨true, 0, 60, 100, 0, 480, 0, 0⟩])
        (List.replicate 1000 (⟨false, 0, 60, 0, 0, 0, 0, 0⟩ : CAMidiImportEvent)
          ++ [(⟨true, 0, 60, 100, 0, 480, 0, 0⟩ : CAMidiImportEvent)]).length 0 0 []
      = writeEventsFor ⟨fun _ => [⟨4, 0⟩], fun p => ⟨p, 0⟩, fun _ => 0⟩
          (List.replicate 1000 ⟨false, 0, 60, 0, 0, 0, 0, 0⟩)
          (List.replicate 1000 (⟨false, 0, 60, 0, 0, 0, 0, 0⟩ : CAMidiImportEvent)).length
          0 0 [] :=
  (writeMidiChannelEventsToVoice_first_1000
    ⟨fun _ => [⟨4, 0⟩], fun p => ⟨p, 0⟩, fun _ => 0⟩).2.2
    (List.replicate 1000 (⟨false, 0, 60, 0, 0, 0, 0, 0⟩ : CAMidiImportEvent))
    [(⟨true, 0, 60, 100, 0, 480, 0, 0⟩ : CAMidiImportEvent)] []
    (le_of_eq (List.length_replicate 1000 _).symm)

/-! ## The quantizer keeps the order of start times -/

/-- Rounding to the nearest multiple of 32, as the quantizer does it, is monotone. -/
theorem tdiv_32_mono (a b : Int) (h : a ≤ b) :
    Int.tdiv (a + 16) 32 * 32 ≤ Int.tdiv (b + 16) 32 * 32 := by
  rw [tdiv_32_eq, tdiv_32_eq]
  split <;> split <;> omega

theorem isValidNote_iff (e : CAMidiImportEvent) :
    isValidNote e = true ↔ e._on = true ∧ e._velocity > 0 ∧ e._pitch > 0 ∧ e._length > 0 := by
  simp [isValidNote, and_assoc]

/-- The start time that the quantizer gives to an event that is on with a pitch above 0. -/
theorem quantizeEvent_time (e : CAMidiImportEvent) (hon : e._on = true)
    (hpitch : e._pitch > 0) :
    (quantizeEvent e)._time = quantRound e._time := by
  rw [quantizeEvent_valid e hon hpitch]
  split <;> rfl

/-- An event that is a valid note after the quantizer was one before it. -/
theorem isValidNote_of_quantizeEvent (e : CAMidiImportEvent) (hlen : inInt32 e._length)
    (h : isValidNote (quantizeEvent e) = true) : isValidNote e = true := by
  by_cases hv : e._on = true ∧ e._pitch > 0
  · rw [quantizeEvent_valid e hv.1 hv.2] at h
    rw [isValidNote_iff] at h ⊢
    split at h
    · simp at h
    · simp only at h
      refine ⟨hv.1, h.2.1, hv.2, ?_⟩
      have hlen2 := h.2.2.2
      rw [quantRound_eq, tdiv_32_eq] at hlen2
      unfold inInt32 at hlen
      unfold wrapInt32 at hlen2
      split at hlen2 <;> omega
  · rw [quantizeEvent_other e hv] at h
    rw [isValidNote_iff] at h ⊢
    exact h

/-- C36 (as stated): the valid notes `a` with start 0 and `b` with start `2147483640`, so
that `0 <= start_a <= start_b`.  The sum `start_b + 16` leaves the range of `int`: the
quantizer moves `b` to the start `-2147483616`, before the start 0 that it gives to `a`. -/
theorem quantizeEvent_order_reversed :
    isValidNote ⟨true, 0, 60, 100, 0, 32, 0, 0⟩ = true ∧
    isValidNote ⟨true, 0, 62, 100, 2147483640, 32, 0, 0⟩ = true ∧
    (quantizeEvent ⟨true, 0, 60, 100, 0, 32, 0, 0⟩)._time = 0 ∧
    (quantizeEvent ⟨true, 0, 62, 100, 2147483640, 32, 0, 0⟩)._time = -2147483616 := by
  decide

/-- C36 (amended): the quantizer keeps the order of start times up to `2^31 - 17`.  For two
valid notes `a` and `b` with `0 <= start_a <= start_b <= 2147483631`, the start time that
`quantizeMidiFileEvents` gives to `a` is at most the one it gives to `b`.  Hence in a
channel list whose start times are `int` values of at most `2147483631` (and whose lengths
are `int` values) and in which every valid note starts at or before every valid note behind
it, the same holds after the quantizer for the events that are valid notes then. -/
theorem quantizeMidiFileEvents_monotone :
    (∀ (a b : CAMidiImportEvent), isValidNote a = true → isValidNote b = true →
      0 ≤ a._time → a._time ≤ b._time → b._time ≤ 2147483631 →
      (quantizeEvent a)._time ≤ (quantizeEvent b)._time) ∧
    (∀ (events : List CAMidiImportEvent),
      (∀ e ∈ events, inInt32 e._length ∧ -2147483648 ≤ e._time ∧ e._time ≤ 2147483631) →
      events.Pairwise
        (fun a b => isValidNote a = true → isValidNote b = true → a._time ≤ b._time) →
      (quantizeChannelEvents events).Pairwise
        (fun a b => isValidNote a = true → isValidNote b = true → a._time ≤ b._time)) := by
  have hpair : ∀ (a b : CAMidiImportEvent), isValidNote a = true → isValidNote b = true →
      -2147483648 ≤ a._time → a._time ≤ b._time → b._time ≤ 2147483631 →
      (quantizeEvent a)._time ≤ (quantizeEvent b)._time := by
    intro a b ha hb ha0 hab hb1
    rw [isValidNote_iff] at ha hb
    rw [quantizeEvent_time a ha.1 ha.2.2.1, quantizeEvent_time b hb.1 hb.2.2.1,
      quantRound_of_range a._time (by omega) (by omega),
      quantRound_of_range b._time (by omega) hb1]
    exact tdiv_32_mono _ _ hab
  refine ⟨fun a b ha hb ha0 hab hb1 => hpair a b ha hb (by omega) hab hb1, ?_⟩
  intro events hrange hsorted
  unfold quantizeChannelEvents
  rw [List.pairwise_map]
  refine List.Pairwise.imp_of_mem ?_ hsorted
  intro a b hamem hbmem hab hqa hqb
  have ha := isValidNote_of_quantizeEvent a (hrange a hamem).1 hqa
  have hb := isValidNote_of_quantizeEvent b (hrange b hbmem).1 hqb
  exact hpair a b ha hb (hrange a hamem).2.1 (hab ha hb) (hrange b hbmem).2.2

/-- Witness for `quantizeMidiFileEvents_monotone`: the valid notes with start 15 and
start 16 get the start times 0 and 32. -/
theorem quantizeMidiFileEvents_monotone_witness :
    (quantizeEvent ⟨true, 0, 60, 100, 15, 480, 0, 0⟩)._time
      ≤ (quantizeEvent ⟨true, 0, 62, 100, 16, 480, 0, 0⟩)._time :=
  quantizeMidiFileEvents_monotone.1 ⟨true, 0, 60, 100, 15, 480, 0, 0⟩
    ⟨true, 0, 62, 100, 16, 480, 0, 0⟩ (by decide) (by decide) (by decide) (by decide)
    (by decide)

/-! ## Notes and terminating events in the combiner -/

theorem cleanupUnpaired_cons (e : CAMidiImportEvent) (l : List CAMidiImportEvent) :
    cleanupUnpaired (e :: l)
      = (if e._on && decide (e._length = 0) then invalidate e else e) :: cleanupUnpaired l :=
  rfl

/-- The cleanup turns off an event that is off or has length 0. -/
theorem cleanup_off (e : CAMidiImportEvent) (h : e._on = true → e._length = 0) :
    (if e._on && decide (e._length = 0) then invalidate e else e)._on = false := by
  rcases Bool.eq_false_or_eq_true e._on with hon | hon
  · simp [hon, h hon, invalidate]
  · simp [hon]

/-- The cleanup leaves an event on only as it is. -/
theorem cleanup_on (e : CAMidiImportEvent)
    (h : (if e._on && decide (e._length = 0) then invalidate e else e)._on = true) :
    (if e._on && decide (e._length = 0) then invalidate e else e) = e := by
  split at h
  · simp [invalidate] at h
  · next hc => rw [if_neg hc]

/-- When `findNoteEnd` finds the end of a note of a pitch above 0, the list has one
terminating event with a pitch above 0 less, and no new on-event. -/
theorem findNoteEnd_live (pitch : Int) (hp : pitch > 0) :
    ∀ (rest : List CAMidiImportEvent) (r : Int × List CAMidiImportEvent),
      findNoteEnd pitch rest = some r →
      r.2.countP isLiveTerminating + 1 = rest.countP isLiveTerminating ∧
      ((∀ e ∈ rest, e._on = true → e._length = 0) →
        ∀ e ∈ r.2, e._on = true → e._length = 0) := by
  intro rest
  induction rest with
  | nil => intro r h; simp [findNoteEnd] at h
  | cons ej tl ih =>
    intro r h
    unfold findNoteEnd at h
    split at h
    · next hend =>
      simp only [Option.some.injEq] at h
      subst h
      simp only [isNoteEnd, Bool.and_eq_true, decide_eq_true_eq] at hend
      have hlive : isLiveTerminating ej = true := by
        simp only [isLiveTerminating, isTerminating, Bool.and_eq_true, decide_eq_true_eq]
        exact ⟨hend.2, by rw [hend.1]; exact hp⟩
      have hdead : isLiveTerminating (invalidate ej) = false := by
        simp [isLiveTerminating, invalidate]
      refine ⟨?_, ?_⟩
      · simp [List.countP_cons, hlive, hdead]
      · intro hlen e he hon
        rcases List.mem_cons.1 he with h1 | h1
        · rw [h1] at hon; simp [invalidate] at hon
        · exact hlen e (List.mem_cons_of_mem _ h1) hon
    · split at h
      · next r1 heq =>
        simp only [Option.some.injEq] at h
        subst h
        obtain ⟨hc, hl⟩ := ih r1 heq
        refine ⟨?_, ?_⟩
        · simp only [List.countP_cons]
          omega
        · intro hlen e he hon
          rcases List.mem_cons.1 he with h1 | h1
          · rw [h1] at hon ⊢
            exact hlen ej (List.mem_cons_self _ _) hon
          · exact hl (fun x hx => hlen x (List.mem_cons_of_mem _ hx)) e h1 hon
      · cases h

/-- The combiner on a list whose on-events have length 0: the events that are on afterwards
are at most as many as the terminating events with a pitch above 0, and each has a pitch
and a velocity above 0. -/
theorem combineUpTo_on_count : ∀ (n : Nat) (l : List CAMidiImportEvent),
    (∀ e ∈ l, e._on = true → e._length = 0) →
    (cleanupUnpaired (combineUpTo n l)).countP (fun e => e._on)
        ≤ l.countP isLiveTerminating ∧
    ∀ x ∈ cleanupUnpaired (combineUpTo n l), x._on = true → x._pitch > 0 ∧ x._velocity > 0 := by
  have hall : ∀ (l : List CAMidiImportEvent), (∀ e ∈ l, e._on = true → e._length = 0) →
      ∀ x ∈ cleanupUnpaired l, x._on = false := by
    intro l hlen x hx
    obtain ⟨e, he, hxe⟩ := List.mem_map.1 hx
    rw [← hxe]
    exact cleanup_off e (hlen e he)
  intro n
  induction n with
  | zero =>
    intro l hlen
    have hoff := hall l hlen
    refine ⟨?_, ?_⟩
    · have : (cleanupUnpaired (combineUpTo 0 l)).countP (fun e => e._on) = 0 := by
        rw [List.countP_eq_zero]
        intro x hx
        simp [hoff x hx]
      omega
    · intro x hx hon
      rw [hoff x hx] at hon
      cases hon
  | succ n ih =>
    intro l hlen
    cases l with
    | nil => simp [combineUpTo, cleanupUnpaired]
    | cons e rest =>
      have hrest : ∀ x ∈ rest, x._on = true → x._length = 0 :=
        fun x hx => hlen x (List.mem_cons_of_mem _ hx)
      have he := hlen e (List.mem_cons_self _ _)
      rw [combineUpTo, cleanupUnpaired_cons]
      by_cases hstart : isNoteStart e = true
      · cases hfind : findNoteEnd e._pitch rest with
        | none =>
          have hc : combineAt e rest = (e, rest) := by simp [combineAt, hstart, hfind]
          rw [hc]
          obtain ⟨ih1, ih2⟩ := ih rest hrest
          have hoff := cleanup_off e he
          refine ⟨?_, ?_⟩
          · simp only [List.countP_cons, hoff]
            simp only [Bool.false_eq_true, if_false, add_zero]
            omega
          · intro x hx hon
            rcases List.mem_cons.1 hx with h1 | h1
            · rw [h1, hoff] at hon; cases hon
            · exact ih2 x h1 hon
        | some r =>
          have hc : combineAt e rest
              = ({ e with _length := wrapInt32 (r.1 - e._time) }, r.2) := by
            simp [combineAt, hstart, hfind]
          rw [hc]
          have hs := (isNoteStart_iff e).1 hstart
          obtain ⟨hcount, hlen2⟩ := findNoteEnd_live e._pitch hs.2.2 rest r hfind
          obtain ⟨ih1, ih2⟩ := ih r.2 (hlen2 hrest)
          refine ⟨?_, ?_⟩
          · simp only [List.countP_cons]
            split <;> split <;> omega
          · intro x hx hon
            rcases List.mem_cons.1 hx with h1 | h1
            · rw [h1] at hon
              have := cleanup_on _ hon
              rw [h1, this]
              exact ⟨hs.2.2, hs.2.1⟩
            · exact ih2 x h1 hon
      · have hc : combineAt e rest = (e, rest) := by simp [combineAt, hstart]
        rw [hc]
        obtain ⟨ih1, ih2⟩ := ih rest hrest
        have hoff := cleanup_off e he
        refine ⟨?_, ?_⟩
        · simp only [List.countP_cons, hoff]
          simp only [Bool.false_eq_true, if_false, add_zero]
          omega
        · intro x hx hon
          rcases List.mem_cons.1 hx with h1 | h1
          · rw [h1, hoff] at hon; cases hon
          · exact ih2 x h1 hon

/-- C35 (as stated): a channel list that holds one note with the length 480, as left by
an earlier import, and no terminating event.  After the combiner the note is still on: one
event is on, and the input has no terminating event. -/
theorem combineMidiFileEvents_on_without_terminating :
    (combineChannelEvents [⟨true, 0, 60, 100, 0, 480, 0, 0⟩]).countP (fun e => e._on) = 1 ∧
    List.countP isTerminating [⟨true, 0, 60, 100, 0, 480, 0, 0⟩] = 0 := by
  decide

/-- C35 (amended): for every channel event list whose on-events have length 0, as the
decoder creates them, the number of events that are on after the combiner is at most the
number of terminating events (note-off, or on-event with velocity 0) of the input list, and
every event that is on after the combiner has a pitch above 0 and a velocity above 0. -/
theorem combineMidiFileEvents_on_count (events : List CAMidiImportEvent)
    (hlen : ∀ e ∈ events, e._on = true → e._length = 0) :
    (combineChannelEvents events).countP (fun e => e._on) ≤ events.countP isTerminating ∧
    ∀ x ∈ combineChannelEvents events, x._on = true → x._pitch > 0 ∧ x._velocity > 0 := by
  obtain ⟨h1, h2⟩ := combineUpTo_on_count events.length events hlen
  refine ⟨le_trans h1 ?_, h2⟩
  apply List.countP_mono_left
  intro x _ hx
  simp only [isLiveTerminating, Bool.and_eq_true] at hx
  exact hx.1

/-- Witness for `combineMidiFileEvents_on_count`: two note-ons of pitch 60 and one
note-off; one note is on afterwards. -/
theorem combineMidiFileEvents_on_count_witness :
    (combineChannelEvents
        [CAMidiImportEvent.new true 0 60 100 0, CAMidiImportEvent.new true 0 60 100 10,
         CAMidiImportEvent.new false 0 60 0 480]).countP (fun e => e._on)
      ≤ List.countP isTerminating
        [CAMidiImportEvent.new true 0 60 100 0, CAMidiImportEvent.new true 0 60 100 10,
         CAMidiImportEvent.new false 0 60 0 480] :=
  (combineMidiFileEvents_on_count
    [CAMidiImportEvent.new true 0 60 100 0, CAMidiImportEvent.new true 0 60 100 10,
     CAMidiImportEvent.new false 0 60 0 480] (by decide)).1

/-! ## A track loop that does not end -/

theorem chunkLoop_MTrk_outOfFuel (env : DecoderEnv) (peek : List Nat) (fuel : Nat)
    (s : CAMidiImport) (hidx : s._dataIndex < size peek) (herr : s._parseError = false)
    (hhead : (getHead peek s).1 = tagMTrk)
    (hlen : ¬ (getWord32 peek (getHead peek s).2).1 < 0)
    (htrack : trackLoop env peek fuel 0 (trackStart peek s) = LoopFlow.outOfFuel) :
    chunkLoop env peek (fuel + 1) s = LoopFlow.outOfFuel := by
  have hne : tagMTrk ≠ tagMThd := by decide
  rw [trackStart] at htrack
  rw [chunkLoop]
  simp [hidx, herr, hhead, hne, hlen, htrack]

/-- On `rewindingFile` the decoding of the text event leaves the importer as it was before
the event: `getString` with the length `-8` moves the cursor back over the eight bytes of
the event, so the track loop is at its test in the same state again and does not end, for
any fuel. -/
theorem trackLoop_rewindingFile (next : Int) : ∀ (fuel : Nat),
    trackLoop ⟨standardMidi, next⟩ rewindingFile fuel 0
        ⟨8, 16, false, 0, List.replicate 16 [[]]⟩ = LoopFlow.outOfFuel := by
  have hstep : decodeEvent ⟨standardMidi, next⟩ rewindingFile 0
        ⟨8, 16, false, 0, List.replicate 16 [[]]⟩
      = (0, EventFlow.goOn ⟨8, 16, false, 0, List.replicate 16 [[]]⟩) := rfl
  intro fuel
  induction fuel with
  | zero => rfl
  | succ fuel ih =>
    rw [trackLoop_goOn _ _ _ _ _ _ _ (by decide) rfl hstep]
    exact ih

/-- C31: on `rewindingFile` the track loop of `importSheetImpl` does not terminate: no fuel
suffices for the import to return.  The iteration that decodes the text event neither
advances the cursor, nor sets the parse-error flag, nor returns. -/
theorem importSheetImpl_never_returns (next : Int) (m : ScoreModel) (sheet : CASheet)
    (fuel : Nat) :
    importSheetImpl ⟨standardMidi, next⟩ m fuel rewindingFile sheet CAMidiImport.new = none ∧
    decodeEvent ⟨standardMidi, next⟩ rewindingFile 0
        ⟨8, 16, false, 0, List.replicate 16 [[]]⟩
      = (0, EventFlow.goOn ⟨8, 16, false, 0, List.replicate 16 [[]]⟩) := by
  refine ⟨?_, rfl⟩
  have hloop : chunkLoop ⟨standardMidi, next⟩ rewindingFile fuel
      { CAMidiImport.new with _dataIndex := 0, _nextTrackIndex := 0, _parseError := false }
        = LoopFlow.outOfFuel := by
    cases fuel with
    | zero => rfl
    | succ fuel =>
      exact chunkLoop_MTrk_outOfFuel _ _ fuel _ (by decide) rfl (by decide) (by decide)
        (trackLoop_rewindingFile next fuel)
  rw [importSheetImpl, hloop]

/-! ## The cursor of the stream reader -/

theorem getVariableLengthLoop_cursor (x : List Nat) : ∀ (fuel : Nat) (idx : Int) (y : Nat)
    (next : Bool), idx ≤ size x →
    idx ≤ (getVariableLengthLoop x fuel idx y next).1 ∧
      (getVariableLengthLoop x fuel idx y next).1 ≤ size x := by
  intro fuel
  induction fuel with
  | zero => intro idx y next h; exact ⟨le_refl _, h⟩
  | succ fuel ih =>
    intro idx y next h
    rw [getVariableLengthLoop]
    split
    · next hc =>
      have := ih (idx + 1) (vlqStep y (byteAt x idx))
        (decide (byteAt x idx &&& 0x80 ≠ 0)) (by omega)
      exact ⟨le_trans (by omega) this.1, this.2⟩
    · exact ⟨le_refl _, h⟩

/-- The reads that take no length, and `getString` with a length that is not negative and
with which the `int` sum `_dataIndex + len` is in range, move the cursor forward or leave it,
and keep it inside the buffer. -/
theorem reader_cursor_bounds (x : List Nat) (s : CAMidiImport)
    (hs : s._dataIndex ≤ size x) :
    (s._dataIndex ≤ (getHead x s).2._dataIndex ∧ (getHead x s).2._dataIndex ≤ size x) ∧
    (s._dataIndex ≤ (getByte x s).2._dataIndex ∧ (getByte x s).2._dataIndex ≤ size x) ∧
    (s._dataIndex ≤ (getWord16 x s).2._dataIndex ∧
      (getWord16 x s).2._dataIndex ≤ size x) ∧
    (s._dataIndex ≤ (getWord24 x s).2._dataIndex ∧
      (getWord24 x s).2._dataIndex ≤ size x) ∧
    (s._dataIndex ≤ (getWord32 x s).2._dataIndex ∧
      (getWord32 x s).2._dataIndex ≤ size x) ∧
    (s._dataIndex ≤ (getVariableLength x s).2._dataIndex ∧
      (getVariableLength x s).2._dataIndex ≤ size x) ∧
    (∀ (len : Int), 0 ≤ len → inInt32 (s._dataIndex + len) →
      s._dataIndex ≤ (getString x len s).2._dataIndex ∧
        (getString x len s).2._dataIndex ≤ size x) := by
  have hbyte : ∀ (t : CAMidiImport), t._dataIndex ≤ size x →
      t._dataIndex ≤ (getByte x t).2._dataIndex ∧ (getByte x t).2._dataIndex ≤ size x := by
    intro t ht
    unfold getByte
    split
    · simp only; omega
    · exact ⟨le_refl _, ht⟩
  have hword : ∀ (t : CAMidiImport), t._dataIndex ≤ size x →
      t._dataIndex ≤ (getWord16 x t).2._dataIndex ∧
        (getWord16 x t).2._dataIndex ≤ size x := by
    intro t ht
    unfold getWord16
    split
    · simp only; omega
    · exact ⟨le_refl _, ht⟩
  refine ⟨?_, hbyte s hs, hword s hs, ?_, ?_, ?_, ?_⟩
  · unfold getHead
    split
    · simp only; omega
    · exact ⟨le_refl _, hs⟩
  · have h1 := hword s hs
    have h2 := hbyte (getWord16 x s).2 h1.2
    simp only [getWord24]
    omega
  · have h1 := hword s hs
    have h2 := hword (getWord16 x s).2 h1.2
    simp only [getWord32]
    omega
  · exact getVariableLengthLoop_cursor x _ s._dataIndex 0 _ hs
  · intro len hlen hsum
    unfold getString
    rw [wrapInt32_eq _ hsum.1 hsum.2]
    split
    · simp only; omega
    · exact ⟨le_refl _, hs⟩

/-- C32: on `underrunFile` the decoder calls `getString` with the length `-17` that
`getVariableLength` returned for the bytes `8F FF FF FF 6F`: the call does not fail, and it
moves the cursor from 16 back to `-1`, a position before the buffer, from which the next
iteration of the track loop reads. -/
theorem getString_negative_length_cursor :
    (getVariableLength underrunFile ⟨11, 16, false, 0, []⟩).1 = -17 ∧
    getString underrunFile (-17) ⟨16, 16, false, 0, []⟩ = ([], ⟨-1, 16, false, 0, []⟩) ∧
    decodeEvent ⟨standardMidi, 0⟩ underrunFile 0 ⟨8, 16, false, 0, []⟩
      = (0, EventFlow.goOn ⟨-1, 16, false, 0, []⟩) ∧
    trackLoopRuns ⟨-1, 16, false, 0, []⟩ := by
  decide

end Canorus
